import Mathlib

/-! BadgerDB buffer manager and B+-tree index: a shallow embedding.

Part I embeds `BufMgr` of `p2/BufMgr-2021/src/buffer.cpp`.  The frame table is a
list of descriptors, the hash directory an association list, and every public
operation is a function from the pool state to the pool state after the call
together with the outcome of the call (a normal return or the exception
thrown).  A C++ exception leaves behind whatever the call had already written,
so the state component is meaningful on failure as well.

Page bytes are not part of the model: `bufPool` is only passed to
`File::writePage`, which is recorded through the `diskwrites` counter.
An index outside a `std::vector` is undefined behaviour in the source and is
reported here as the outcome `Err.OutOfBounds`.
-/

namespace BadgerDB

/-! ## Part I: the buffer manager -/

abbrev FileId := Nat

abbrev PageId := Nat

abbrev FrameId := Nat

/-- Exceptions raised by the buffer manager, together with three outcomes of the
model itself: `InvalidPage` (the file refuses to read a page it does not hold),
`OutOfBounds` (vector index out of range) and `OutOfFuel` (a loop that would
not terminate). -/
inductive Err where
  | BufferExceeded
  | PagePinned
  | PageNotPinned
  | BadBuffer
  | InvalidPage
  | OutOfBounds
  | OutOfFuel
  | BadOpcodes
  | BadScanrange
  | NoSuchKeyFound
  | ScanNotInitialized
  | IndexScanCompleted
  | BadCast
  deriving DecidableEq, Repr

/-- Outcome of a call: a normal return or a thrown exception. -/
inductive Res (α : Type) where
  | ok (a : α)
  | error (e : Err)
  deriving DecidableEq, Repr

/-- Modelled from the spec: the frame descriptor `BufDesc` of `buffer.h`
(section 3.1).  `file` is `none` when the frame holds no page; `pinCnt` and the
statistics counters are unbounded naturals because their widths are declared in
the header. -/
structure BufDesc where
  file : Option FileId
  pageNo : PageId
  frameNo : FrameId
  pinCnt : Nat
  dirty : Bool
  valid : Bool
  refbit : Bool
  deriving DecidableEq, Repr

/-- Modelled from the spec: `BufDesc::Set` of `buffer.h` stamps the descriptor
with `file`, `page_no`, `pin_count = 1`, `refbit = 1`, `dirty = false`,
`valid = true` (section 4.2.2); `frameNo` is the frame's stable identity. -/
def BufDesc.Set (d : BufDesc) (file : FileId) (pageNo : PageId) : BufDesc :=
  { d with file := some file, pageNo := pageNo, pinCnt := 1,
           dirty := false, valid := true, refbit := true }

/-- Modelled from the spec: `BufDesc::clear` of `buffer.h` returns the
descriptor to the invalid state of section 3.1: no file, `pin_count = 0`,
`dirty = false`, `refbit = false`, `valid = false`. -/
def BufDesc.clear (d : BufDesc) : BufDesc :=
  { d with file := none, pageNo := 0, pinCnt := 0,
           dirty := false, valid := false, refbit := false }

/-- Modelled from the spec: the hash directory `BufHashTbl` (sections 3.2 and
4.1), a mapping from `(file, page_no)` to a frame number with unique keys. -/
abbrev BufHashTbl := List ((FileId × PageId) × FrameId)

/-- Modelled from the spec: `BufHashTbl::lookup`; `none` stands for
`HashNotFoundException`, the normal miss signal. -/
def BufHashTbl.lookup (h : BufHashTbl) (file : FileId) (pageNo : PageId) : Option FrameId :=
  match h with
  | [] => none
  | (k, v) :: rest => if k = (file, pageNo) then some v else BufHashTbl.lookup rest file pageNo

/-- Modelled from the spec: `BufHashTbl::remove` deletes the entry of a key. -/
def BufHashTbl.remove (h : BufHashTbl) (file : FileId) (pageNo : PageId) : BufHashTbl :=
  h.filter (fun e => decide (e.1 ≠ (file, pageNo)))

/-- Modelled from the spec: `BufHashTbl::insert` binds a key to a frame; keys
stay unique. -/
def BufHashTbl.insert (h : BufHashTbl) (file : FileId) (pageNo : PageId) (frameNo : FrameId) :
    BufHashTbl :=
  ((file, pageNo), frameNo) :: BufHashTbl.remove h file pageNo

/-- Modelled from the spec: the paged files of section 6.1, reduced to the set
of pages each file currently holds. -/
structure Disk where
  allocated : List (FileId × PageId)
  deriving DecidableEq, Repr

/-- Modelled from the spec: `File::allocatePage` assigns a page number that the
file does not use; pages are numbered from 1. -/
def Disk.allocatePage (d : Disk) (file : FileId) : Disk × PageId :=
  let n := ((d.allocated.filter (fun e => decide (e.1 = file))).map (fun e => e.2)).foldl max 0 + 1
  ({ allocated := (file, n) :: d.allocated }, n)

/-- Modelled from the spec: `File::deletePage` releases a page of the file. -/
def Disk.deletePage (d : Disk) (file : FileId) (pageNo : PageId) : Disk :=
  { allocated := d.allocated.filter (fun e => decide (e ≠ (file, pageNo))) }

/-- Modelled from the spec: whether `File::readPage` can deliver the page; a
page the file does not hold is a file I/O error. -/
def Disk.holds (d : Disk) (file : FileId) (pageNo : PageId) : Bool :=
  decide ((file, pageNo) ∈ d.allocated)

/-- The state of a `BufMgr` object together with the files it works on. -/
structure BufMgr where
  numBufs : Nat
  clockHand : FrameId
  bufDescTable : List BufDesc
  hashTable : BufHashTbl
  diskreads : Nat
  diskwrites : Nat
  accesses : Nat
  disk : Disk
  deriving DecidableEq, Repr

/-- Modelled from the spec: the `BufDesc` constructor of `buffer.h` leaves a
descriptor in the invalid state of section 3.1; `BufMgr::BufMgr` then sets
`frameNo` and `valid = false`. -/
def BufDesc.fresh (i : FrameId) : BufDesc :=
  { file := none, pageNo := 0, frameNo := i, pinCnt := 0,
    dirty := false, valid := false, refbit := false }

/-- `BufMgr::BufMgr(bufs)`: every frame invalid, the hand on the last frame. -/
def BufMgr.init (bufs : Nat) (disk : Disk) : BufMgr :=
  { numBufs := bufs
    clockHand := bufs - 1
    bufDescTable := (List.range bufs).map BufDesc.fresh
    hashTable := []
    diskreads := 0
    diskwrites := 0
    accesses := 0
    disk := disk }

/-- Assignment to `bufDescTable[i]`. -/
def BufMgr.setDesc (s : BufMgr) (i : FrameId) (d : BufDesc) : BufMgr :=
  { s with bufDescTable := s.bufDescTable.set i d }

/-- `BufMgr::advanceClock`. -/
def BufMgr.advanceClock (s : BufMgr) : BufMgr :=
  { s with clockHand := (s.clockHand + 1) % s.numBufs }

/-- An argument of type `File&`.  `flushFile(File& file)` is called by users of
the pool with a file object of their own, and by `allocBuf` with
`bufDescTable[clockHand].file`, the `file` field of a frame descriptor. -/
inductive FileRef where
  | obj (file : FileId)
  | field (frame : FrameId)
  deriving DecidableEq, Repr

/-- The file object a reference denotes in the pool state `s`.  A reference to
the `file` field of a descriptor denotes whatever that field holds at the time
it is read: `none` once the descriptor has been cleared. -/
def BufMgr.fileAt (s : BufMgr) : FileRef → Option FileId
  | .obj f => some f
  | .field i =>
    match s.bufDescTable[i]? with
    | some d => d.file
    | none => none

/-- The loop of `BufMgr::flushFile`: `n` frames remain, starting at frame `i`.
The test `bufDescTable[i].file == file` reads `file` through the reference in
every round. -/
def BufMgr.flushFileLoop (file : FileRef) : Nat → FrameId → BufMgr → BufMgr × Res Unit
  | 0, _, s => (s, .ok ())
  | n + 1, i, s =>
    match s.bufDescTable[i]? with
    | none => (s, .error .OutOfBounds)
    | some d =>
      if d.file = s.fileAt file then
        if d.pinCnt ≠ 0 then (s, .error .PagePinned)
        else if d.valid = false then (s, .error .BadBuffer)
        else
          let s1 := if d.dirty = true then { s with diskwrites := s.diskwrites + 1 } else s
          BufMgr.flushFileLoop file n (i + 1) (s1.setDesc i d.clear)
      else BufMgr.flushFileLoop file n (i + 1) s

/-- `BufMgr::flushFile`. -/
def BufMgr.flushFile (s : BufMgr) (file : FileId) : BufMgr × Res Unit :=
  BufMgr.flushFileLoop (.obj file) s.numBufs 0 s

/-- The `do ... while (clockHand != start)` loop of `BufMgr::allocBuf`.  Each
`continue` of the source jumps to the loop condition, which is evaluated here
with the value `start` has at that point.  The call
`flushFile(bufDescTable[clockHand].file)` passes the victim's own `file` field
by reference. -/
def BufMgr.allocBufLoop : Nat → FrameId → BufMgr → BufMgr × Res FrameId
  | 0, _, s => (s, .error .OutOfFuel)
  | fuel + 1, start, s =>
    let s1 := s.advanceClock
    match s1.bufDescTable[s1.clockHand]? with
    | none => (s1, .error .OutOfBounds)
    | some d =>
      if d.valid = false then (s1, .ok s1.clockHand)
      else if d.refbit = true then
        let s2 := s1.setDesc s1.clockHand { d with refbit := false }
        let start1 := s2.clockHand
        if s2.clockHand ≠ start1 then BufMgr.allocBufLoop fuel start1 s2
        else (s2, .error .BufferExceeded)
      else if d.pinCnt ≠ 0 then
        if s1.clockHand ≠ start then BufMgr.allocBufLoop fuel start s1
        else (s1, .error .BufferExceeded)
      else if d.dirty = true then
        match BufMgr.flushFileLoop (.field s1.clockHand) s1.numBufs 0 s1 with
        | (s2, .error e) => (s2, .error e)
        | (s2, .ok _) => (s2, .ok s2.clockHand)
      else (s1, .ok s1.clockHand)

/-- `BufMgr::allocBuf`.  The loop body runs at most `numBufs` times. -/
def BufMgr.allocBuf (s : BufMgr) : BufMgr × Res FrameId :=
  BufMgr.allocBufLoop s.numBufs s.clockHand s

/-- `BufMgr::readPage`. -/
def BufMgr.readPage (s : BufMgr) (file : FileId) (pageNo : PageId) : BufMgr × Res Unit :=
  match s.hashTable.lookup file pageNo with
  | some frameNo =>
    match s.bufDescTable[frameNo]? with
    | none => (s, .error .OutOfBounds)
    | some d =>
      let s1 := s.setDesc frameNo { d with refbit := true, pinCnt := d.pinCnt + 1 }
      ({ s1 with accesses := s1.accesses + 1 }, .ok ())
  | none =>
    match s.allocBuf with
    | (s1, .error e) => (s1, .error e)
    | (s1, .ok frameNo) =>
      if s1.disk.holds file pageNo = true then
        let s2 := { s1 with hashTable := s1.hashTable.insert file pageNo frameNo }
        match s2.bufDescTable[frameNo]? with
        | none => (s2, .error .OutOfBounds)
        | some d =>
          let s3 := s2.setDesc frameNo (d.Set file pageNo)
          ({ s3 with diskreads := s3.diskreads + 1, accesses := s3.accesses + 1 }, .ok ())
      else (s1, .error .InvalidPage)

/-- `BufMgr::unPinPage`. -/
def BufMgr.unPinPage (s : BufMgr) (file : FileId) (pageNo : PageId) (dirty : Bool) :
    BufMgr × Res Unit :=
  match s.hashTable.lookup file pageNo with
  | none => (s, .ok ())
  | some frameNo =>
    match s.bufDescTable[frameNo]? with
    | none => (s, .error .OutOfBounds)
    | some d =>
      if d.pinCnt = 0 then (s, .error .PageNotPinned)
      else
        let d1 := { d with pinCnt := d.pinCnt - 1 }
        let d2 := if dirty = true then { d1 with dirty := true } else d1
        (s.setDesc frameNo d2, .ok ())

/-- `BufMgr::allocPage`; the result is the new page number. -/
def BufMgr.allocPage (s : BufMgr) (file : FileId) : BufMgr × Res PageId :=
  let (disk1, pageNo) := s.disk.allocatePage file
  let s1 := { s with disk := disk1 }
  match s1.allocBuf with
  | (s2, .error e) => (s2, .error e)
  | (s2, .ok frameNo) =>
    match s2.bufDescTable[frameNo]? with
    | none => (s2, .error .OutOfBounds)
    | some d =>
      let s3 := s2.setDesc frameNo (d.Set file pageNo)
      ({ s3 with hashTable := s3.hashTable.insert file pageNo frameNo }, .ok pageNo)

/-- The part of `BufMgr::disposePage` after the `try` block: the pin check
reads `bufDescTable[PageNo]`, then the page is deleted from the file. -/
def BufMgr.disposeCheck (s : BufMgr) (file : FileId) (PageNo : PageId) : BufMgr × Res Unit :=
  match s.bufDescTable[PageNo]? with
  | none => (s, .error .OutOfBounds)
  | some d =>
    if d.pinCnt ≠ 0 then (s, .error .PagePinned)
    else ({ s with disk := s.disk.deletePage file PageNo }, .ok ())

/-- `BufMgr::disposePage`. -/
def BufMgr.disposePage (s : BufMgr) (file : FileId) (PageNo : PageId) : BufMgr × Res Unit :=
  match s.hashTable.lookup file PageNo with
  | some frameNo =>
    match s.bufDescTable[frameNo]? with
    | none => (s, .error .OutOfBounds)
    | some d =>
      let s0 := s.setDesc frameNo d.clear
      BufMgr.disposeCheck { s0 with hashTable := s0.hashTable.remove file PageNo } file PageNo
  | none => BufMgr.disposeCheck s file PageNo

/-- A call of one public operation of the buffer manager. -/
inductive Op where
  | readPage (file : FileId) (pageNo : PageId)
  | allocPage (file : FileId)
  | unPinPage (file : FileId) (pageNo : PageId) (dirty : Bool)
  | flushFile (file : FileId)
  | disposePage (file : FileId) (pageNo : PageId)
  deriving DecidableEq, Repr

/-- The pool state after a call, whether it returned or threw. -/
def BufMgr.step (s : BufMgr) : Op → BufMgr
  | .readPage f p => (s.readPage f p).1
  | .allocPage f => (s.allocPage f).1
  | .unPinPage f p d => (s.unPinPage f p d).1
  | .flushFile f => (s.flushFile f).1
  | .disposePage f p => (s.disposePage f p).1

/-- The pool state after a sequence of calls. -/
def BufMgr.run (s : BufMgr) (ops : List Op) : BufMgr :=
  ops.foldl BufMgr.step s

/-- States reachable from a freshly constructed pool through the public
operations. -/
inductive Reachable : BufMgr → Prop where
  | init (bufs : Nat) (disk : Disk) : Reachable (BufMgr.init bufs disk)
  | step {s : BufMgr} (op : Op) : Reachable s → Reachable (s.step op)

/-! ## Part II: the B+-tree index

`BTreeIndex` of `p3/src/btree.cpp`.  A page of the index file holds a leaf or
an internal node; the arrays of a node are lists of the declared capacity and
keep whatever the slots beyond `numValidKeys` last received.  The two
capacities `INTARRAYLEAFSIZE` and `INTARRAYNONLEAFSIZE` come from `btree.h`
and are fields of the index state.  A cast of a page to the other node kind
depends on the byte layout and is reported as `Err.BadCast`.
-/

/-- Modelled from the spec: a record identifier is a page number and a slot
(section 3.4); the type is declared in `types.h`. -/
structure RecordId where
  page_number : Nat
  slot_number : Nat
  deriving DecidableEq, Repr

/-- Scan operators of `btree.h`. -/
inductive Operator where
  | LT
  | LTE
  | GTE
  | GT
  deriving DecidableEq, Repr

/-- Leaf node: parallel key and record-id arrays, the number of valid entries
and the page number of the right sibling (0 for none). -/
structure LeafNodeInt where
  keyArray : List Int
  ridArray : List RecordId
  numValidKeys : Nat
  rightSibPageNo : PageId
  deriving DecidableEq, Repr

/-- Internal node: `level` is 1 when the children are leaves. -/
structure NonLeafNodeInt where
  level : Nat
  keyArray : List Int
  pageNoArray : List PageId
  numValidKeys : Nat
  deriving DecidableEq, Repr

/-- The node a page of the index file holds. -/
inductive Node where
  | leaf (n : LeafNodeInt)
  | nonLeaf (n : NonLeafNodeInt)
  deriving DecidableEq, Repr

/-- The value-initialised `LeafNodeInt()`. -/
def LeafNodeInt.zero (cap : Nat) : LeafNodeInt :=
  { keyArray := List.replicate cap 0, ridArray := List.replicate cap ⟨0, 0⟩,
    numValidKeys := 0, rightSibPageNo := 0 }

/-- The value-initialised `NonLeafNodeInt()`. -/
def NonLeafNodeInt.zero (cap : Nat) : NonLeafNodeInt :=
  { level := 0, keyArray := List.replicate cap 0, pageNoArray := List.replicate (cap + 1) 0,
    numValidKeys := 0 }

/-- The loop `while (index < numValidKeys && key >= keyArray[index]) index++`
of `findIndex`, `findLeaf` and `findParent`. -/
def findIndexLoop (keyArray : List Int) (numValidKeys : Nat) (key : Int) : Nat → Nat → Nat
  | 0, index => index
  | fuel + 1, index =>
    if index < numValidKeys ∧ key ≥ keyArray.getD index 0 then
      findIndexLoop keyArray numValidKeys key fuel (index + 1)
    else index

/-- `BTreeIndex::findIndex` on a leaf. -/
def LeafNodeInt.findIndex (node : LeafNodeInt) (key : Int) : Nat :=
  findIndexLoop node.keyArray node.numValidKeys key node.numValidKeys 0

/-- `BTreeIndex::findIndex` on an internal node. -/
def NonLeafNodeInt.findIndex (node : NonLeafNodeInt) (key : Int) : Nat :=
  findIndexLoop node.keyArray node.numValidKeys key node.numValidKeys 0

/-- The leaf loop of `shiftData`, with `i` counting down from `numValidKeys`. -/
def LeafNodeInt.shiftLoop (index : Nat) : Nat → LeafNodeInt → LeafNodeInt
  | 0, node => node
  | i + 1, node =>
    if i + 1 > index then
      LeafNodeInt.shiftLoop index i
        { node with
          ridArray := node.ridArray.set (i + 1) (node.ridArray.getD i ⟨0, 0⟩)
          keyArray := node.keyArray.set (i + 1) (node.keyArray.getD i 0) }
    else node

/-- `BTreeIndex::shiftData` on a leaf. -/
def LeafNodeInt.shiftData (node : LeafNodeInt) (index : Nat) : LeafNodeInt :=
  LeafNodeInt.shiftLoop index node.numValidKeys node

/-- The internal-node loop of `shiftData`. -/
def NonLeafNodeInt.shiftLoop (index : Nat) : Nat → NonLeafNodeInt → NonLeafNodeInt
  | 0, node => node
  | i + 1, node =>
    if i + 1 > index then
      NonLeafNodeInt.shiftLoop index i
        { node with
          pageNoArray := node.pageNoArray.set (i + 2) (node.pageNoArray.getD (i + 1) 0)
          keyArray := node.keyArray.set (i + 1) (node.keyArray.getD i 0) }
    else node

/-- `BTreeIndex::shiftData` on an internal node. -/
def NonLeafNodeInt.shiftData (node : NonLeafNodeInt) (index : Nat) : NonLeafNodeInt :=
  NonLeafNodeInt.shiftLoop index node.numValidKeys node

/-- The fits path of `insertEntry` on a leaf: find the slot, shift, write the
entry, count it. -/
def LeafNodeInt.insertFits (leafNode : LeafNodeInt) (currKey : Int) (rid : RecordId) :
    LeafNodeInt :=
  let insertAt := leafNode.findIndex currKey
  let n1 := leafNode.shiftData insertAt
  { n1 with
    keyArray := n1.keyArray.set insertAt currKey
    ridArray := n1.ridArray.set insertAt rid
    numValidKeys := n1.numValidKeys + 1 }

/-- The fits path of `insertEntry` on an internal node. -/
def NonLeafNodeInt.insertFits (currNode : NonLeafNodeInt) (currKey : Int) (prevId : PageId) :
    NonLeafNodeInt :=
  let insertAt := currNode.findIndex currKey
  let n1 := currNode.shiftData insertAt
  { n1 with
    keyArray := n1.keyArray.set insertAt currKey
    pageNoArray := n1.pageNoArray.set (insertAt + 1) prevId
    numValidKeys := n1.numValidKeys + 1 }

/-- The leaf split of `insertEntry`: the old leaf, the new leaf and the key
passed up.  `cap` is `INTARRAYLEAFSIZE`. -/
def LeafNodeInt.split (cap : Nat) (leafNode : LeafNodeInt) (currKey : Int) (rid : RecordId)
    (secondPageId : PageId) : LeafNodeInt × LeafNodeInt × Int :=
  let second0 := { LeafNodeInt.zero cap with numValidKeys := cap / 2 }
  let insertLeft : Bool := decide (leafNode.findIndex currKey ≤ cap / 2)
  let copyNum := (cap + (if insertLeft then 1 else 0)) / 2
  let second1 := (List.range copyNum).foldl
    (fun (nd : LeafNodeInt) i =>
      { nd with
        keyArray := nd.keyArray.set i (leafNode.keyArray.getD (cap - copyNum + i) 0)
        ridArray := nd.ridArray.set i (leafNode.ridArray.getD (cap - copyNum + i) ⟨0, 0⟩) })
    second0
  let second2 := { second1 with numValidKeys := copyNum }
  let leaf1 := { leafNode with numValidKeys := cap - copyNum }
  let leaf2 := if insertLeft then leaf1.insertFits currKey rid else leaf1
  let second3 := if insertLeft then second2 else second2.insertFits currKey rid
  let second4 := { second3 with rightSibPageNo := leaf2.rightSibPageNo }
  let leaf3 := { leaf2 with rightSibPageNo := secondPageId }
  (leaf3, second4, second4.keyArray.getD 0 0)

/-- The internal split of `insertEntry`: the old node, the new node and the key
pushed up.  `cap` is `INTARRAYNONLEAFSIZE`. -/
def NonLeafNodeInt.split (cap : Nat) (currNode : NonLeafNodeInt) (currKey : Int)
    (prevId : PageId) : NonLeafNodeInt × NonLeafNodeInt × Int :=
  let second0 := NonLeafNodeInt.zero cap
  let insertLeft : Bool := decide (currNode.findIndex currKey < cap / 2)
  let copyNum := (cap - (if insertLeft then 0 else 1)) / 2
  let second1 := (List.range copyNum).foldl
    (fun (nd : NonLeafNodeInt) i =>
      { nd with
        keyArray := nd.keyArray.set i (currNode.keyArray.getD (cap - copyNum + i) 0)
        pageNoArray := nd.pageNoArray.set i (currNode.pageNoArray.getD (cap - copyNum + i) 0) })
    second0
  let second2 := { second1 with
    pageNoArray := second1.pageNoArray.set copyNum (currNode.pageNoArray.getD cap 0)
    numValidKeys := copyNum }
  let curr1 := { currNode with numValidKeys := cap - copyNum }
  if insertLeft then
    if currKey > curr1.keyArray.getD (curr1.numValidKeys - 1) 0 then
      let curr2 := { curr1 with pageNoArray := curr1.pageNoArray.set curr1.numValidKeys prevId }
      (curr2, { second2 with level := curr2.level }, currKey)
    else
      let currKey1 := curr1.keyArray.getD curr1.numValidKeys 0
      let curr2 := { curr1 with numValidKeys := curr1.numValidKeys - 1 }
      let curr3 := curr2.insertFits currKey1 prevId
      (curr3, { second2 with level := curr3.level }, currKey1)
  else
    let second3 := second2.insertFits currKey prevId
    let curr2 := { curr1 with numValidKeys := curr1.numValidKeys - 1 }
    let currKey1 := curr2.keyArray.getD curr2.numValidKeys 0
    (curr2, { second3 with level := curr2.level }, currKey1)

/-- The state of a `BTreeIndex` object and of the pages of its file.
Modelled from the spec: the buffer pool the index runs on never evicts and is
never flushed; `pins` maps the pages it holds to their pin counts (a page
without an entry is not in the pool), `dirtied` lists the pages that were
released with `dirty = true`, and the file hands out page numbers in sequence
(`nextPageNo`). -/
structure BTreeIndex where
  INTARRAYLEAFSIZE : Nat
  INTARRAYNONLEAFSIZE : Nat
  pages : List (PageId × Node)
  pins : List (PageId × Nat)
  dirtied : List PageId
  nextPageNo : PageId
  rootPageNum : PageId
  leafOccupancy : Nat
  nodeOccupancy : Nat
  scanExecuting : Bool
  nextEntry : Nat
  currentPageNum : PageId
  lowValInt : Int
  highValInt : Int
  lowOp : Operator
  highOp : Operator
  deriving DecidableEq, Repr

/-- Lookup in a table keyed by page number. -/
def assocGet {α : Type} : List (PageId × α) → PageId → Option α
  | [], _ => none
  | (k, v) :: rest, p => if k = p then some v else assocGet rest p

/-- Update of a table keyed by page number. -/
def assocSet {α : Type} : List (PageId × α) → PageId → α → List (PageId × α)
  | [], p, a => [(p, a)]
  | (k, v) :: rest, p, a => if k = p then (p, a) :: rest else (k, v) :: assocSet rest p a

/-- A method of the index: from the state to the state after the call and the
outcome of the call. -/
def IndexM (α : Type) : Type := BTreeIndex → BTreeIndex × Res α

/-- Normal return. -/
def IndexM.pure {α : Type} (a : α) : IndexM α := fun t => (t, .ok a)

/-- Sequencing; an exception ends the call with the state reached so far. -/
def IndexM.bind {α β : Type} (m : IndexM α) (f : α → IndexM β) : IndexM β := fun t =>
  match m t with
  | (t1, .ok a) => f a t1
  | (t1, .error e) => (t1, .error e)

instance : Monad IndexM where
  pure := IndexM.pure
  bind := IndexM.bind

/-- Throw an exception. -/
def IndexM.throw {α : Type} (e : Err) : IndexM α := fun t => (t, .error e)

/-- Read the state. -/
def IndexM.get : IndexM BTreeIndex := fun t => (t, .ok t)

/-- Write to the state. -/
def IndexM.modify (f : BTreeIndex → BTreeIndex) : IndexM Unit := fun t => (f t, .ok ())

/-- The pin count of a page. -/
def BTreeIndex.pinCnt (t : BTreeIndex) (p : PageId) : Nat := (assocGet t.pins p).getD 0

/-- Modelled from the spec: `bufMgr->readPage(file, p, page)` on the pool of the
index pins the page and yields its contents. -/
def BTreeIndex.readPage (p : PageId) : IndexM Node := fun t =>
  match assocGet t.pages p with
  | none => (t, .error .InvalidPage)
  | some nd => ({ t with pins := assocSet t.pins p (t.pinCnt p + 1) }, .ok nd)

/-- The pages released dirty, after a release of `p` with the flag `dirty`. -/
def markDirty (l : List PageId) (p : PageId) : Bool → List PageId
  | true => if p ∈ l then l else p :: l
  | false => l

/-- Modelled from the spec: `bufMgr->unPinPage(file, p, dirty)` on the pool of
the index (section 4.2.3).  A page the pool does not hold is ignored; a page
held with pin count 0 is `PageNotPinnedException`; otherwise the pin count
drops by one and a `dirty` release is recorded. -/
def BTreeIndex.unPinPage (p : PageId) (dirty : Bool) : IndexM Unit := fun t =>
  if assocGet t.pins p = none then (t, .ok ())
  else if t.pinCnt p = 0 then (t, .error .PageNotPinned)
  else
    ({ t with pins := assocSet t.pins p (t.pinCnt p - 1)
              dirtied := markDirty t.dirtied p dirty }, .ok ())

/-- Modelled from the spec: `bufMgr->allocPage(file, p, page)` on the pool of the
index returns a new page, pinned once. -/
def BTreeIndex.allocPage : IndexM PageId := fun t =>
  ({ t with pins := assocSet t.pins t.nextPageNo 1, nextPageNo := t.nextPageNo + 1 },
    .ok t.nextPageNo)

/-- A store through a node pointer into the page `p`. -/
def BTreeIndex.writeNode (p : PageId) (nd : Node) : IndexM Unit :=
  IndexM.modify (fun t => { t with pages := assocSet t.pages p nd })

/-- The contents of the page that a pointer returned by the pool refers to. -/
def BTreeIndex.pageData (p : PageId) : IndexM Node := fun t =>
  match assocGet t.pages p with
  | none => (t, .error .InvalidPage)
  | some nd => (t, .ok nd)

/-- The cast `(LeafNodeInt*) page`. -/
def Node.asLeaf : Node → IndexM LeafNodeInt
  | .leaf n => IndexM.pure n
  | .nonLeaf _ => IndexM.throw .BadCast

/-- The cast `(NonLeafNodeInt*) page`. -/
def Node.asNonLeaf : Node → IndexM NonLeafNodeInt
  | .nonLeaf n => IndexM.pure n
  | .leaf _ => IndexM.throw .BadCast

/-- Modelled from the spec: the key `findParent` takes from its target, read as
`((NonLeafNodeInt*) page)->keyArray[0]` whatever the kind of the node.  Which
slot of a leaf page this cast reads is fixed by the field order of `btree.h`;
following section 4.3.3 (the first key of the target) it is the first key slot
of the node. -/
def Node.firstKey : Node → Int
  | .leaf n => n.keyArray.getD 0 0
  | .nonLeaf n => n.keyArray.getD 0 0

/-- The loop of `BTreeIndex::findLeaf`.  `setPageNo` is the assignment to the
reference parameter `pageNo`; the result is the final `pageNo` and `currDepth`. -/
def BTreeIndex.findLeafLoop (setPageNo : PageId → IndexM Unit) (key : Int) :
    Nat → PageId → Node → Int → Bool → IndexM (PageId × Int)
  | 0, pageNo, _, currDepth, isLeaf =>
    if isLeaf then IndexM.pure (pageNo, currDepth) else IndexM.throw .OutOfFuel
  | fuel + 1, pageNo, page, currDepth, isLeaf =>
    if isLeaf then IndexM.pure (pageNo, currDepth)
    else do
      let currNode ← page.asNonLeaf
      let isLeaf1 : Bool := decide (currNode.level ≠ 0)
      let insertAt := currNode.findIndex key
      let old := pageNo
      let pageNo1 := currNode.pageNoArray.getD insertAt 0
      setPageNo pageNo1
      BTreeIndex.unPinPage old false
      let page1 ← BTreeIndex.readPage pageNo1
      BTreeIndex.findLeafLoop setPageNo key fuel pageNo1 page1 (currDepth + 1) isLeaf1

/-- `BTreeIndex::findLeaf`.  A descent visits each page at most once, so the
number of pages handed out bounds the loop. -/
def BTreeIndex.findLeaf (setPageNo : PageId → IndexM Unit) (pageNo : PageId) (key : Int)
    (currDepth : Int) (isLeaf : Bool) : IndexM (PageId × Int) := do
  let page ← BTreeIndex.readPage pageNo
  let t ← IndexM.get
  BTreeIndex.findLeafLoop setPageNo key t.nextPageNo pageNo page currDepth isLeaf

/-- `BTreeIndex::findLeafFromRoot`, whose `pageNo` is the member
`currentPageNum`. -/
def BTreeIndex.findLeafFromRoot (key : Int) : IndexM Unit := do
  let t ← IndexM.get
  let setPageNo := fun (p : PageId) => IndexM.modify (fun t => { t with currentPageNum := p })
  setPageNo t.rootPageNum
  let _ ← BTreeIndex.findLeaf setPageNo t.rootPageNum key 0 (decide (t.nodeOccupancy = 0))
  IndexM.pure ()

/-- The `while (true)` loop of `BTreeIndex::findParent`; the result is the
final `id`. -/
def BTreeIndex.findParentLoop (target : PageId) (key : Int) : Nat → PageId → Node → IndexM PageId
  | 0, _, _ => IndexM.throw .OutOfFuel
  | fuel + 1, id, page => do
    let currNode ← page.asNonLeaf
    let index := currNode.findIndex key
    if currNode.pageNoArray.getD index 0 = target then IndexM.pure id
    else do
      let old := id
      let id1 := currNode.pageNoArray.getD index 0
      BTreeIndex.unPinPage old false
      let page1 ← BTreeIndex.readPage id1
      BTreeIndex.findParentLoop target key fuel id1 page1

/-- `BTreeIndex::findParent`. -/
def BTreeIndex.findParent (target : PageId) : IndexM PageId := do
  let t ← IndexM.get
  if target = t.rootPageNum then IndexM.pure target
  else do
    let id := t.rootPageNum
    let page ← BTreeIndex.readPage target
    let key := page.firstKey
    BTreeIndex.unPinPage target false
    let page1 ← BTreeIndex.readPage id
    let id1 ← BTreeIndex.findParentLoop target key t.nextPageNo id page1
    BTreeIndex.unPinPage id1 false
    IndexM.pure id1

/-- The loop `while (currDepth >= 0)` of `insertEntry`.  The result is `none`
when the loop returned from `insertEntry`, and the final `currId`, `currKey` and
`secondPageId` when it ran to its end. -/
def BTreeIndex.insertWalkUp :
    Nat → PageId → Int → PageId → Int → PageId → IndexM (Option (PageId × Int × PageId))
  | 0, currId, currKey, _, currDepth, secondPageId =>
    if currDepth ≥ 0 then IndexM.throw .OutOfFuel
    else IndexM.pure (some (currId, currKey, secondPageId))
  | fuel + 1, currId, currKey, prevId, currDepth, secondPageId =>
    if currDepth ≥ 0 then do
      let currPage ← BTreeIndex.readPage currId
      let currNode ← currPage.asNonLeaf
      IndexM.modify (fun t => { t with nodeOccupancy := t.nodeOccupancy + 1 })
      let t ← IndexM.get
      if currNode.numValidKeys < t.INTARRAYNONLEAFSIZE then do
        BTreeIndex.writeNode currId (.nonLeaf (currNode.insertFits currKey prevId))
        BTreeIndex.unPinPage currId true
        IndexM.pure none
      else do
        let secondPageId1 ← BTreeIndex.allocPage
        let (currNode1, secondNode, currKey1) :=
          currNode.split t.INTARRAYNONLEAFSIZE currKey prevId
        BTreeIndex.writeNode secondPageId1 (.nonLeaf secondNode)
        BTreeIndex.writeNode currId (.nonLeaf currNode1)
        BTreeIndex.unPinPage secondPageId1 true
        BTreeIndex.unPinPage currId true
        let currId1 ← BTreeIndex.findParent currId
        BTreeIndex.insertWalkUp fuel currId1 currKey1 secondPageId1 (currDepth - 1) secondPageId1
    else IndexM.pure (some (currId, currKey, secondPageId))

/-- The tail of `insertEntry` that makes a new root. -/
def BTreeIndex.insertNewRoot (currId : PageId) (currKey : Int) (secondPageId : PageId) :
    IndexM Unit := do
  let newRoot ← BTreeIndex.allocPage
  IndexM.modify (fun t => { t with rootPageNum := newRoot })
  let t ← IndexM.get
  let n0 := NonLeafNodeInt.zero t.INTARRAYNONLEAFSIZE
  let n1 := { n0 with
    keyArray := n0.keyArray.set 0 currKey
    numValidKeys := 1
    level := if t.nodeOccupancy = 0 then 1 else 0 }
  IndexM.modify (fun t => { t with nodeOccupancy := t.nodeOccupancy + 1 })
  let n2 := { n1 with pageNoArray := (n1.pageNoArray.set 0 currId).set 1 secondPageId }
  BTreeIndex.writeNode newRoot (.nonLeaf n2)
  let _ ← BTreeIndex.readPage currId
  let _ ← BTreeIndex.readPage secondPageId
  BTreeIndex.unPinPage currId true
  BTreeIndex.unPinPage currId true
  BTreeIndex.unPinPage secondPageId true

/-- `BTreeIndex::insertEntry`. -/
def BTreeIndex.insertEntry (key : Int) (rid : RecordId) : IndexM Unit := do
  IndexM.modify (fun t => { t with leafOccupancy := t.leafOccupancy + 1 })
  let currKey := key
  let t ← IndexM.get
  let (currId, currDepth) ←
    BTreeIndex.findLeaf (fun _ => IndexM.pure ()) t.rootPageNum currKey 0
      (decide (t.nodeOccupancy = 0))
  let currPage ← BTreeIndex.pageData currId
  let leafNode ← currPage.asLeaf
  if leafNode.numValidKeys < t.INTARRAYLEAFSIZE then do
    BTreeIndex.writeNode currId (.leaf (leafNode.insertFits currKey rid))
    BTreeIndex.unPinPage currId true
  else do
    let secondPageId ← BTreeIndex.allocPage
    let (leafNode1, secondLeafNode, currKey1) :=
      leafNode.split t.INTARRAYLEAFSIZE currKey rid secondPageId
    BTreeIndex.writeNode secondPageId (.leaf secondLeafNode)
    BTreeIndex.writeNode currId (.leaf leafNode1)
    let prevId := secondPageId
    BTreeIndex.unPinPage secondPageId true
    BTreeIndex.unPinPage currId true
    let currId1 ← BTreeIndex.findParent currId
    let r ← BTreeIndex.insertWalkUp (currDepth.toNat + 1) currId1 currKey1 prevId (currDepth - 1)
      secondPageId
    match r with
    | none => IndexM.pure ()
    | some (currId2, currKey2, secondPageId2) =>
      BTreeIndex.insertNewRoot currId2 currKey2 secondPageId2

/-- `BTreeIndex::endScan`. -/
def BTreeIndex.endScan : IndexM Unit := do
  let t ← IndexM.get
  if t.scanExecuting = false then IndexM.throw .ScanNotInitialized
  else do
    IndexM.modify (fun t => { t with scanExecuting := false })
    BTreeIndex.unPinPage t.currentPageNum false

/-- The inner loop of `startScan` over the slots of the current leaf: `none`
when the leaf is exhausted, `some ()` when `startScan` returns. -/
def BTreeIndex.startScanSlots (currentNode : LeafNodeInt) : Nat → IndexM (Option Unit)
  | 0 => do
    let t ← IndexM.get
    if t.nextEntry < currentNode.numValidKeys then IndexM.throw .OutOfFuel
    else IndexM.pure none
  | fuel + 1 => do
    let t ← IndexM.get
    if t.nextEntry < currentNode.numValidKeys then
      let key := currentNode.keyArray.getD t.nextEntry 0
      if (t.highOp = .LT ∧ key ≥ t.highValInt) ∨ (t.highOp = .LTE ∧ key > t.highValInt) then
        IndexM.throw .NoSuchKeyFound
      else if (t.lowOp = .GTE ∧ t.lowValInt ≤ key) ∨ (t.lowOp = .GT ∧ t.lowValInt < key) then
        IndexM.pure (some ())
      else do
        IndexM.modify (fun t => { t with nextEntry := t.nextEntry + 1 })
        BTreeIndex.startScanSlots currentNode fuel
    else IndexM.pure none

/-- The loop `while (true)` of `startScan`.  The pointer `currentNode` is
assigned once, before the loop, from the leaf the descent reached; the loop
moves `currentPageNum` and `currentPageData` to the right sibling but goes on
reading the slots and the sibling pointer through `currentNode`. -/
def BTreeIndex.startScanLeaves (currentNode : LeafNodeInt) : Nat → IndexM Unit
  | 0 => IndexM.throw .OutOfFuel
  | fuel + 1 => do
    IndexM.modify (fun t => { t with nextEntry := 0 })
    let r ← BTreeIndex.startScanSlots currentNode currentNode.numValidKeys
    match r with
    | some _ => IndexM.pure ()
    | none =>
      let nextPageId := currentNode.rightSibPageNo
      if nextPageId = 0 then IndexM.throw .NoSuchKeyFound
      else do
        let t ← IndexM.get
        BTreeIndex.unPinPage t.currentPageNum false
        IndexM.modify (fun t => { t with currentPageNum := nextPageId })
        let _ ← BTreeIndex.readPage nextPageId
        BTreeIndex.startScanLeaves currentNode fuel

/-- `BTreeIndex::startScan`. -/
def BTreeIndex.startScan (lowValParm : Int) (lowOpParm : Operator) (highValParm : Int)
    (highOpParm : Operator) : IndexM Unit := do
  if lowOpParm ≠ .GTE ∧ lowOpParm ≠ .GT then IndexM.throw .BadOpcodes
  else if highOpParm ≠ .LTE ∧ highOpParm ≠ .LT then IndexM.throw .BadOpcodes
  else do
    let t ← IndexM.get
    if t.leafOccupancy = 0 then IndexM.throw .NoSuchKeyFound
    else do
      if t.scanExecuting = true then BTreeIndex.endScan else IndexM.pure ()
      IndexM.modify (fun t => { t with lowValInt := lowValParm, highValInt := highValParm })
      if lowValParm > highValParm then IndexM.throw .BadScanrange
      else do
        IndexM.modify (fun t =>
          { t with scanExecuting := true, lowOp := lowOpParm, highOp := highOpParm })
        BTreeIndex.findLeafFromRoot lowValParm
        let t1 ← IndexM.get
        let currentPageData ← BTreeIndex.pageData t1.currentPageNum
        let currentNode ← currentPageData.asLeaf
        BTreeIndex.startScanLeaves currentNode t1.nextPageNo

/-- `BTreeIndex::scanNext`; the result is `outRid`. -/
def BTreeIndex.scanNext : IndexM RecordId := do
  let t ← IndexM.get
  if t.scanExecuting = false then IndexM.throw .ScanNotInitialized
  else do
    let currentPageData ← BTreeIndex.pageData t.currentPageNum
    let currentNode0 ← currentPageData.asLeaf
    let currentNode ←
      if t.nextEntry ≥ currentNode0.numValidKeys then do
        if currentNode0.rightSibPageNo = 0 then IndexM.throw .IndexScanCompleted
        else do
          let nextPageId := currentNode0.rightSibPageNo
          BTreeIndex.unPinPage t.currentPageNum false
          IndexM.modify (fun t => { t with currentPageNum := nextPageId })
          let page1 ← BTreeIndex.readPage nextPageId
          IndexM.modify (fun t => { t with nextEntry := 0 })
          page1.asLeaf
      else IndexM.pure currentNode0
    let t1 ← IndexM.get
    let outRid := currentNode.ridArray.getD t1.nextEntry ⟨0, 0⟩
    let keyValue := currentNode.keyArray.getD t1.nextEntry 0
    if keyValue > t1.highValInt ∨ (keyValue = t1.highValInt ∧ t1.highOp = .LT) then
      IndexM.throw .IndexScanCompleted
    else do
      IndexM.modify (fun t => { t with nextEntry := t.nextEntry + 1 })
      IndexM.pure outRid

/-- An index on a new file over an empty relation, as the constructor leaves
it: page 1 is the header (unpinned), page 2 the root, an empty leaf that stays
pinned.  Modelled from the spec: the members `leafOccupancy`, `nodeOccupancy`
and `scanExecuting`, declared in `btree.h`, start at 0, 0 and `false`. -/
def BTreeIndex.empty (leafCap nodeCap : Nat) : BTreeIndex :=
  { INTARRAYLEAFSIZE := leafCap
    INTARRAYNONLEAFSIZE := nodeCap
    pages := [(2, .leaf (LeafNodeInt.zero leafCap))]
    pins := [(1, 0), (2, 1)]
    dirtied := []
    nextPageNo := 3
    rootPageNum := 2
    leafOccupancy := 0
    nodeOccupancy := 0
    scanExecuting := false
    nextEntry := 0
    currentPageNum := 0
    lowValInt := 0
    highValInt := 0
    lowOp := .GTE
    highOp := .LTE }

/-- The state after a sequence of `insertEntry` calls, and the first exception
if one of them threw. -/
def BTreeIndex.insertAll : List (Int × RecordId) → IndexM Unit
  | [] => IndexM.pure ()
  | (k, r) :: rest => do
    BTreeIndex.insertEntry k r
    BTreeIndex.insertAll rest

/-- Calls of `scanNext` until `IndexScanCompletedException`, collecting the
record ids returned. -/
def BTreeIndex.scanNextAll : Nat → List RecordId → IndexM (List RecordId)
  | 0, _ => IndexM.throw .OutOfFuel
  | fuel + 1, acc => fun t =>
    match BTreeIndex.scanNext t with
    | (t1, .ok rid) => BTreeIndex.scanNextAll fuel (acc ++ [rid]) t1
    | (t1, .error .IndexScanCompleted) => (t1, .ok acc)
    | (t1, .error e) => (t1, .error e)

/-- A whole range scan: `startScan`, then `scanNext` until the scan completes.
A complete scan returns at most `leafOccupancy` record ids. -/
def BTreeIndex.rangeScan (lowVal : Int) (lowOp : Operator) (highVal : Int) (highOp : Operator) :
    IndexM (List RecordId) := do
  BTreeIndex.startScan lowVal lowOp highVal highOp
  let t ← IndexM.get
  BTreeIndex.scanNextAll (t.leafOccupancy + 1) []

/-- Entries whose record id carries the key as its page number. -/
def entriesOf (keys : List Nat) : List (Int × RecordId) :=
  keys.map (fun (k : Nat) => (Int.ofNat k, RecordId.mk k 0))

/-- The index with leaf capacity 4 and internal capacity 2 after `insertEntry`
of the keys 2, 4, ..., 16 and then 1, 3, 5, 7. -/
def evensThenOdds : BTreeIndex × Res Unit :=
  BTreeIndex.insertAll (entriesOf [2, 4, 6, 8, 10, 12, 14, 16, 1, 3, 5, 7]) (BTreeIndex.empty 4 2)

/-! ## Predicates used in the proofs -/

/-- The fields of the pool that no loop of the buffer manager writes. -/
def BufMgr.sameFrame (s t : BufMgr) : Prop :=
  t.numBufs = s.numBufs ∧ t.hashTable = s.hashTable ∧ t.diskreads = s.diskreads ∧
  t.accesses = s.accesses ∧ t.disk = s.disk ∧ t.bufDescTable.length = s.bufDescTable.length

/-- A frame that names a file is valid. -/
def BufDesc.Ok (d : BufDesc) : Prop := d.file.isSome = true → d.valid = true

/-- The frame table has `numBufs` entries and each of them satisfies
`BufDesc.Ok`. -/
def BufMgr.TableOk (s : BufMgr) : Prop :=
  s.bufDescTable.length = s.numBufs ∧ ∀ d ∈ s.bufDescTable, d.Ok

/-- The number of frames of `file` that are dirty. -/
def BufMgr.dirtyCount (file : Option FileId) (l : List BufDesc) : Nat :=
  l.countP (fun d => decide (d.file = file) && d.dirty)

/-! ## Pools used as concrete inputs -/

/-- A disk without pages. -/
def Disk.blank : Disk := { allocated := [] }

/-- One frame holding page 1 of file 7, unpinned, with its refbit set. -/
def poolUnpinnedRefbit : BufMgr :=
  (BufMgr.init 1 Disk.blank).run [.allocPage 7, .unPinPage 7 1 false]

/-- One frame; page 1 of file 7 was allocated, unpinned and flushed. -/
def poolFlushed : BufMgr :=
  (BufMgr.init 1 Disk.blank).run [.allocPage 7, .unPinPage 7 1 false, .flushFile 7]

/-- The pool `poolFlushed` after a further `readPage` of the flushed page. -/
def poolFlushedReread : BufMgr :=
  poolFlushed.run [.readPage 7 1]

/-- One frame holding page 1 of file 7, unpinned and dirty. -/
def poolDirtyOne : BufMgr :=
  (BufMgr.init 1 Disk.blank).run [.allocPage 7, .unPinPage 7 1 true]

/-- Two frames of file 7 with cleared refbits: frame 0 unpinned and dirty,
frame 1 pinned. -/
def poolDirtyAndPinned : BufMgr :=
  (BufMgr.init 2 Disk.blank).run
    [.allocPage 7, .allocPage 7, .unPinPage 7 1 true, .allocPage 7, .allocPage 7]

/-- Two frames of file 7 with cleared refbits: frame 0 pinned, frame 1 unpinned
and dirty; the clock hand stands on frame 1. -/
def poolPinnedBeforeDirty : BufMgr :=
  (BufMgr.init 2 Disk.blank).run
    [.allocPage 7, .allocPage 7, .unPinPage 7 2 true, .allocPage 7, .allocPage 7]

/-- Two frames of file 7, both unpinned and dirty: frame 0 holds page 5, frame 1
holds page 2 with its refbit cleared; the clock hand stands on frame 0. -/
def poolTwoDirty : BufMgr :=
  (BufMgr.init 2 Disk.blank).run
    [.allocPage 7, .allocPage 7, .unPinPage 7 1 true, .unPinPage 7 2 true, .allocPage 7,
      .allocPage 7, .allocPage 7, .unPinPage 7 5 true]

/-- Two frames; page 1 of file 7 sits pinned in frame 0. -/
def poolPinnedInFrame0 : BufMgr :=
  (BufMgr.init 2 Disk.blank).run [.allocPage 7]

/-- Two frames; page 1 of file 7 sits unpinned in frame 0 and page 2 pinned in
frame 1. -/
def poolPinnedInFrame1 : BufMgr :=
  (BufMgr.init 2 Disk.blank).run [.allocPage 7, .allocPage 7, .unPinPage 7 1 false]

/-- Two frames; page 1 of file 7 pinned in frame 0, page 1 of file 8 unpinned
and dirty in frame 1. -/
def poolTwoFiles : BufMgr :=
  (BufMgr.init 2 Disk.blank).run [.allocPage 7, .allocPage 8, .unPinPage 8 1 true]

/-- Two frames and a file 7 that holds page 1. -/
def poolFresh : BufMgr :=
  BufMgr.init 2 { allocated := [(7, 1)] }

/-- Three frames, each holding a pinned page of file 7; the file also holds a
fourth page. -/
def poolThreePinned : BufMgr :=
  (BufMgr.init 3 { allocated := [(7, 1), (7, 2), (7, 3), (7, 4)] }).run
    [.readPage 7 1, .readPage 7 2, .readPage 7 3]

/-- One frame holding page 1 of file 7, pinned. -/
def poolOnePinned : BufMgr :=
  (BufMgr.init 1 Disk.blank).run [.allocPage 7]

/-- The outcome of running a method from the state `t` satisfies `Q`: `Q` is
given the state after the call and the result of the call. -/
def IndexM.wp {α : Type} (m : IndexM α) (Q : BTreeIndex → Res α → Prop) (t : BTreeIndex) : Prop :=
  Q (m t).1 (m t).2

/-- The result is neither `BadScanrangeException` nor `BadOpcodesException`. -/
def Res.notArgErr {α : Type} (r : Res α) : Prop :=
  r ≠ .error .BadScanrange ∧ r ≠ .error .BadOpcodes

/-- The valid keys of the node that page `p` holds. -/
def BTreeIndex.keysOf (t : BTreeIndex) (p : PageId) : List Int :=
  match assocGet t.pages p with
  | some (.leaf n) => n.keyArray.take n.numValidKeys
  | some (.nonLeaf n) => n.keyArray.take n.numValidKeys
  | none => []

/-- The child pointers of the internal node that page `p` holds. -/
def BTreeIndex.childrenOf (t : BTreeIndex) (p : PageId) : List PageId :=
  match assocGet t.pages p with
  | some (.nonLeaf n) => n.pageNoArray.take (n.numValidKeys + 1)
  | _ => []

/-- The right-sibling pointer of the leaf that page `p` holds. -/
def BTreeIndex.rightSibOf (t : BTreeIndex) (p : PageId) : Option PageId :=
  match assocGet t.pages p with
  | some (.leaf n) => some n.rightSibPageNo
  | _ => none

/-- A leaf of capacity 4 whose slots hold the keys `a b c d` with the record ids
of `entriesOf`, `n` of them valid. -/
def leafOfFour (a b c d : Nat) (n : Nat) (sib : PageId) : Node :=
  .leaf
    { keyArray := [Int.ofNat a, Int.ofNat b, Int.ofNat c, Int.ofNat d]
      ridArray := [RecordId.mk a 0, RecordId.mk b 0, RecordId.mk c 0, RecordId.mk d 0]
      numValidKeys := n
      rightSibPageNo := sib }

/-- An index of leaf capacity 4 whose root, page 2, is the leaf `nd`, after `n`
calls of `insertEntry`. -/
def leafRootIndex (nodeCap : Nat) (nd : Node) (n : Nat) : BTreeIndex :=
  { BTreeIndex.empty 4 nodeCap with
    leafOccupancy := n
    pages := [(2, nd)]
    dirtied := if n = 0 then [] else [2] }

/-- The state `insertEntry(25)` reaches after its descent into the full root
leaf. -/
def leafRootDescended (nodeCap : Nat) : BTreeIndex :=
  { leafRootIndex nodeCap (leafOfFour 10 20 30 40 4 0) 5 with
    pins := [(1, 0), (2, 2)] }

/-- The index after the keys 10, 20, 30, 40, 25: leaves on pages 2 and 3 and a
new root on page 4. -/
def leafSplitResult (nodeCap : Nat) : BTreeIndex :=
  { leafRootIndex nodeCap (leafOfFour 10 20 30 40 4 0) 5 with
    nodeOccupancy := 1
    rootPageNum := 4
    nextPageNo := 5
    pins := [(1, 0), (2, 0), (3, 0), (4, 1)]
    dirtied := [3, 2]
    pages := [(2, leafOfFour 10 20 25 40 3 3), (3, leafOfFour 30 40 0 0 2 0),
      (4, .nonLeaf
        { level := 1
          keyArray := (List.replicate nodeCap 0).set 0 30
          pageNoArray := ((List.replicate (nodeCap + 1) 0).set 0 2).set 1 3
          numValidKeys := 1 })] }

/-- The leaf-split scenario with internal capacity 4. -/
def leafSplitScenario : BTreeIndex × Res Unit :=
  BTreeIndex.insertAll (entriesOf [10, 20, 30, 40, 25]) (BTreeIndex.empty 4 4)

/-- A full internal node of capacity 2 with keys 6, 10 and children 2, 3, 5. -/
def fullNodeOfTwo : NonLeafNodeInt :=
  { level := 1, keyArray := [6, 10], pageNoArray := [2, 3, 5], numValidKeys := 2 }

/-- The loop of `shiftData` on one array: the slots `index + 1 .. i` receive the
contents of the slots `index .. i - 1`. -/
def shiftList {α : Type} (d : α) (index : Nat) : Nat → List α → List α
  | 0, l => l
  | i + 1, l => if i + 1 > index then shiftList d index i (l.set (i + 1) (l.getD i d)) else l

/-- The copy loop of a split on one array: slot `i` receives `f i` for `i` below
`c`. -/
def copyList {α : Type} (f : Nat → α) (c : Nat) (l : List α) : List α :=
  (List.range c).foldl (fun acc i => acc.set i (f i)) l

/-- The valid keys of a leaf. -/
def LeafNodeInt.keys (n : LeafNodeInt) : List Int := n.keyArray.take n.numValidKeys

/-- The valid record ids of a leaf. -/
def LeafNodeInt.rids (n : LeafNodeInt) : List RecordId := n.ridArray.take n.numValidKeys

/-- A full leaf of capacity 4 with the keys 10, 20, 30, 40, whose right sibling
is page 9. -/
def fullLeafOfFour : LeafNodeInt :=
  { keyArray := [10, 20, 30, 40],
    ridArray := [⟨1, 1⟩, ⟨1, 2⟩, ⟨1, 3⟩, ⟨1, 4⟩],
    numValidKeys := 4, rightSibPageNo := 9 }

/-- Relative to the state `t0`, the state `t1` has a scan open that holds one
pin on its current leaf: `scanExecuting` is set, the page `currentPageNum` has
one pin more than in `t0`, and every other page has the pin count it has in
`t0`. -/
def BTreeIndex.scanHolds (t0 t1 : BTreeIndex) : Prop :=
  t1.scanExecuting = true ∧
  ∀ q : PageId, t1.pinCnt q = t0.pinCnt q + (if q = t1.currentPageNum then 1 else 0)

/-- The index of leaf capacity 4 and internal capacity 4 after `insertEntry` of
the keys 10 and 20: the root, page 2, is a leaf. -/
def twoKeyIndex : BTreeIndex := leafRootIndex 4 (leafOfFour 10 20 0 0 2 0) 2

/-- The index `twoKeyIndex` after a scan of the range 10 to 20 was started and
ended. -/
def scanEndedIndex : BTreeIndex :=
  (BTreeIndex.endScan (BTreeIndex.startScan 10 .GTE 20 .LTE twoKeyIndex).1).1

/-- The index `scanEndedIndex` after `startScan(30, GTE, 40, LTE)`, which finds no
key in the range. -/
def scanFailedIndex : BTreeIndex :=
  (BTreeIndex.startScan 30 .GTE 40 .LTE scanEndedIndex).1

/-- Partial correctness of a method: if the call from the state `t` returns
normally, the state after the call and the value returned satisfy `P`. -/
def IndexM.wpOk {α : Type} (m : IndexM α) (P : BTreeIndex → α → Prop) (t : BTreeIndex) : Prop :=
  ∀ (t1 : BTreeIndex) (a : α), m t = (t1, .ok a) → P t1 a

/-- The pool holds one pin on the root and, beyond it, exactly one pin for each
occurrence of a page in `M`; the root, the pages in `M` and every page of the
file have numbers below the next number the file hands out. -/
def BTreeIndex.holds (t : BTreeIndex) (M : Multiset PageId) : Prop :=
  t.rootPageNum < t.nextPageNo ∧
  (∀ p : PageId, assocGet t.pages p ≠ none → p < t.nextPageNo) ∧
  (∀ p ∈ M, p < t.nextPageNo) ∧
  ∀ q : PageId, t.pinCnt q = (if q = t.rootPageNum then 1 else 0) + M.count q

/-- The valid keys of an internal node. -/
def NonLeafNodeInt.keys (n : NonLeafNodeInt) : List Int := n.keyArray.take n.numValidKeys

/-- The child pointers of an internal node: one more than its valid keys. -/
def NonLeafNodeInt.children (n : NonLeafNodeInt) : List PageId :=
  n.pageNoArray.take (n.numValidKeys + 1)

/-- A leaf of capacity 4 holding the keys 10, 20, 40. -/
def leafOfThree : LeafNodeInt :=
  { keyArray := [10, 20, 40, 0],
    ridArray := [⟨1, 1⟩, ⟨1, 2⟩, ⟨1, 4⟩, ⟨0, 0⟩],
    numValidKeys := 3, rightSibPageNo := 0 }

/-- An internal node of capacity 4 with the keys 10, 30 and the children 2, 3,
5. -/
def nodeOfTwo : NonLeafNodeInt :=
  { level := 1, keyArray := [10, 30, 0, 0], pageNoArray := [2, 3, 5, 0, 0], numValidKeys := 2 }

/-- The left leaf of the leaf-split scenario: keys 10, 20, 25, right sibling on
page 3. -/
def leftLeafOfScenario : LeafNodeInt :=
  { keyArray := [10, 20, 25, 40],
    ridArray := [⟨10, 0⟩, ⟨20, 0⟩, ⟨25, 0⟩, ⟨40, 0⟩],
    numValidKeys := 3, rightSibPageNo := 3 }

/-- The state `startScan(26, GTE, 35, LTE)` reaches on the index of the leaf-split
scenario after its descent: the scan is open on the left leaf, page 2. -/
def scanAtLeftLeaf : BTreeIndex :=
  { leafSplitResult 4 with
    pins := [(1, 0), (2, 1), (3, 0), (4, 1)]
    scanExecuting := true
    currentPageNum := 2
    lowValInt := 26
    highValInt := 35 }

/-- Consistency of the occupancy counters with the pages of the index:
`leafOccupancy` is `c`; the root has a positive page number below the next
number the file hands out; no child slot of an internal node holds the root's
number or a number not yet handed out; and `nodeOccupancy` is 0 exactly as long
as the root page is a leaf. -/
def BTreeIndex.occOk (t : BTreeIndex) (c : Nat) : Prop :=
  t.leafOccupancy = c ∧ 0 < t.rootPageNum ∧ t.rootPageNum < t.nextPageNo ∧
  (∀ (p : PageId) (n : NonLeafNodeInt), assocGet t.pages p = some (.nonLeaf n) →
    ∀ x ∈ n.pageNoArray, x < t.nextPageNo ∧ x ≠ t.rootPageNum) ∧
  (t.nodeOccupancy = 0 → ∃ lf : LeafNodeInt, assocGet t.pages t.rootPageNum = some (.leaf lf)) ∧
  (t.nodeOccupancy ≠ 0 →
    ∃ n : NonLeafNodeInt, assocGet t.pages t.rootPageNum = some (.nonLeaf n))

/-- The state `t1` differs from `t` in the pin counts at most. -/
def BTreeIndex.pinsOnly (t t1 : BTreeIndex) : Prop :=
  ∃ ps : List (PageId × Nat), t1 = { t with pins := ps }

/-- The state `t1` differs from `t` in the pool at most: in the pin counts and
in the record of dirty releases. -/
def BTreeIndex.poolOnly (t t1 : BTreeIndex) : Prop :=
  ∃ (ps : List (PageId × Nat)) (ds : List PageId), t1 = { t with pins := ps, dirtied := ds }

/-- The key `k` lies in the range from `lo` (inclusive) to `hi` (exclusive); `none`
is no bound. -/
def KeyIn (lo hi : Option Int) (k : Int) : Prop :=
  (∀ l : Int, lo = some l → l ≤ k) ∧ (∀ h : Int, hi = some h → k < h)

/-- The lower bound of the keys under child `i` of an internal node whose own keys
have the lower bound `lo`. -/
def NonLeafNodeInt.childLo (n : NonLeafNodeInt) (lo : Option Int) (i : Nat) : Option Int :=
  if i = 0 then lo else some (n.keyArray.getD (i - 1) 0)

/-- The upper bound of the keys under child `i` of an internal node whose own keys
have the upper bound `hi`. -/
def NonLeafNodeInt.childHi (n : NonLeafNodeInt) (hi : Option Int) (i : Nat) : Option Int :=
  if i = n.numValidKeys then hi else some (n.keyArray.getD i 0)

/-- The page `p` is the root of a subtree of height `h` that satisfies the separator
invariant, with all keys (those of internal nodes included) in the range
`lo .. hi`: a leaf for `h = 0`; otherwise an internal node with strictly
ascending keys whose child `i` is such a subtree of height `h - 1` for the range
between key `i - 1` and key `i`. -/
def BTreeIndex.subtree (pages : List (PageId × Node)) :
    Nat → PageId → Option Int → Option Int → Prop
  | 0, p, lo, hi =>
    ∃ lf : LeafNodeInt, assocGet pages p = some (.leaf lf) ∧ ∀ k ∈ lf.keys, KeyIn lo hi k
  | h + 1, p, lo, hi =>
    ∃ nd : NonLeafNodeInt, assocGet pages p = some (.nonLeaf nd) ∧
      nd.numValidKeys ≤ nd.keyArray.length ∧
      nd.keys.Pairwise (fun a b => a < b) ∧ (∀ k ∈ nd.keys, KeyIn lo hi k) ∧
      ∀ i : Nat, i ≤ nd.numValidKeys →
        BTreeIndex.subtree pages h (nd.pageNoArray.getD i 0) (nd.childLo lo i) (nd.childHi hi i)

/-- The page `target` is a node strictly below the root `p` of a subtree of height
`h`. -/
def BTreeIndex.below (pages : List (PageId × Node)) (target : PageId) : Nat → PageId → Prop
  | 0, _ => False
  | h + 1, p =>
    ∃ nd : NonLeafNodeInt, assocGet pages p = some (.nonLeaf nd) ∧
      ∃ i : Nat, i ≤ nd.numValidKeys ∧
        (nd.pageNoArray.getD i 0 = target ∨
          BTreeIndex.below pages target h (nd.pageNoArray.getD i 0))

/-- The node has at least one key. -/
def Node.hasKey : Node → Prop
  | .leaf n => 0 < n.numValidKeys ∧ 0 < n.keyArray.length
  | .nonLeaf n => 0 < n.numValidKeys ∧ 0 < n.keyArray.length

/-- The state `s` differs from `t` in the pin counts at most, and has every pin
count of `t` except for one pin more on the page `p`. -/
def BTreeIndex.onePin (t s : BTreeIndex) (p : PageId) : Prop :=
  t.pinsOnly s ∧ ∀ q : PageId, s.pinCnt q = t.pinCnt q + (if q = p then 1 else 0)

/-- The state `s` differs from `t` in the representation of the pin counts at
most: every page has the pin count it has in `t`. -/
def BTreeIndex.samePins (t s : BTreeIndex) : Prop :=
  t.pinsOnly s ∧ ∀ q : PageId, s.pinCnt q = t.pinCnt q

/-! ### The descent path of a key -/

/-- The page the descent for `key` reaches `i` levels below page `p`: at each
internal node it takes the child slot `findIndex(key)`. -/
def BTreeIndex.descend (pages : List (PageId × Node)) (key : Int) : Nat → PageId → PageId
  | 0, p => p
  | i + 1, p =>
    match assocGet pages p with
    | some (.nonLeaf nd) =>
      BTreeIndex.descend pages key i (nd.pageNoArray.getD (nd.findIndex key) 0)
    | _ => p

/-- Every node on the descent for `key` from page `p`, the root of a subtree of
height `h`, is full: the internal nodes hold `nodeCap` keys and the leaf holds
`leafCap` keys in an array of at least that length; and `level` is set exactly
in the internal nodes whose children are leaves. -/
def BTreeIndex.fullPath (leafCap nodeCap : Nat) (pages : List (PageId × Node)) (key : Int) :
    Nat → PageId → Prop
  | 0, p => ∃ lf : LeafNodeInt, assocGet pages p = some (.leaf lf) ∧
      lf.numValidKeys = leafCap ∧ leafCap ≤ lf.keyArray.length
  | h + 1, p => ∃ nd : NonLeafNodeInt, assocGet pages p = some (.nonLeaf nd) ∧
      nd.numValidKeys = nodeCap ∧ (nd.level ≠ 0 ↔ h = 0) ∧
      BTreeIndex.fullPath leafCap nodeCap pages key h
        (nd.pageNoArray.getD (nd.findIndex key) 0)

/-- The internal node on the page `i` levels down the descent for `key` from
`root` (the zero node when that page holds no internal node). -/
def BTreeIndex.pathNode (pages : List (PageId × Node)) (key : Int) (root : PageId) (i : Nat) :
    NonLeafNodeInt :=
  match assocGet pages (BTreeIndex.descend pages key i root) with
  | some (.nonLeaf nd) => nd
  | _ => NonLeafNodeInt.zero 0

/-- The key and the page number that reach the round of the walk up at the root
when the rounds at the levels `j, j - 1, .., 1` of the descent for `key` all
split: the round at a level takes the pair `(k, c)` from below, passes up the
key pushed up by the split of its node and the page `M` it allocated, and the
next round allocates `M + 1`. -/
def BTreeIndex.promoted (cap : Nat) (pages : List (PageId × Node)) (key : Int) (root : PageId) :
    Nat → Int → PageId → PageId → Int × PageId
  | 0, k, c, _ => (k, c)
  | j + 1, k, c, M =>
    BTreeIndex.promoted cap pages key root j
      ((BTreeIndex.pathNode pages key root (j + 1)).split cap k c).2.2 M (M + 1)

instance instDecidableKeyIn (lo hi : Option Int) (k : Int) : Decidable (KeyIn lo hi k) :=
  decidable_of_iff
    ((lo.all (fun l => decide (l ≤ k)) && hi.all (fun h => decide (k < h))) = true)
    (by cases lo <;> cases hi <;> simp [KeyIn, Option.all])

/-- The separator invariant of a subtree can be checked. -/
def BTreeIndex.subtreeDec (pages : List (PageId × Node)) :
    (h : Nat) → (p : PageId) → (lo hi : Option Int) →
      Decidable (BTreeIndex.subtree pages h p lo hi)
  | 0, p, lo, hi =>
    match e : assocGet pages p with
    | some (.leaf lf) =>
      decidable_of_iff (∀ k ∈ lf.keys, KeyIn lo hi k)
        ⟨fun h => ⟨lf, e, h⟩, fun ⟨lf1, e1, h1⟩ => by rw [e] at e1; cases e1; exact h1⟩
    | some (.nonLeaf _) => isFalse (fun ⟨lf1, e1, _⟩ => by rw [e] at e1; cases e1)
    | none => isFalse (fun ⟨lf1, e1, _⟩ => by rw [e] at e1; cases e1)
  | h + 1, p, lo, hi =>
    match e : assocGet pages p with
    | some (.nonLeaf nd) =>
      letI : ∀ i : Nat, Decidable (BTreeIndex.subtree pages h (nd.pageNoArray.getD i 0)
          (nd.childLo lo i) (nd.childHi hi i)) :=
        fun i => BTreeIndex.subtreeDec pages h _ _ _
      decidable_of_iff
        (nd.numValidKeys ≤ nd.keyArray.length ∧
          nd.keys.Pairwise (fun a b => a < b) ∧ (∀ k ∈ nd.keys, KeyIn lo hi k) ∧
          ∀ i : Nat, i ≤ nd.numValidKeys →
            BTreeIndex.subtree pages h (nd.pageNoArray.getD i 0) (nd.childLo lo i)
              (nd.childHi hi i))
        ⟨fun h => ⟨nd, e, h⟩, fun ⟨nd1, e1, h1⟩ => by rw [e] at e1; cases e1; exact h1⟩
    | some (.leaf _) => isFalse (fun ⟨nd1, e1, _⟩ => by rw [e] at e1; cases e1)
    | none => isFalse (fun ⟨nd1, e1, _⟩ => by rw [e] at e1; cases e1)

instance BTreeIndex.instDecidableSubtree (pages : List (PageId × Node)) (h : Nat) (p : PageId)
    (lo hi : Option Int) : Decidable (BTreeIndex.subtree pages h p lo hi) :=
  BTreeIndex.subtreeDec pages h p lo hi

/-- Fullness of a descent path can be checked. -/
def BTreeIndex.fullPathDec (leafCap nodeCap : Nat) (pages : List (PageId × Node)) (key : Int) :
    (h : Nat) → (p : PageId) → Decidable (BTreeIndex.fullPath leafCap nodeCap pages key h p)
  | 0, p =>
    match e : assocGet pages p with
    | some (.leaf lf) =>
      decidable_of_iff (lf.numValidKeys = leafCap ∧ leafCap ≤ lf.keyArray.length)
        ⟨fun h => ⟨lf, e, h⟩, fun ⟨lf1, e1, h1⟩ => by rw [e] at e1; cases e1; exact h1⟩
    | some (.nonLeaf _) => isFalse (fun ⟨lf1, e1, _⟩ => by rw [e] at e1; cases e1)
    | none => isFalse (fun ⟨lf1, e1, _⟩ => by rw [e] at e1; cases e1)
  | h + 1, p =>
    match e : assocGet pages p with
    | some (.nonLeaf nd) =>
      letI : Decidable (BTreeIndex.fullPath leafCap nodeCap pages key h
          (nd.pageNoArray.getD (nd.findIndex key) 0)) :=
        BTreeIndex.fullPathDec leafCap nodeCap pages key h _
      decidable_of_iff
        (nd.numValidKeys = nodeCap ∧ (nd.level ≠ 0 ↔ h = 0) ∧
          BTreeIndex.fullPath leafCap nodeCap pages key h
            (nd.pageNoArray.getD (nd.findIndex key) 0))
        ⟨fun h => ⟨nd, e, h⟩, fun ⟨nd1, e1, h1⟩ => by rw [e] at e1; cases e1; exact h1⟩
    | some (.leaf _) => isFalse (fun ⟨nd1, e1, _⟩ => by rw [e] at e1; cases e1)
    | none => isFalse (fun ⟨nd1, e1, _⟩ => by rw [e] at e1; cases e1)

instance BTreeIndex.instDecidableFullPath (leafCap nodeCap : Nat) (pages : List (PageId × Node))
    (key : Int) (h : Nat) (p : PageId) :
    Decidable (BTreeIndex.fullPath leafCap nodeCap pages key h p) :=
  BTreeIndex.fullPathDec leafCap nodeCap pages key h p

theorem BufMgr.sameFrame_refl (s : BufMgr) : s.sameFrame s :=
  ⟨rfl, rfl, rfl, rfl, rfl, rfl⟩

theorem BufMgr.sameFrame_trans {s t u : BufMgr} (h1 : s.sameFrame t) (h2 : t.sameFrame u) :
    s.sameFrame u := by
  unfold BufMgr.sameFrame at *
  refine ⟨?_, ?_, ?_, ?_, ?_, ?_⟩
  · rw [h2.1, h1.1]
  · rw [h2.2.1, h1.2.1]
  · rw [h2.2.2.1, h1.2.2.1]
  · rw [h2.2.2.2.1, h1.2.2.2.1]
  · rw [h2.2.2.2.2.1, h1.2.2.2.2.1]
  · rw [h2.2.2.2.2.2, h1.2.2.2.2.2]

theorem flushFileLoop_sameFrame (file : FileRef) :
    ∀ (n : Nat) (i : FrameId) (s : BufMgr), s.sameFrame (BufMgr.flushFileLoop file n i s).1 := by
  intro n
  induction n with
  | zero => intro i s; exact s.sameFrame_refl
  | succ n ih =>
    intro i s
    unfold BufMgr.flushFileLoop
    split
    · exact s.sameFrame_refl
    · split
      · split
        · exact s.sameFrame_refl
        · split
          · exact s.sameFrame_refl
          · refine BufMgr.sameFrame_trans ?_ (ih _ _)
            split <;> simp [BufMgr.sameFrame, BufMgr.setDesc]
      · exact ih _ _

theorem allocBufLoop_sameFrame :
    ∀ (fuel : Nat) (start : FrameId) (s : BufMgr), s.sameFrame (BufMgr.allocBufLoop fuel start s).1 := by
  intro fuel
  induction fuel with
  | zero => intro start s; exact s.sameFrame_refl
  | succ n ih =>
    intro start s
    have hadv : s.sameFrame s.advanceClock := by simp [BufMgr.sameFrame, BufMgr.advanceClock]
    unfold BufMgr.allocBufLoop
    simp only []
    split
    · exact hadv
    · rename_i d hd
      split
      · exact hadv
      · split
        · simp [BufMgr.sameFrame, BufMgr.setDesc, BufMgr.advanceClock]
        · split
          · split
            · exact BufMgr.sameFrame_trans hadv (ih _ _)
            · exact hadv
          · split
            · have h := flushFileLoop_sameFrame (.field s.advanceClock.clockHand)
                s.advanceClock.numBufs 0 s.advanceClock
              split
              · rename_i s2 e he
                rw [he] at h; exact BufMgr.sameFrame_trans hadv h
              · rename_i s2 u he
                rw [he] at h; exact BufMgr.sameFrame_trans hadv h
            · exact hadv

/-! ### The descriptor invariant of reachable pools -/

theorem BufDesc.clear_Ok (d : BufDesc) : d.clear.Ok := by
  intro h; simp [BufDesc.clear] at h

theorem BufDesc.Set_Ok (d : BufDesc) (f : FileId) (p : PageId) : (d.Set f p).Ok := by
  intro _; rfl

theorem BufMgr.TableOk_setDesc {s : BufMgr} (h : s.TableOk) (i : FrameId) {d : BufDesc}
    (hd : d.Ok) : (s.setDesc i d).TableOk := by
  refine ⟨by simpa [BufMgr.setDesc] using h.1, ?_⟩
  intro x hx
  rcases List.mem_or_eq_of_mem_set hx with hx | hx
  · exact h.2 x hx
  · exact hx ▸ hd

theorem BufMgr.TableOk_of_table_eq {s t : BufMgr} (h : s.TableOk)
    (h1 : t.bufDescTable = s.bufDescTable) (h2 : t.numBufs = s.numBufs) : t.TableOk := by
  unfold BufMgr.TableOk; rw [h1, h2]; exact h

theorem BufMgr.TableOk_get {s : BufMgr} (h : s.TableOk) {i : FrameId} {d : BufDesc}
    (hd : s.bufDescTable[i]? = some d) : d.Ok :=
  h.2 d (List.getElem?_mem hd)

theorem flushFileLoop_TableOk (file : FileRef) :
    ∀ (n : Nat) (i : FrameId) (s : BufMgr), s.TableOk →
      (BufMgr.flushFileLoop file n i s).1.TableOk := by
  intro n
  induction n with
  | zero => intro i s h; exact h
  | succ n ih =>
    intro i s h
    unfold BufMgr.flushFileLoop
    split
    · exact h
    · split
      · split
        · exact h
        · split
          · exact h
          · apply ih
            apply BufMgr.TableOk_setDesc _ _ (BufDesc.clear_Ok _)
            split
            · exact BufMgr.TableOk_of_table_eq h rfl rfl
            · exact h
      · exact ih _ _ h

theorem allocBufLoop_TableOk :
    ∀ (fuel : Nat) (start : FrameId) (s : BufMgr), s.TableOk →
      (BufMgr.allocBufLoop fuel start s).1.TableOk := by
  intro fuel
  induction fuel with
  | zero => intro start s h; exact h
  | succ n ih =>
    intro start s h
    have hadv : s.advanceClock.TableOk := BufMgr.TableOk_of_table_eq h rfl rfl
    unfold BufMgr.allocBufLoop
    simp only []
    split
    · exact hadv
    · rename_i d hd
      have hdok : d.Ok := BufMgr.TableOk_get hadv hd
      split
      · exact hadv
      · split
        · simp only [ne_eq, not_true_eq_false, ↓reduceIte]
          exact BufMgr.TableOk_setDesc hadv _ hdok
        · split
          · split
            · exact ih _ _ hadv
            · exact hadv
          · split
            · have h2 := flushFileLoop_TableOk (.field s.advanceClock.clockHand)
                s.advanceClock.numBufs 0 s.advanceClock hadv
              split
              · rename_i s2 e he
                rw [he] at h2; exact h2
              · rename_i s2 u he
                rw [he] at h2; exact h2
            · exact hadv

theorem allocBuf_TableOk {s : BufMgr} (h : s.TableOk) : s.allocBuf.1.TableOk :=
  allocBufLoop_TableOk _ _ _ h

theorem init_TableOk (bufs : Nat) (disk : Disk) : (BufMgr.init bufs disk).TableOk := by
  refine ⟨by simp [BufMgr.init], ?_⟩
  intro d hd
  simp only [BufMgr.init, List.mem_map] at hd
  obtain ⟨i, _, rfl⟩ := hd
  intro h; simp [BufDesc.fresh] at h

theorem readPage_TableOk {s : BufMgr} (h : s.TableOk) (f : FileId) (p : PageId) :
    (s.readPage f p).1.TableOk := by
  unfold BufMgr.readPage
  split
  · split
    · exact h
    · rename_i _ frameNo hl _ d hd
      have hdok : d.Ok := BufMgr.TableOk_get h hd
      have h2 : (s.setDesc frameNo { d with refbit := true, pinCnt := d.pinCnt + 1 }).TableOk :=
        BufMgr.TableOk_setDesc h frameNo hdok
      exact BufMgr.TableOk_of_table_eq h2 rfl rfl
  · have h1 := allocBuf_TableOk h
    split
    · rename_i s1 e he
      rw [he] at h1; exact h1
    · rename_i s1 frameNo he
      rw [he] at h1
      split
      · simp only []
        have h2 : ({ s1 with hashTable := s1.hashTable.insert f p frameNo } : BufMgr).TableOk :=
          BufMgr.TableOk_of_table_eq h1 rfl rfl
        split
        · exact h2
        · exact BufMgr.TableOk_of_table_eq
            (BufMgr.TableOk_setDesc h2 _ (BufDesc.Set_Ok _ f p)) rfl rfl
      · exact h1

theorem unPinPage_TableOk {s : BufMgr} (h : s.TableOk) (f : FileId) (p : PageId) (dirty : Bool) :
    (s.unPinPage f p dirty).1.TableOk := by
  unfold BufMgr.unPinPage
  split
  · exact h
  · split
    · exact h
    · rename_i frameNo d hd
      have hdok : d.Ok := BufMgr.TableOk_get h hd
      split
      · exact h
      · apply BufMgr.TableOk_setDesc h
        split
        · exact hdok
        · exact hdok

theorem allocPage_TableOk {s : BufMgr} (h : s.TableOk) (f : FileId) :
    (s.allocPage f).1.TableOk := by
  unfold BufMgr.allocPage
  simp only []
  have h0 : ({ s with disk := (s.disk.allocatePage f).1 } : BufMgr).TableOk :=
    BufMgr.TableOk_of_table_eq h rfl rfl
  have h1 := allocBuf_TableOk h0
  split
  · rename_i s2 e he
    rw [he] at h1; exact h1
  · rename_i s2 frameNo he
    rw [he] at h1
    split
    · exact h1
    · exact BufMgr.TableOk_of_table_eq
        (BufMgr.TableOk_setDesc h1 _ (BufDesc.Set_Ok _ f _)) rfl rfl

theorem disposeCheck_TableOk {s : BufMgr} (h : s.TableOk) (f : FileId) (p : PageId) :
    (s.disposeCheck f p).1.TableOk := by
  unfold BufMgr.disposeCheck
  split
  · exact h
  · split
    · exact h
    · exact BufMgr.TableOk_of_table_eq h rfl rfl

theorem disposePage_TableOk {s : BufMgr} (h : s.TableOk) (f : FileId) (p : PageId) :
    (s.disposePage f p).1.TableOk := by
  unfold BufMgr.disposePage
  split
  · split
    · exact h
    · apply disposeCheck_TableOk
      exact BufMgr.TableOk_of_table_eq (BufMgr.TableOk_setDesc h _ (BufDesc.clear_Ok _)) rfl rfl
  · exact disposeCheck_TableOk h f p

theorem step_TableOk {s : BufMgr} (h : s.TableOk) (op : Op) : (s.step op).TableOk := by
  cases op with
  | readPage f p => exact readPage_TableOk h f p
  | allocPage f => exact allocPage_TableOk h f
  | unPinPage f p d => exact unPinPage_TableOk h f p d
  | flushFile f => exact flushFileLoop_TableOk _ _ _ _ h
  | disposePage f p => exact disposePage_TableOk h f p

theorem Reachable.TableOk {s : BufMgr} (h : Reachable s) : s.TableOk := by
  induction h with
  | init bufs disk => exact init_TableOk bufs disk
  | step op _ ih => exact step_TableOk ih op

/-! ### `flushFile` -/

theorem BufMgr.getElem?_setDesc_ne (s : BufMgr) {i j : FrameId} (h : i ≠ j) (d : BufDesc) :
    (s.setDesc i d).bufDescTable[j]? = s.bufDescTable[j]? := by
  simp [BufMgr.setDesc, List.getElem?_set_ne h]

/-- A pinned frame of the file among the frames still to visit makes the flush
loop throw `PagePinnedException`, provided the frames of the file are valid. -/
theorem flushFileLoop_pinned (f : FileId) :
    ∀ (n : Nat) (i : Nat) (s : BufMgr),
      (∀ (k : Nat) (d : BufDesc), s.bufDescTable[k]? = some d → d.file = some f → d.valid = true) →
      (∃ (j : Nat) (d : BufDesc), i ≤ j ∧ j < i + n ∧ s.bufDescTable[j]? = some d ∧ d.file = some f ∧ d.pinCnt ≠ 0) →
      (BufMgr.flushFileLoop (.obj f) n i s).2 = .error .PagePinned := by
  intro n
  induction n with
  | zero =>
    intro i s _ hex
    obtain ⟨j, d, h1, h2, _⟩ := hex
    omega
  | succ n ih =>
    intro i s hv hex
    obtain ⟨j, dj, hij, hjn, hj, hjf, hjp⟩ := hex
    have hjlt : j < s.bufDescTable.length := (List.getElem?_eq_some.1 hj).1
    have hilt : i < s.bufDescTable.length := by omega
    unfold BufMgr.flushFileLoop
    rw [List.getElem?_eq_getElem hilt]
    simp only [BufMgr.fileAt]
    have hi : s.bufDescTable[i]? = some s.bufDescTable[i] := List.getElem?_eq_getElem hilt
    by_cases hf : s.bufDescTable[i].file = some f
    · rw [if_pos hf]
      by_cases hp : s.bufDescTable[i].pinCnt ≠ 0
      · rw [if_pos hp]
      · rw [if_neg hp]
        have hval : s.bufDescTable[i].valid = true := hv i _ hi hf
        rw [if_neg (by simp [hval])]
        have hne : i ≠ j := by
          rintro rfl
          rw [hi] at hj
          exact hjp ((Option.some.inj hj) ▸ (not_not.1 hp))
        apply ih
        · intro k d hk hkf
          by_cases hik : i = k
          · subst hik
            simp only [BufMgr.setDesc] at hk
            have hlen : i < (if s.bufDescTable[i].dirty = true then
                { s with diskwrites := s.diskwrites + 1 } else s).bufDescTable.length := by
              split <;> exact hilt
            rw [List.getElem?_set_self hlen] at hk
            rw [← Option.some.inj hk] at hkf
            simp [BufDesc.clear] at hkf
          · rw [BufMgr.getElem?_setDesc_ne _ hik] at hk
            apply hv k d _ hkf
            split at hk <;> exact hk
        · refine ⟨j, dj, by omega, by omega, ?_, hjf, hjp⟩
          rw [BufMgr.getElem?_setDesc_ne _ hne]
          split <;> exact hj
    · rw [if_neg hf]
      have hne : i ≠ j := by
        rintro rfl
        rw [hi] at hj
        exact hf ((Option.some.inj hj) ▸ hjf)
      exact ih _ _ hv ⟨j, dj, by omega, by omega, hj, hjf, hjp⟩

/-- A flush loop that returns normally wrote one page per dirty frame of the
file among the frames it visited and left the frames of other files alone. -/
theorem flushFileLoop_ok (f : FileId) :
    ∀ (n : Nat) (i : Nat) (s s' : BufMgr),
      BufMgr.flushFileLoop (.obj f) n i s = (s', .ok ()) →
      s'.diskwrites
        = s.diskwrites + BufMgr.dirtyCount (some f) ((s.bufDescTable.drop i).take n) ∧
      ∀ (k : Nat) (d : BufDesc), s.bufDescTable[k]? = some d → d.file ≠ some f →
        s'.bufDescTable[k]? = some d := by
  intro n
  induction n with
  | zero =>
    intro i s s' h
    simp only [BufMgr.flushFileLoop, Prod.mk.injEq, and_true] at h
    subst h
    exact ⟨by simp [BufMgr.dirtyCount], fun k d hk _ => hk⟩
  | succ n ih =>
    intro i s s' h
    unfold BufMgr.flushFileLoop at h
    simp only [BufMgr.fileAt] at h
    split at h
    · simp at h
    · rename_i d hd
      have hilt : i < s.bufDescTable.length := (List.getElem?_eq_some.1 hd).1
      have hdi : s.bufDescTable[i] = d := (List.getElem?_eq_some.1 hd).2
      have hdrop : (s.bufDescTable.drop i).take (n + 1)
          = d :: (s.bufDescTable.drop (i + 1)).take n := by
        rw [List.drop_eq_getElem_cons hilt, List.take_succ_cons, hdi]
      rw [hdrop]
      split at h
      · rename_i hf
        split at h
        · simp at h
        · split at h
          · simp at h
          · rename_i hp hval
            obtain ⟨ih1, ih2⟩ := ih _ _ _ h
            have hset : ((if d.dirty = true then { s with diskwrites := s.diskwrites + 1 }
                else s).setDesc i d.clear).bufDescTable.drop (i + 1)
                = s.bufDescTable.drop (i + 1) := by
              simp only [BufMgr.setDesc]
              split <;> exact List.drop_set_of_lt _ _ (Nat.lt_succ_self i)
            rw [hset] at ih1
            constructor
            · rw [ih1]
              cases hdd : d.dirty
              · simp [BufMgr.dirtyCount, BufMgr.setDesc, List.countP_cons, hf, hdd]
              · simp [BufMgr.dirtyCount, BufMgr.setDesc, List.countP_cons, hf, hdd]
                omega
            · intro k dk hk hkf
              apply ih2 k dk _ hkf
              have hne : i ≠ k := by
                rintro rfl
                rw [hd] at hk
                exact hkf ((Option.some.inj hk) ▸ hf)
              rw [BufMgr.getElem?_setDesc_ne _ hne]
              split <;> exact hk
      · rename_i hf
        obtain ⟨ih1, ih2⟩ := ih _ _ _ h
        refine ⟨?_, ih2⟩
        rw [ih1]
        simp [BufMgr.dirtyCount, List.countP_cons, hf]

theorem Reachable.run {s : BufMgr} (h : Reachable s) (ops : List Op) : Reachable (s.run ops) := by
  induction ops generalizing s with
  | nil => exact h
  | cons op rest ih => exact ih (Reachable.step op h)

theorem BufHashTbl.lookup_insert (h : BufHashTbl) (f : FileId) (p : PageId) (fr : FrameId) :
    (h.insert f p fr).lookup f p = some fr := by
  simp [BufHashTbl.insert, BufHashTbl.lookup]

/-! ### Settled claims of Part I -/

/-- C5. A `readPage(file, p)` that returns normally adds one to `accesses`.  On a
hit (the directory maps `(file, p)` to a frame) that frame's `pinCnt` grows by one
and its `refbit` is set, while every other descriptor, the directory, the clock
hand and `diskreads` keep their values.  On a miss `diskreads` grows by one, the
directory maps `(file, p)` to the frame `allocBuf` returned, and that frame's
descriptor is `(file, p, pinCnt = 1, refbit, not dirty, valid)`. -/
theorem readPage_postcondition (s s' : BufMgr) (file : FileId) (pageNo : PageId)
    (h : s.readPage file pageNo = (s', .ok ())) :
    s'.accesses = s.accesses + 1 ∧
    (∀ fr : Nat, s.hashTable.lookup file pageNo = some fr →
      ∃ d : BufDesc, s.bufDescTable[fr]? = some d ∧
        s'.bufDescTable[fr]? = some { d with pinCnt := d.pinCnt + 1, refbit := true } ∧
        (∀ j : Nat, j ≠ fr → s'.bufDescTable[j]? = s.bufDescTable[j]?) ∧
        s'.diskreads = s.diskreads ∧ s'.hashTable = s.hashTable ∧
        s'.clockHand = s.clockHand) ∧
    (s.hashTable.lookup file pageNo = none →
      ∃ (s1 : BufMgr) (fr : Nat) (d : BufDesc), s.allocBuf = (s1, .ok fr) ∧
        s'.diskreads = s.diskreads + 1 ∧
        s'.hashTable.lookup file pageNo = some fr ∧
        s'.bufDescTable[fr]? = some d ∧
        d.file = some file ∧ d.pageNo = pageNo ∧ d.pinCnt = 1 ∧ d.refbit = true ∧
        d.dirty = false ∧ d.valid = true) := by
  unfold BufMgr.readPage at h
  split at h
  · rename_i _ frameNo hl
    split at h
    · simp at h
    · rename_i _ d hd
      simp only [Prod.mk.injEq, and_true] at h
      subst h
      have hlt : frameNo < s.bufDescTable.length := (List.getElem?_eq_some.1 hd).1
      refine ⟨rfl, ?_, ?_⟩
      · intro fr hfr
        rw [hl] at hfr
        have hfr' : frameNo = fr := Option.some.inj hfr
        subst hfr'
        refine ⟨d, hd, ?_, ?_, rfl, rfl, rfl⟩
        · simp [BufMgr.setDesc, List.getElem?_set_self hlt]
        · intro j hj
          simp [BufMgr.setDesc, List.getElem?_set_ne (Ne.symm hj)]
      · intro hn
        rw [hl] at hn
        simp at hn
  · rename_i _ hl
    have hsf := allocBufLoop_sameFrame s.numBufs s.clockHand s
    split at h
    · simp at h
    · rename_i _ s1 frameNo he
      have he' : s.allocBuf = (s1, .ok frameNo) := he
      unfold BufMgr.allocBuf at he'
      rw [he'] at hsf
      obtain ⟨_, _, hdr, hacc, _, _⟩ := hsf
      simp only [] at hdr hacc
      split at h
      · simp only [] at h
        split at h
        · simp at h
        · rename_i _ d hd
          simp only [Prod.mk.injEq, and_true] at h
          subst h
          have hlt : frameNo < s1.bufDescTable.length := (List.getElem?_eq_some.1 hd).1
          refine ⟨by simp [BufMgr.setDesc, hacc], ?_, ?_⟩
          · intro fr hfr
            rw [hl] at hfr
            simp at hfr
          · intro _
            refine ⟨s1, frameNo, d.Set file pageNo, he, by simp [BufMgr.setDesc, hdr],
              by simp [BufMgr.setDesc, BufHashTbl.lookup_insert], ?_, rfl, rfl, rfl, rfl, rfl, rfl⟩
            simp [BufMgr.setDesc, List.getElem?_set_self hlt]
      · simp at h

/-- C6. `unPinPage(file, p, d)` has three cases.  A page that is not in the
directory: normal return, state unchanged.  A frame with `pinCnt = 0`:
`PageNotPinnedException`, state unchanged.  Otherwise: normal return, the
frame's `pinCnt` drops by one, its `dirty` flag becomes `dirty || d`, and its
other fields, the other frames, the directory, the clock hand, the counters and
the files keep their values. -/
theorem unPinPage_three_cases (s : BufMgr) (file : FileId) (pageNo : PageId) (dirty : Bool) :
    (s.hashTable.lookup file pageNo = none → s.unPinPage file pageNo dirty = (s, .ok ())) ∧
    (∀ (fr : Nat) (d : BufDesc), s.hashTable.lookup file pageNo = some fr →
      s.bufDescTable[fr]? = some d → d.pinCnt = 0 →
      s.unPinPage file pageNo dirty = (s, .error .PageNotPinned)) ∧
    (∀ (fr : Nat) (d : BufDesc), s.hashTable.lookup file pageNo = some fr →
      s.bufDescTable[fr]? = some d → d.pinCnt ≠ 0 →
      ∃ s' : BufMgr, s.unPinPage file pageNo dirty = (s', .ok ()) ∧
        s'.bufDescTable[fr]? =
          some { d with pinCnt := d.pinCnt - 1, dirty := d.dirty || dirty } ∧
        (∀ j : Nat, j ≠ fr → s'.bufDescTable[j]? = s.bufDescTable[j]?) ∧
        s'.hashTable = s.hashTable ∧ s'.clockHand = s.clockHand ∧
        s'.numBufs = s.numBufs ∧ s'.diskreads = s.diskreads ∧
        s'.diskwrites = s.diskwrites ∧ s'.accesses = s.accesses ∧ s'.disk = s.disk) := by
  refine ⟨?_, ?_, ?_⟩
  · intro hl
    simp [BufMgr.unPinPage, hl]
  · intro fr d hl hd hp
    simp [BufMgr.unPinPage, hl, hd, hp]
  · intro fr d hl hd hp
    have hlt : fr < s.bufDescTable.length := (List.getElem?_eq_some.1 hd).1
    refine ⟨s.setDesc fr (if dirty = true then { d with pinCnt := d.pinCnt - 1, dirty := true }
        else { d with pinCnt := d.pinCnt - 1 }), ?_, ?_, ?_, rfl, rfl, rfl, rfl, rfl, rfl, rfl⟩
    · simp [BufMgr.unPinPage, hl, hd, hp]
    · cases dirty <;> simp [BufMgr.setDesc, List.getElem?_set_self hlt]
    · intro j hj
      simp [BufMgr.setDesc, List.getElem?_set_ne (Ne.symm hj)]

/-- C9. In a reachable pool, `flushFile(f)` throws `PagePinnedException` whenever
some frame of `f` has `pinCnt ≠ 0`; and when `flushFile(f)` returns normally,
`diskwrites` has grown by the number of dirty frames of `f` and the descriptors
of the frames of other files are unchanged. -/
theorem flushFile_pinned_and_count (s : BufMgr) (f : FileId) (hs : Reachable s) :
    ((∃ d ∈ s.bufDescTable, d.file = some f ∧ d.pinCnt ≠ 0) →
      (s.flushFile f).2 = .error .PagePinned) ∧
    (∀ s' : BufMgr, s.flushFile f = (s', .ok ()) →
      s'.diskwrites = s.diskwrites + BufMgr.dirtyCount (some f) s.bufDescTable ∧
      ∀ (k : Nat) (d : BufDesc), s.bufDescTable[k]? = some d → d.file ≠ some f →
        s'.bufDescTable[k]? = some d) := by
  have hok := hs.TableOk
  constructor
  · rintro ⟨d, hd, hf, hp⟩
    obtain ⟨j, hj⟩ := List.mem_iff_getElem?.1 hd
    have hjlt : j < s.bufDescTable.length := (List.getElem?_eq_some.1 hj).1
    apply flushFileLoop_pinned f s.numBufs 0 s
    · intro k d' hk hkf
      exact BufMgr.TableOk_get hok hk (by simp [hkf])
    · exact ⟨j, d, Nat.zero_le _, by rw [← hok.1]; omega, hj, hf, hp⟩
  · intro s' h
    have h2 := flushFileLoop_ok f s.numBufs 0 s s' h
    rw [← hok.1] at h2
    simpa using h2

/-- Witness of C5: a miss on a fresh two-frame pool whose file 7 holds page 1, and
a miss on `poolDirtyAndPinned`, where `allocBuf` evicts the dirty page of
frame 0. -/
theorem readPage_postcondition_witness :
    poolFresh.readPage 7 1 = ((poolFresh.readPage 7 1).1, .ok ()) ∧
    (poolFresh.readPage 7 1).1.accesses = poolFresh.accesses + 1 ∧
    poolDirtyAndPinned.readPage 7 3 = ((poolDirtyAndPinned.readPage 7 3).1, .ok ()) ∧
    (poolDirtyAndPinned.readPage 7 3).1.accesses = poolDirtyAndPinned.accesses + 1 :=
  ⟨by decide, (readPage_postcondition poolFresh _ 7 1 (by decide)).1, by decide,
    (readPage_postcondition poolDirtyAndPinned _ 7 3 (by decide)).1⟩

/-- Witness of C6: unpinning, with `dirty = false`, the pinned page of
`poolPinnedInFrame0` returns. -/
theorem unPinPage_three_cases_witness :
    ∃ s' : BufMgr, poolPinnedInFrame0.unPinPage 7 1 false = (s', .ok ()) ∧
      s'.hashTable = poolPinnedInFrame0.hashTable :=
  match (unPinPage_three_cases poolPinnedInFrame0 7 1 false).2.2 0
      ⟨some 7, 1, 0, 1, false, true, true⟩ (by decide) (by decide) (by decide) with
  | ⟨s', h1, _, _, h4, _⟩ => ⟨s', h1, h4⟩

/-- Witness of C9: in `poolTwoFiles` the flush of file 7 meets a pinned frame and
the flush of file 8 writes its one dirty page. -/
theorem flushFile_pinned_and_count_witness :
    Reachable poolTwoFiles ∧
    (poolTwoFiles.flushFile 7).2 = .error .PagePinned ∧
    (poolTwoFiles.flushFile 8).1.diskwrites = poolTwoFiles.diskwrites + 1 :=
  ⟨(Reachable.init 2 Disk.blank).run _,
   (flushFile_pinned_and_count poolTwoFiles 7 ((Reachable.init 2 Disk.blank).run _)).1
     ⟨⟨some 7, 1, 0, 1, false, true, true⟩, by decide, by decide⟩,
   ((flushFile_pinned_and_count poolTwoFiles 8 ((Reachable.init 2 Disk.blank).run _)).2
     (poolTwoFiles.flushFile 8).1 (by decide)).1⟩

/-! ### Inputs on which the code departs from a claim -/

/-- C1. In `poolUnpinnedRefbit` the only frame is valid and unpinned with its
refbit set, yet `allocBuf` throws `BufferExceededException`: after clearing the
refbit the `continue` reaches the loop condition with `start = clockHand`. -/
theorem allocBuf_refbit_frame_BufferExceeded :
    poolUnpinnedRefbit.numBufs = 1 ∧
    poolUnpinnedRefbit.bufDescTable.map (fun d => (d.valid, d.pinCnt, d.refbit))
      = [(true, 0, true)] ∧
    poolUnpinnedRefbit.allocBuf.2 = .error .BufferExceeded := by
  decide

/-- C2. With leaf capacity 4 and internal capacity 2, after `insertEntry` of the
distinct keys 2, 4, ..., 16, 1, 3, 5, 7 (every call returns normally) the scan
`startScan(0, GTE, 3, LTE)` followed by `scanNext` until the scan completes
returns the record ids of the keys 1 and 2 only; the entry with key 3 is
missing. -/
theorem rangeScan_misses_inserted_key :
    evensThenOdds.2 = .ok () ∧
    (BTreeIndex.rangeScan 0 .GTE 3 .LTE evensThenOdds.1).2 = .ok [⟨1, 0⟩, ⟨2, 0⟩] := by
  decide!

/-- C3. `poolFlushedReread` is reached by `allocPage`, `unPinPage`, `flushFile`
and `readPage`; there `allocBuf` returns frame 0 while that frame has
`pinCnt = 1`. -/
theorem allocBuf_returns_pinned_frame :
    poolFlushedReread.allocBuf.2 = .ok 0 ∧
    poolFlushedReread.allocBuf.1.bufDescTable.map (fun d => d.pinCnt) = [1] := by
  decide

/-- C4. In `poolFlushed`, reached by `allocPage`, `unPinPage` and `flushFile`,
the directory still maps page 1 of file 7 to frame 0 although that frame is
invalid and names no file. -/
theorem directory_entry_of_invalid_frame :
    poolFlushed.hashTable.lookup 7 1 = some 0 ∧
    poolFlushed.bufDescTable.map (fun d => (d.valid, d.file)) = [(false, none)] := by
  decide

/-- C7. (a) On the one-frame pool of the dirty-eviction scenario the second
`allocPage` throws `BufferExceededException` and writes nothing.  (b) In
`poolPinnedBeforeDirty` the victim is the unpinned dirty frame 1, and `allocBuf`
throws `PagePinnedException` because frame 0, which `flushFile` visits first,
holds a pinned page of the same file.  (c) In `poolTwoDirty` the victim is
frame 1, and `allocBuf` writes two pages and clears frame 0 as well, which held
another page of the file.  In `poolDirtyAndPinned` the pinned frame of the file
comes after the victim; there `allocBuf` returns the victim after one write,
because `flushFile` compares the later frames with the `file` field the victim's
`clear()` has reset. -/
theorem allocBuf_dirty_victim_flushes_file :
    (poolDirtyOne.allocPage 7).2 = .error .BufferExceeded ∧
    (poolDirtyOne.allocPage 7).1.diskwrites = 0 ∧
    poolPinnedBeforeDirty.clockHand = 1 ∧
    poolPinnedBeforeDirty.bufDescTable.map (fun d => (d.file, d.pageNo, d.pinCnt, d.dirty, d.refbit))
      = [(some 7, 1, 1, false, false), (some 7, 2, 0, true, false)] ∧
    poolPinnedBeforeDirty.allocBuf.2 = .error .PagePinned ∧
    poolTwoDirty.clockHand = 0 ∧
    poolTwoDirty.bufDescTable.map (fun d => (d.file, d.pageNo, d.pinCnt, d.dirty, d.refbit))
      = [(some 7, 5, 0, true, true), (some 7, 2, 0, true, false)] ∧
    poolTwoDirty.allocBuf.2 = .ok 1 ∧
    poolTwoDirty.allocBuf.1.diskwrites = poolTwoDirty.diskwrites + 2 ∧
    poolTwoDirty.allocBuf.1.bufDescTable.map (fun d => (d.file, d.valid))
      = [(none, false), (none, false)] ∧
    poolDirtyAndPinned.bufDescTable.map (fun d => (d.file, d.pinCnt, d.dirty, d.refbit))
      = [(some 7, 0, true, false), (some 7, 1, false, false)] ∧
    poolDirtyAndPinned.allocBuf.2 = .ok 0 ∧
    poolDirtyAndPinned.allocBuf.1.diskwrites = poolDirtyAndPinned.diskwrites + 1 :=
  ⟨by decide, by decide, by decide, by decide, by decide, by decide, by decide, by decide,
    by decide, by decide, by decide, by decide, by decide⟩

/-- C8. After `flushFile(7)` on `poolDirtyOne` returns normally, the directory
still holds the entry of page 1, and the following `readPage(7, 1)` is served as
a hit: it returns without a disk read and pins the invalid frame. -/
theorem readPage_after_flushFile_is_hit :
    (poolDirtyOne.flushFile 7).2 = .ok () ∧
    (poolDirtyOne.flushFile 7).1.hashTable.lookup 7 1 = some 0 ∧
    ((poolDirtyOne.flushFile 7).1.readPage 7 1).2 = .ok () ∧
    ((poolDirtyOne.flushFile 7).1.readPage 7 1).1.diskreads
      = (poolDirtyOne.flushFile 7).1.diskreads ∧
    ((poolDirtyOne.flushFile 7).1.readPage 7 1).1.bufDescTable.map
      (fun d => (d.valid, d.pinCnt)) = [(false, 1)] := by
  decide

/-- C10. `disposePage(7, 1)` returns normally and deletes the page although page
1 is pinned in frame 0 (`poolPinnedInFrame0`); and it throws
`PagePinnedException` when page 1 is unpinned but frame 1 holds a pinned page
(`poolPinnedInFrame1`), after it has already cleared frame 0 and removed the
directory entry. -/
theorem disposePage_checks_frame_indexed_by_page :
    poolPinnedInFrame0.hashTable.lookup 7 1 = some 0 ∧
    poolPinnedInFrame0.bufDescTable.map (fun d => d.pinCnt) = [1, 0] ∧
    (poolPinnedInFrame0.disposePage 7 1).2 = .ok () ∧
    (poolPinnedInFrame0.disposePage 7 1).1.disk.holds 7 1 = false ∧
    poolPinnedInFrame1.hashTable.lookup 7 1 = some 0 ∧
    poolPinnedInFrame1.bufDescTable.map (fun d => d.pinCnt) = [0, 1] ∧
    (poolPinnedInFrame1.disposePage 7 1).2 = .error .PagePinned ∧
    (poolPinnedInFrame1.disposePage 7 1).1.hashTable.lookup 7 1 = none := by
  decide

/-! ### `allocBuf` on a pool whose frames are all pinned -/

theorem map_pinCnt_set_refbit (l : List BufDesc) (i : Nat) (d : BufDesc) (b : Bool)
    (h : l[i]? = some d) :
    (l.set i { d with refbit := b }).map (fun x => x.pinCnt) = l.map (fun x => x.pinCnt) := by
  apply List.ext_getElem?
  intro j
  by_cases hij : i = j
  · subst hij
    have hlt : i < l.length := (List.getElem?_eq_some.1 h).1
    rw [List.getElem?_map, List.getElem?_map, List.getElem?_set_self hlt, h]
    rfl
  · rw [List.getElem?_map, List.getElem?_map, List.getElem?_set_ne hij]

theorem allocBufLoop_all_pinned :
    ∀ (fuel : Nat) (start : Nat) (s : BufMgr), 0 < s.numBufs →
      s.bufDescTable.length = s.numBufs →
      (∀ d ∈ s.bufDescTable, d.valid = true ∧ d.pinCnt ≠ 0) →
      (∃ k : Nat, 1 ≤ k ∧ k ≤ fuel ∧ (s.clockHand + k) % s.numBufs = start) →
      (BufMgr.allocBufLoop fuel start s).2 = .error .BufferExceeded ∧
      (BufMgr.allocBufLoop fuel start s).1.bufDescTable.map (fun x => x.pinCnt)
        = s.bufDescTable.map (fun x => x.pinCnt) := by
  intro fuel
  induction fuel with
  | zero =>
    intro start s _ _ _ hk
    obtain ⟨k, h1, h2, _⟩ := hk
    omega
  | succ n ih =>
    intro start s hpos hlen hall hk
    obtain ⟨k, hk1, hk2, hk3⟩ := hk
    have hhand : (s.clockHand + 1) % s.numBufs < s.bufDescTable.length := by
      rw [hlen]; exact Nat.mod_lt _ hpos
    unfold BufMgr.allocBufLoop
    simp only [BufMgr.advanceClock]
    rw [List.getElem?_eq_getElem hhand]
    simp only []
    have hd := hall _ (List.getElem_mem hhand)
    rw [if_neg (by simp [hd.1])]
    by_cases hr : (s.bufDescTable[(s.clockHand + 1) % s.numBufs]).refbit = true
    · rw [if_pos hr]
      simp only [ne_eq, not_true_eq_false, ↓reduceIte, true_and]
      exact map_pinCnt_set_refbit _ _ _ false (List.getElem?_eq_getElem hhand)
    · rw [if_neg hr, if_pos hd.2]
      by_cases hs : (s.clockHand + 1) % s.numBufs = start
      · simp [hs]
      · rw [if_pos hs]
        have hk' : 2 ≤ k := by
          rcases Nat.lt_or_ge k 2 with h | h
          · have : k = 1 := by omega
            subst this
            exact absurd hk3 hs
          · exact h
        have h1 : 1 ≤ k - 1 := by omega
        have h2 : k - 1 ≤ n := by omega
        have h3 : ((s.clockHand + 1) % s.numBufs + (k - 1)) % s.numBufs = start := by
          rw [Nat.mod_add_mod]
          rw [Nat.add_assoc, Nat.add_sub_cancel' hk1]
          exact hk3
        exact ih start { s with clockHand := (s.clockHand + 1) % s.numBufs } hpos hlen hall
          ⟨k - 1, h1, h2, h3⟩

/-- C12. In a pool with at least one frame whose frames are all valid and
pinned, wherever the clock hand stands and whatever the refbits, `allocBuf`
returns with `BufferExceededException`; hence `readPage` of a page that is not
in the directory throws `BufferExceededException` and leaves `diskreads`,
`accesses`, the directory and every pin count as they were. -/
theorem allocBuf_all_pinned_BufferExceeded (s : BufMgr) (hpos : 1 ≤ s.numBufs)
    (hlen : s.bufDescTable.length = s.numBufs) (hhand : s.clockHand < s.numBufs)
    (hall : ∀ d ∈ s.bufDescTable, d.valid = true ∧ 0 < d.pinCnt) :
    s.allocBuf.2 = .error .BufferExceeded ∧
    ∀ (f : FileId) (p : PageId), s.hashTable.lookup f p = none →
      (s.readPage f p).2 = .error .BufferExceeded ∧
      (s.readPage f p).1.diskreads = s.diskreads ∧
      (s.readPage f p).1.accesses = s.accesses ∧
      (s.readPage f p).1.hashTable = s.hashTable ∧
      (s.readPage f p).1.bufDescTable.map (fun d => d.pinCnt)
        = s.bufDescTable.map (fun d => d.pinCnt) := by
  have hall' : ∀ d ∈ s.bufDescTable, d.valid = true ∧ d.pinCnt ≠ 0 :=
    fun d hd => ⟨(hall d hd).1, Nat.pos_iff_ne_zero.1 (hall d hd).2⟩
  have hloop := allocBufLoop_all_pinned s.numBufs s.clockHand s hpos hlen hall'
    ⟨s.numBufs, hpos, Nat.le_refl _, by
      rw [Nat.add_mod_right]; exact Nat.mod_eq_of_lt hhand⟩
  have hsf := allocBufLoop_sameFrame s.numBufs s.clockHand s
  refine ⟨hloop.1, ?_⟩
  intro f p hl
  have hA : s.allocBuf = (s.allocBuf.1, .error .BufferExceeded) :=
    Prod.ext rfl hloop.1
  have hR : s.readPage f p = (s.allocBuf.1, .error .BufferExceeded) := by
    unfold BufMgr.readPage
    rw [hl]
    simp only []
    rw [hA]
  rw [hR]
  exact ⟨rfl, hsf.2.2.1, hsf.2.2.2.1, hsf.2.1, hloop.2⟩

/-- Witness of C12: three distinct pages read and kept pinned in a pool of three
frames, then `readPage` of a fourth. -/
theorem allocBuf_all_pinned_BufferExceeded_witness :
    poolThreePinned.hashTable.lookup 7 4 = none ∧
    (poolThreePinned.readPage 7 4).2 = .error .BufferExceeded ∧
    (poolThreePinned.readPage 7 4).1.diskreads = poolThreePinned.diskreads :=
  ⟨by decide,
   ((allocBuf_all_pinned_BufferExceeded poolThreePinned (by decide) (by decide) (by decide)
      (by decide)).2 7 4 (by decide)).1,
   ((allocBuf_all_pinned_BufferExceeded poolThreePinned (by decide) (by decide) (by decide)
      (by decide)).2 7 4 (by decide)).2.1⟩

/-- C11 as amended.  When `allocPage(f)` throws `BufferExceededException` the
directory is unchanged and the file keeps the page that `File::allocatePage`
handed out before the frame was sought.  When it returns, the directory maps the
returned page number to a frame whose descriptor is
`(f, page_no, pinCnt = 1, not dirty, valid)`. -/
theorem allocPage_outcomes (s s' : BufMgr) (f : FileId) :
    (s.allocPage f = (s', .error .BufferExceeded) →
      s'.hashTable = s.hashTable ∧ s'.disk = (s.disk.allocatePage f).1) ∧
    (∀ p : PageId, s.allocPage f = (s', .ok p) →
      ∃ (fr : Nat) (d : BufDesc), s'.hashTable.lookup f p = some fr ∧
        s'.bufDescTable[fr]? = some d ∧ d.file = some f ∧ d.pageNo = p ∧
        d.pinCnt = 1 ∧ d.dirty = false ∧ d.valid = true) := by
  have hsf := allocBufLoop_sameFrame s.numBufs s.clockHand
    { s with disk := (s.disk.allocatePage f).1 }
  constructor
  · intro h
    unfold BufMgr.allocPage at h
    simp only [] at h
    split at h
    · rename_i s2 e he
      have he' : BufMgr.allocBufLoop s.numBufs s.clockHand
          { s with disk := (s.disk.allocatePage f).1 } = (s2, .error e) := he
      rw [he'] at hsf
      simp only [Prod.mk.injEq] at h
      obtain ⟨h1, _⟩ := h
      subst h1
      exact ⟨hsf.2.1, hsf.2.2.2.2.1⟩
    · split at h
      · simp at h
      · simp at h
  · intro p h
    unfold BufMgr.allocPage at h
    simp only [] at h
    split at h
    · simp at h
    · rename_i s2 frameNo he
      split at h
      · simp at h
      · rename_i d hd
        simp only [Prod.mk.injEq, Res.ok.injEq] at h
        obtain ⟨h1, h2⟩ := h
        subst h1 h2
        have hlt : frameNo < s2.bufDescTable.length := (List.getElem?_eq_some.1 hd).1
        refine ⟨frameNo, d.Set f _, ?_, ?_, rfl, rfl, rfl, rfl, rfl⟩
        · simp [BufMgr.setDesc, BufHashTbl.lookup_insert]
        · simp only [BufMgr.setDesc, List.getElem?_set_self hlt]
          rfl

/-- C11 as stated fails: in `poolOnePinned` the only frame is pinned, so
`allocPage(7)` throws `BufferExceededException`; before the call file 7 does not
hold page 2, after the call it does. -/
theorem allocPage_failure_keeps_new_page :
    (poolOnePinned.allocPage 7).2 = .error .BufferExceeded ∧
    poolOnePinned.disk.holds 7 2 = false ∧
    (poolOnePinned.allocPage 7).1.disk.holds 7 2 = true := by
  decide

/-- Witness of C11 as amended, on the failing call in `poolOnePinned` and on the
call in `poolDirtyAndPinned` that evicts a dirty page and returns page 5. -/
theorem allocPage_outcomes_witness :
    poolOnePinned.allocPage 7 = ((poolOnePinned.allocPage 7).1, .error .BufferExceeded) ∧
    (poolOnePinned.allocPage 7).1.hashTable = poolOnePinned.hashTable ∧
    poolDirtyAndPinned.allocPage 7 = ((poolDirtyAndPinned.allocPage 7).1, .ok 5) ∧
    ∃ (fr : Nat) (d : BufDesc),
      (poolDirtyAndPinned.allocPage 7).1.hashTable.lookup 7 5 = some fr ∧
      (poolDirtyAndPinned.allocPage 7).1.bufDescTable[fr]? = some d ∧ d.file = some 7 ∧
      d.pageNo = 5 ∧ d.pinCnt = 1 ∧ d.dirty = false ∧ d.valid = true :=
  ⟨by decide, ((allocPage_outcomes poolOnePinned _ 7).1 (by decide)).1, by decide,
    (allocPage_outcomes poolDirtyAndPinned _ 7).2 5 (by decide)⟩

/-! ### Reasoning about index methods -/

theorem IndexM.bind_run {α β : Type} (m : IndexM α) (f : α → IndexM β) (t : BTreeIndex) :
    (m >>= f) t = match m t with
      | (t1, .ok a) => f a t1
      | (t1, .error e) => (t1, .error e) := rfl

theorem IndexM.wp_bind {α β : Type} (m : IndexM α) (f : α → IndexM β)
    (Q : BTreeIndex → Res β → Prop) (t : BTreeIndex) :
    IndexM.wp (m >>= f) Q t ↔
      IndexM.wp m (fun t1 r => match r with
        | .ok a => IndexM.wp (f a) Q t1
        | .error e => Q t1 (.error e)) t := by
  unfold IndexM.wp
  rw [IndexM.bind_run]
  rcases hm : m t with ⟨t1, r⟩
  cases r <;> rfl

theorem IndexM.wp_pure {α : Type} (a : α) (Q : BTreeIndex → Res α → Prop) (t : BTreeIndex) :
    IndexM.wp (Pure.pure a) Q t ↔ Q t (.ok a) := Iff.rfl

theorem IndexM.wp_pure' {α : Type} (a : α) (Q : BTreeIndex → Res α → Prop) (t : BTreeIndex) :
    IndexM.wp (IndexM.pure a) Q t ↔ Q t (.ok a) := Iff.rfl

theorem IndexM.wp_throw {α : Type} (e : Err) (Q : BTreeIndex → Res α → Prop) (t : BTreeIndex) :
    IndexM.wp (IndexM.throw e) Q t ↔ Q t (.error e) := Iff.rfl

theorem IndexM.wp_get (Q : BTreeIndex → Res BTreeIndex → Prop) (t : BTreeIndex) :
    IndexM.wp IndexM.get Q t ↔ Q t (.ok t) := Iff.rfl

theorem IndexM.wp_modify (f : BTreeIndex → BTreeIndex) (Q : BTreeIndex → Res Unit → Prop)
    (t : BTreeIndex) : IndexM.wp (IndexM.modify f) Q t ↔ Q (f t) (.ok ()) := Iff.rfl

theorem IndexM.wp_ite {α : Type} (c : Prop) [Decidable c] (a b : IndexM α)
    (Q : BTreeIndex → Res α → Prop) (t : BTreeIndex) :
    IndexM.wp (if c then a else b) Q t ↔ (c → IndexM.wp a Q t) ∧ (¬c → IndexM.wp b Q t) := by
  by_cases h : c <;> simp [h]

theorem IndexM.wp_mono {α : Type} {m : IndexM α} {Q R : BTreeIndex → Res α → Prop}
    {t : BTreeIndex} (h : IndexM.wp m Q t) (hQR : ∀ t1 r, Q t1 r → R t1 r) : IndexM.wp m R t :=
  hQR _ _ h

theorem IndexM.wp_of_eq {α : Type} {m : IndexM α} {Q : BTreeIndex → Res α → Prop}
    {t t1 : BTreeIndex} {r : Res α} (h : m t = (t1, r)) : IndexM.wp m Q t ↔ Q t1 r := by
  unfold IndexM.wp; rw [h]

theorem BTreeIndex.wp_readPage (p : PageId) (Q : BTreeIndex → Res Node → Prop) (t : BTreeIndex) :
    IndexM.wp (BTreeIndex.readPage p) Q t ↔
      (assocGet t.pages p = none → Q t (.error .InvalidPage)) ∧
      (∀ nd, assocGet t.pages p = some nd →
        Q { t with pins := assocSet t.pins p (t.pinCnt p + 1) } (.ok nd)) := by
  unfold IndexM.wp BTreeIndex.readPage
  cases h : assocGet t.pages p <;> simp

theorem BTreeIndex.wp_pageData (p : PageId) (Q : BTreeIndex → Res Node → Prop) (t : BTreeIndex) :
    IndexM.wp (BTreeIndex.pageData p) Q t ↔
      (assocGet t.pages p = none → Q t (.error .InvalidPage)) ∧
      (∀ nd, assocGet t.pages p = some nd → Q t (.ok nd)) := by
  unfold IndexM.wp BTreeIndex.pageData
  cases h : assocGet t.pages p <;> simp

theorem BTreeIndex.wp_unPinPage (p : PageId) (d : Bool) (Q : BTreeIndex → Res Unit → Prop)
    (t : BTreeIndex) :
    IndexM.wp (BTreeIndex.unPinPage p d) Q t ↔
      (assocGet t.pins p = none → Q t (.ok ())) ∧
      (assocGet t.pins p ≠ none → t.pinCnt p = 0 → Q t (.error .PageNotPinned)) ∧
      (t.pinCnt p ≠ 0 →
        Q { t with pins := assocSet t.pins p (t.pinCnt p - 1)
                   dirtied := markDirty t.dirtied p d } (.ok ())) := by
  unfold IndexM.wp BTreeIndex.unPinPage
  by_cases h0 : assocGet t.pins p = none
  · simp [h0, BTreeIndex.pinCnt]
  · by_cases h : t.pinCnt p = 0 <;> simp [h, h0]

theorem markDirty_false (l : List PageId) (p : PageId) : markDirty l p false = l := rfl

theorem Node.wp_asLeaf (nd : Node) (Q : BTreeIndex → Res LeafNodeInt → Prop) (t : BTreeIndex) :
    IndexM.wp nd.asLeaf Q t ↔
      (∀ n, nd = .leaf n → Q t (.ok n)) ∧ (∀ n, nd = .nonLeaf n → Q t (.error .BadCast)) := by
  cases nd <;> simp [Node.asLeaf, IndexM.wp, IndexM.pure, IndexM.throw]

theorem Node.wp_asNonLeaf (nd : Node) (Q : BTreeIndex → Res NonLeafNodeInt → Prop)
    (t : BTreeIndex) :
    IndexM.wp nd.asNonLeaf Q t ↔
      (∀ n, nd = .nonLeaf n → Q t (.ok n)) ∧ (∀ n, nd = .leaf n → Q t (.error .BadCast)) := by
  cases nd <;> simp [Node.asNonLeaf, IndexM.wp, IndexM.pure, IndexM.throw]

theorem assocGet_assocSet {α : Type} (l : List (PageId × α)) (p q : PageId) (a : α) :
    assocGet (assocSet l p a) q = if q = p then some a else assocGet l q := by
  induction l with
  | nil =>
    by_cases h : q = p
    · simp [assocSet, assocGet, h]
    · simp [assocSet, assocGet, h, Ne.symm h]
  | cons x rest ih =>
    obtain ⟨k, v⟩ := x
    by_cases hk : k = p
    · by_cases h : q = p
      · simp [assocSet, assocGet, hk, h]
      · simp [assocSet, assocGet, hk, h, Ne.symm h]
    · by_cases h : q = p
      · subst h
        simp [assocSet, assocGet, hk, ih]
      · by_cases hkq : k = q
        · simp [assocSet, assocGet, hk, hkq, h]
        · simp [assocSet, assocGet, hk, hkq, ih, h]

theorem BTreeIndex.pinCnt_setPins (t : BTreeIndex) (p q : PageId) (n : Nat) :
    ({ t with pins := assocSet t.pins p n } : BTreeIndex).pinCnt q
      = if q = p then n else t.pinCnt q := by
  simp only [BTreeIndex.pinCnt, assocGet_assocSet]
  split <;> rfl

theorem BTreeIndex.pinCnt_of_none {t : BTreeIndex} {p : PageId}
    (h : assocGet t.pins p = none) : t.pinCnt p = 0 := by
  simp [BTreeIndex.pinCnt, h]

theorem BTreeIndex.held_of_pinCnt {t : BTreeIndex} {p : PageId} (h : t.pinCnt p ≠ 0) :
    assocGet t.pins p ≠ none :=
  fun h0 => h (BTreeIndex.pinCnt_of_none h0)

theorem endScan_not_executing (t : BTreeIndex) (h : t.scanExecuting = false) :
    BTreeIndex.endScan t = (t, .error .ScanNotInitialized) := by
  simp [BTreeIndex.endScan, IndexM.bind_run, IndexM.get, IndexM.throw, h]

theorem endScan_executing (t : BTreeIndex) (h : t.scanExecuting = true) :
    BTreeIndex.endScan t
      = BTreeIndex.unPinPage t.currentPageNum false { t with scanExecuting := false } := by
  simp [BTreeIndex.endScan, IndexM.bind_run, IndexM.get, IndexM.modify, h]

theorem scanNext_not_executing (t : BTreeIndex) (h : t.scanExecuting = false) :
    BTreeIndex.scanNext t = (t, .error .ScanNotInitialized) := by
  simp [BTreeIndex.scanNext, IndexM.bind_run, IndexM.get, IndexM.throw, h]

theorem scanNext_executing (t : BTreeIndex) (h : t.scanExecuting = true) :
    IndexM.wp BTreeIndex.scanNext (fun _ r => r ≠ .error .ScanNotInitialized) t := by
  unfold BTreeIndex.scanNext
  simp only [IndexM.wp_bind, IndexM.wp_get, IndexM.wp_ite, IndexM.wp_throw, IndexM.wp_pure,
    IndexM.wp_pure', IndexM.wp_modify, BTreeIndex.wp_pageData, BTreeIndex.wp_readPage,
    BTreeIndex.wp_unPinPage, Node.wp_asLeaf]
  simp [h]

/-! ### `startScan`: the order of the checks -/

theorem Res.notArgErr_ok {α : Type} (a : α) : (Res.ok a).notArgErr := by
  simp [Res.notArgErr]

theorem findLeafLoop_notArgErr (g : PageId → BTreeIndex → BTreeIndex) (key : Int) :
    ∀ (fuel : Nat) (pageNo : PageId) (page : Node) (currDepth : Int) (isLeaf : Bool)
      (t : BTreeIndex),
      IndexM.wp (BTreeIndex.findLeafLoop (fun p => IndexM.modify (g p)) key fuel pageNo page
        currDepth isLeaf) (fun _ r => r.notArgErr) t := by
  intro fuel
  induction fuel with
  | zero =>
    intro pageNo page currDepth isLeaf t
    unfold BTreeIndex.findLeafLoop
    cases isLeaf <;> simp [IndexM.wp_throw, IndexM.wp_pure', Res.notArgErr]
  | succ n ih =>
    intro pageNo page currDepth isLeaf t
    unfold BTreeIndex.findLeafLoop
    cases isLeaf
    · simp only [Bool.false_eq_true, ↓reduceIte, IndexM.wp_bind, Node.wp_asNonLeaf,
        IndexM.wp_modify, BTreeIndex.wp_unPinPage, BTreeIndex.wp_readPage, ih]
      simp [Res.notArgErr]
    · simp [IndexM.wp_pure', Res.notArgErr]

theorem findLeafFromRoot_notArgErr (key : Int) (t : BTreeIndex) :
    IndexM.wp (BTreeIndex.findLeafFromRoot key) (fun _ r => r.notArgErr) t := by
  unfold BTreeIndex.findLeafFromRoot BTreeIndex.findLeaf
  simp only [IndexM.wp_bind, IndexM.wp_get, IndexM.wp_modify, BTreeIndex.wp_readPage,
    IndexM.wp_pure']
  refine ⟨fun _ => by simp [Res.notArgErr], fun nd _ => ?_⟩
  refine IndexM.wp_mono (findLeafLoop_notArgErr _ key _ _ _ _ _ _) ?_
  intro t1 r hr
  cases r with
  | ok a => simp [Res.notArgErr]
  | error e =>
    simp only [Res.notArgErr, ne_eq, Res.error.injEq] at hr ⊢
    exact hr

theorem startScanSlots_notArgErr (currentNode : LeafNodeInt) :
    ∀ (fuel : Nat) (t : BTreeIndex),
      IndexM.wp (BTreeIndex.startScanSlots currentNode fuel) (fun _ r => r.notArgErr) t := by
  intro fuel
  induction fuel with
  | zero =>
    intro t
    unfold BTreeIndex.startScanSlots
    simp only [IndexM.wp_bind, IndexM.wp_get, IndexM.wp_ite, IndexM.wp_throw, IndexM.wp_pure']
    simp [Res.notArgErr]
  | succ n ih =>
    intro t
    unfold BTreeIndex.startScanSlots
    simp only [IndexM.wp_bind, IndexM.wp_get, IndexM.wp_ite, IndexM.wp_throw, IndexM.wp_pure',
      IndexM.wp_modify, ih]
    simp [Res.notArgErr]

theorem startScanLeaves_notArgErr (currentNode : LeafNodeInt) :
    ∀ (fuel : Nat) (t : BTreeIndex),
      IndexM.wp (BTreeIndex.startScanLeaves currentNode fuel) (fun _ r => r.notArgErr) t := by
  intro fuel
  induction fuel with
  | zero =>
    intro t
    unfold BTreeIndex.startScanLeaves
    simp [IndexM.wp_throw, Res.notArgErr]
  | succ n ih =>
    intro t
    unfold BTreeIndex.startScanLeaves
    simp only [IndexM.wp_bind, IndexM.wp_modify]
    refine IndexM.wp_mono (startScanSlots_notArgErr currentNode _ _) ?_
    intro t1 r hr
    cases r with
    | error e =>
      simp only [Res.notArgErr, ne_eq, Res.error.injEq] at hr ⊢
      exact hr
    | ok a =>
      cases a with
      | some u => simp [IndexM.wp_pure', Res.notArgErr]
      | none =>
        simp only [IndexM.wp_ite, IndexM.wp_throw, IndexM.wp_bind, IndexM.wp_get,
          BTreeIndex.wp_unPinPage, IndexM.wp_modify, BTreeIndex.wp_readPage, ih]
        simp [Res.notArgErr]

theorem startScan_bad_lowOp (t : BTreeIndex) (lo hi : Int) (loOp hiOp : Operator)
    (h : loOp ≠ .GTE ∧ loOp ≠ .GT) :
    BTreeIndex.startScan lo loOp hi hiOp t = (t, .error .BadOpcodes) := by
  unfold BTreeIndex.startScan
  rw [if_pos h]
  rfl

theorem startScan_bad_highOp (t : BTreeIndex) (lo hi : Int) (loOp hiOp : Operator)
    (h1 : ¬(loOp ≠ .GTE ∧ loOp ≠ .GT)) (h : hiOp ≠ .LTE ∧ hiOp ≠ .LT) :
    BTreeIndex.startScan lo loOp hi hiOp t = (t, .error .BadOpcodes) := by
  unfold BTreeIndex.startScan
  rw [if_neg h1, if_pos h]
  rfl

theorem startScan_no_entries (t : BTreeIndex) (lo hi : Int) (loOp hiOp : Operator)
    (h1 : ¬(loOp ≠ .GTE ∧ loOp ≠ .GT)) (h2 : ¬(hiOp ≠ .LTE ∧ hiOp ≠ .LT))
    (h : t.leafOccupancy = 0) :
    BTreeIndex.startScan lo loOp hi hiOp t = (t, .error .NoSuchKeyFound) := by
  unfold BTreeIndex.startScan
  rw [if_neg h1, if_neg h2]
  simp [IndexM.bind_run, IndexM.get, IndexM.throw, h]

theorem wp_endScan_notArgErr (t : BTreeIndex) :
    IndexM.wp BTreeIndex.endScan (fun _ r => r.notArgErr) t := by
  unfold BTreeIndex.endScan
  simp only [IndexM.wp_bind, IndexM.wp_get, IndexM.wp_ite, IndexM.wp_throw, IndexM.wp_modify,
    BTreeIndex.wp_unPinPage]
  simp [Res.notArgErr]

theorem startScan_valid_args (t : BTreeIndex) (lo hi : Int) (loOp hiOp : Operator)
    (h1 : ¬(loOp ≠ .GTE ∧ loOp ≠ .GT)) (h2 : ¬(hiOp ≠ .LTE ∧ hiOp ≠ .LT)) :
    IndexM.wp (BTreeIndex.startScan lo loOp hi hiOp)
      (fun _ r => r ≠ .error .BadOpcodes ∧ (r = .error .BadScanrange → lo > hi)) t := by
  unfold BTreeIndex.startScan
  rw [if_neg h1, if_neg h2]
  simp only [IndexM.wp_bind, IndexM.wp_get, IndexM.wp_ite, IndexM.wp_throw, IndexM.wp_modify,
    IndexM.wp_pure', BTreeIndex.wp_pageData, Node.wp_asLeaf]
  refine ⟨fun _ => by simp, fun _ => ⟨fun _ => ?_, fun _ => ?_⟩⟩
  · refine IndexM.wp_mono (wp_endScan_notArgErr t) ?_
    intro t0 r0 hr0
    cases r0 with
    | error e =>
      simp only [Res.notArgErr, ne_eq, Res.error.injEq] at hr0
      simp only [ne_eq, Res.error.injEq]
      exact ⟨hr0.2, fun h => absurd h hr0.1⟩
    | ok a0 =>
      refine ⟨fun h => ⟨by simp, fun _ => h⟩, fun _ => ?_⟩
      refine IndexM.wp_mono (findLeafFromRoot_notArgErr lo _) ?_
      intro t1 r hr
      cases r with
      | error e =>
        simp only [Res.notArgErr, ne_eq, Res.error.injEq] at hr
        simp only [ne_eq, Res.error.injEq]
        exact ⟨hr.2, fun h => absurd h hr.1⟩
      | ok a =>
        refine ⟨fun _ => by simp, fun nd _ => ⟨fun n _ => ?_, fun n _ => by simp⟩⟩
        refine IndexM.wp_mono (startScanLeaves_notArgErr n _ t1) ?_
        intro t2 r2 hr2
        exact ⟨hr2.2, fun h => absurd h hr2.1⟩
  · refine ⟨fun h => ⟨by simp, fun _ => h⟩, fun _ => ?_⟩
    refine IndexM.wp_mono (findLeafFromRoot_notArgErr lo _) ?_
    intro t1 r hr
    cases r with
    | error e =>
      simp only [Res.notArgErr, ne_eq, Res.error.injEq] at hr
      simp only [ne_eq, Res.error.injEq]
      exact ⟨hr.2, fun h => absurd h hr.1⟩
    | ok a =>
      refine ⟨fun _ => by simp, fun nd _ => ⟨fun n _ => ?_, fun n _ => by simp⟩⟩
      refine IndexM.wp_mono (startScanLeaves_notArgErr n _ t1) ?_
      intro t2 r2 hr2
      exact ⟨hr2.2, fun h => absurd h hr2.1⟩

theorem startScan_bad_range (t : BTreeIndex) (lo hi : Int) (loOp hiOp : Operator)
    (h1 : ¬(loOp ≠ .GTE ∧ loOp ≠ .GT)) (h2 : ¬(hiOp ≠ .LTE ∧ hiOp ≠ .LT))
    (h3 : t.leafOccupancy ≠ 0) (hpin : t.scanExecuting = true → t.pinCnt t.currentPageNum ≠ 0)
    (h : lo > hi) :
    IndexM.wp (BTreeIndex.startScan lo loOp hi hiOp) (fun _ r => r = .error .BadScanrange) t := by
  unfold BTreeIndex.startScan BTreeIndex.endScan
  rw [if_neg h1, if_neg h2]
  simp only [IndexM.wp_bind, IndexM.wp_get, IndexM.wp_ite, IndexM.wp_throw, IndexM.wp_modify,
    IndexM.wp_pure', BTreeIndex.wp_unPinPage]
  refine ⟨fun h0 => absurd h0 h3, fun _ => ⟨fun hs => ⟨fun h0 => ?_, fun _ => ?_⟩, fun _ => ?_⟩⟩
  · rw [hs] at h0; simp at h0
  · exact ⟨fun _ => ⟨fun _ => trivial, fun h0 => absurd h h0⟩,
      fun _ h0 => absurd h0 (hpin hs), fun _ => ⟨fun _ => trivial, fun h0 => absurd h h0⟩⟩
  · exact ⟨fun _ => trivial, fun h0 => absurd h h0⟩

/-- C15. The failure kind of `startScan` follows the order of its checks.  It
throws `BadOpcodesException` exactly when `lowOp` is not `GT` or `GTE` or
`highOp` is not `LT` or `LTE`, and then leaves the whole state, a running scan
included, as it was.  With valid operators and `leafOccupancy = 0` it throws
`NoSuchKeyFoundException` whatever the two values are.  With valid operators
and `leafOccupancy ≠ 0`, in a state where a running scan holds its current
leaf pinned, it throws `BadScanrangeException` exactly when
`lowVal > highVal`. -/
theorem startScan_check_order (t : BTreeIndex) (lo hi : Int) (loOp hiOp : Operator) :
    ((BTreeIndex.startScan lo loOp hi hiOp t).2 = .error .BadOpcodes ↔
      ¬(loOp = .GT ∨ loOp = .GTE) ∨ ¬(hiOp = .LT ∨ hiOp = .LTE)) ∧
    (¬(loOp = .GT ∨ loOp = .GTE) ∨ ¬(hiOp = .LT ∨ hiOp = .LTE) →
      (BTreeIndex.startScan lo loOp hi hiOp t).1 = t) ∧
    ((loOp = .GT ∨ loOp = .GTE) → (hiOp = .LT ∨ hiOp = .LTE) → t.leafOccupancy = 0 →
      BTreeIndex.startScan lo loOp hi hiOp t = (t, .error .NoSuchKeyFound)) ∧
    ((loOp = .GT ∨ loOp = .GTE) → (hiOp = .LT ∨ hiOp = .LTE) → t.leafOccupancy ≠ 0 →
      (t.scanExecuting = true → t.pinCnt t.currentPageNum ≠ 0) →
      ((BTreeIndex.startScan lo loOp hi hiOp t).2 = .error .BadScanrange ↔ lo > hi)) := by
  have hlo : (loOp = .GT ∨ loOp = .GTE) ↔ ¬(loOp ≠ .GTE ∧ loOp ≠ .GT) := by
    cases loOp <;> simp
  have hhi : (hiOp = .LT ∨ hiOp = .LTE) ↔ ¬(hiOp ≠ .LTE ∧ hiOp ≠ .LT) := by
    cases hiOp <;> simp
  refine ⟨⟨fun h => ?_, fun h => ?_⟩, fun h => ?_, fun a b c => ?_, fun a b c d => ⟨fun h => ?_, fun h => ?_⟩⟩
  · by_contra hc
    rw [not_or, not_not, not_not] at hc
    exact (startScan_valid_args t lo hi loOp hiOp (hlo.1 hc.1) (hhi.1 hc.2)).1 h
  · by_cases h1 : loOp ≠ .GTE ∧ loOp ≠ .GT
    · rw [startScan_bad_lowOp t lo hi loOp hiOp h1]
    · have h2 : hiOp ≠ .LTE ∧ hiOp ≠ .LT := by
        rcases h with h | h
        · exact absurd (hlo.2 h1) h
        · by_contra hc; exact h (hhi.2 hc)
      rw [startScan_bad_highOp t lo hi loOp hiOp h1 h2]
  · by_cases h1 : loOp ≠ .GTE ∧ loOp ≠ .GT
    · rw [startScan_bad_lowOp t lo hi loOp hiOp h1]
    · have h2 : hiOp ≠ .LTE ∧ hiOp ≠ .LT := by
        rcases h with h | h
        · exact absurd (hlo.2 h1) h
        · by_contra hc; exact h (hhi.2 hc)
      rw [startScan_bad_highOp t lo hi loOp hiOp h1 h2]
  · exact startScan_no_entries t lo hi loOp hiOp (hlo.1 a) (hhi.1 b) c
  · exact (startScan_valid_args t lo hi loOp hiOp (hlo.1 a) (hhi.1 b)).2 h
  · exact startScan_bad_range t lo hi loOp hiOp (hlo.1 a) (hhi.1 b) c d h

/-- Witness of C15: on a fresh index `startScan(0, GTE, 100, LTE)` throws
`NoSuchKeyFoundException`. -/
theorem startScan_check_order_witness :
    BTreeIndex.startScan 0 .GTE 100 .LTE (BTreeIndex.empty 4 4)
      = (BTreeIndex.empty 4 4, .error .NoSuchKeyFound) :=
  (startScan_check_order (BTreeIndex.empty 4 4) 0 100 .GTE .LTE).2.2.1
    (Or.inr rfl) (Or.inr rfl) rfl

/-- The life cycle of a scan.  `scanNext` and `endScan` throw
`ScanNotInitializedException` exactly when `scanExecuting` is false, and then
leave the state as it was.  While a scan is executing, `endScan` is the call
`unPinPage(currentPageNum, false)` after `scanExecuting = false`; when it
returns, `scanExecuting` is false, no dirty release has been recorded, the pin
count of the current leaf has dropped by one if the pool holds the leaf, no
other pin count has changed, and an `endScan` or `scanNext` that follows at once
throws `ScanNotInitializedException`. -/
theorem scan_lifecycle (t : BTreeIndex) :
    ((BTreeIndex.scanNext t).2 = .error .ScanNotInitialized ↔ t.scanExecuting = false) ∧
    ((BTreeIndex.endScan t).2 = .error .ScanNotInitialized ↔ t.scanExecuting = false) ∧
    (t.scanExecuting = false → (BTreeIndex.scanNext t).1 = t ∧ (BTreeIndex.endScan t).1 = t) ∧
    (t.scanExecuting = true → BTreeIndex.endScan t
      = BTreeIndex.unPinPage t.currentPageNum false { t with scanExecuting := false }) ∧
    (∀ t' : BTreeIndex, BTreeIndex.endScan t = (t', .ok ()) →
      t'.scanExecuting = false ∧ t'.dirtied = t.dirtied ∧
      (assocGet t.pins t.currentPageNum ≠ none → 0 < t.pinCnt t.currentPageNum) ∧
      t'.pinCnt t.currentPageNum = t.pinCnt t.currentPageNum - 1 ∧
      (∀ q : PageId, q ≠ t.currentPageNum → t'.pinCnt q = t.pinCnt q) ∧
      (BTreeIndex.endScan t').2 = .error .ScanNotInitialized ∧
      (BTreeIndex.scanNext t').2 = .error .ScanNotInitialized) := by
  refine ⟨⟨fun h => ?_, fun h => ?_⟩, ⟨fun h => ?_, fun h => ?_⟩, fun h => ?_, fun h => ?_,
    fun t' h => ?_⟩
  · cases hs : t.scanExecuting with
    | false => rfl
    | true => exact absurd h (scanNext_executing t hs)
  · rw [scanNext_not_executing t h]
  · cases hs : t.scanExecuting with
    | false => rfl
    | true =>
      rw [endScan_executing t hs] at h
      unfold BTreeIndex.unPinPage at h
      split at h
      · simp at h
      · split at h <;> simp at h
  · rw [endScan_not_executing t h]
  · rw [scanNext_not_executing t h, endScan_not_executing t h]
    exact ⟨rfl, rfl⟩
  · exact endScan_executing t h
  · cases hs : t.scanExecuting with
    | false => rw [endScan_not_executing t hs] at h; simp at h
    | true =>
      rw [endScan_executing t hs] at h
      unfold BTreeIndex.unPinPage at h
      split at h
      · rename_i h0
        have h0' : assocGet t.pins t.currentPageNum = none := h0
        simp only [Prod.mk.injEq, and_true] at h
        subst h
        refine ⟨rfl, rfl, fun hh => absurd h0' hh, ?_, fun q _ => rfl, ?_, ?_⟩
        · have hz : t.pinCnt t.currentPageNum = 0 := BTreeIndex.pinCnt_of_none h0'
          show t.pinCnt t.currentPageNum = t.pinCnt t.currentPageNum - 1
          omega
        · rw [endScan_not_executing _ rfl]
        · rw [scanNext_not_executing _ rfl]
      · split at h
        · simp at h
        · rename_i _ hp
          simp only [Prod.mk.injEq, and_true] at h
          subst h
          have hp' : t.pinCnt t.currentPageNum ≠ 0 := hp
          refine ⟨rfl, rfl, fun _ => Nat.pos_of_ne_zero hp', ?_, ?_, ?_, ?_⟩
          · simp [BTreeIndex.pinCnt, assocGet_assocSet]
          · intro q hq
            simp [BTreeIndex.pinCnt, assocGet_assocSet, hq]
          · rw [endScan_not_executing _ rfl]
          · rw [scanNext_not_executing _ rfl]

/-- The life cycle on a fresh index, where no scan is executing: `endScan`
throws `ScanNotInitializedException`. -/
theorem scan_lifecycle_witness :
    (BTreeIndex.endScan (BTreeIndex.empty 4 4)).2 = .error .ScanNotInitialized :=
  (scan_lifecycle (BTreeIndex.empty 4 4)).2.1.2 rfl

/-! ### The leaf-split scenario -/

theorem insertEntry_fits_10 (N : Nat) :
    BTreeIndex.insertEntry (Int.ofNat 10) (RecordId.mk 10 0) (BTreeIndex.empty 4 N)
      = (leafRootIndex N (leafOfFour 10 0 0 0 1 0) 1, .ok ()) := rfl

theorem insertEntry_fits_20 (N : Nat) :
    BTreeIndex.insertEntry (Int.ofNat 20) (RecordId.mk 20 0)
        (leafRootIndex N (leafOfFour 10 0 0 0 1 0) 1)
      = (leafRootIndex N (leafOfFour 10 20 0 0 2 0) 2, .ok ()) := rfl

theorem insertEntry_fits_30 (N : Nat) :
    BTreeIndex.insertEntry (Int.ofNat 30) (RecordId.mk 30 0)
        (leafRootIndex N (leafOfFour 10 20 0 0 2 0) 2)
      = (leafRootIndex N (leafOfFour 10 20 30 0 3 0) 3, .ok ()) := rfl

theorem insertEntry_fits_40 (N : Nat) :
    BTreeIndex.insertEntry (Int.ofNat 40) (RecordId.mk 40 0)
        (leafRootIndex N (leafOfFour 10 20 30 0 3 0) 3)
      = (leafRootIndex N (leafOfFour 10 20 30 40 4 0) 4, .ok ()) := rfl

theorem insertEntry_split_25 (N : Nat) :
    BTreeIndex.insertEntry (Int.ofNat 25) (RecordId.mk 25 0)
        (leafRootIndex N (leafOfFour 10 20 30 40 4 0) 4)
      = (leafSplitResult N, .ok ()) := by
  have e1 : IndexM.modify (fun t => { t with leafOccupancy := t.leafOccupancy + 1 })
      (leafRootIndex N (leafOfFour 10 20 30 40 4 0) 4)
      = (leafRootIndex N (leafOfFour 10 20 30 40 4 0) 5, .ok ()) := rfl
  have e2 : IndexM.get (leafRootIndex N (leafOfFour 10 20 30 40 4 0) 5)
      = (leafRootIndex N (leafOfFour 10 20 30 40 4 0) 5,
          .ok (leafRootIndex N (leafOfFour 10 20 30 40 4 0) 5)) := rfl
  have e3 : BTreeIndex.findLeaf (fun _ => IndexM.pure ())
      (leafRootIndex N (leafOfFour 10 20 30 40 4 0) 5).rootPageNum (Int.ofNat 25) 0
      (decide ((leafRootIndex N (leafOfFour 10 20 30 40 4 0) 5).nodeOccupancy = 0))
      (leafRootIndex N (leafOfFour 10 20 30 40 4 0) 5)
      = (leafRootDescended N, .ok (2, 0)) := rfl
  have e4 : BTreeIndex.pageData 2 (leafRootDescended N)
      = (leafRootDescended N, .ok (leafOfFour 10 20 30 40 4 0)) := rfl
  have e5 : (leafOfFour 10 20 30 40 4 0).asLeaf (leafRootDescended N)
      = (leafRootDescended N,
          .ok ⟨[10, 20, 30, 40], [⟨10, 0⟩, ⟨20, 0⟩, ⟨30, 0⟩, ⟨40, 0⟩], 4, 0⟩) := rfl
  have e6 : (leafRootIndex N (leafOfFour 10 20 30 40 4 0) 5).INTARRAYLEAFSIZE = 4 := rfl
  have e7 : BTreeIndex.allocPage (leafRootDescended N)
      = ({ leafRootDescended N with pins := [(1, 0), (2, 2), (3, 1)], nextPageNo := 4 },
          .ok 3) := rfl
  have e8 : LeafNodeInt.split 4 ⟨[10, 20, 30, 40], [⟨10, 0⟩, ⟨20, 0⟩, ⟨30, 0⟩, ⟨40, 0⟩], 4, 0⟩
      (Int.ofNat 25) ⟨25, 0⟩ 3
      = (⟨[10, 20, 25, 40], [⟨10, 0⟩, ⟨20, 0⟩, ⟨25, 0⟩, ⟨40, 0⟩], 3, 3⟩,
         ⟨[30, 40, 0, 0], [⟨30, 0⟩, ⟨40, 0⟩, ⟨0, 0⟩, ⟨0, 0⟩], 2, 0⟩, 30) := by decide
  unfold BTreeIndex.insertEntry
  rw [IndexM.bind_run, e1]
  simp only []
  rw [IndexM.bind_run, e2]
  simp only []
  rw [IndexM.bind_run, e3]
  simp only []
  rw [IndexM.bind_run, e4]
  simp only []
  rw [IndexM.bind_run, e5]
  simp only []
  rw [e6, if_neg (by decide)]
  rw [IndexM.bind_run, e7]
  simp only []
  rw [e8]
  rfl

theorem insertAll_leaf_split (N : Nat) :
    BTreeIndex.insertAll (entriesOf [10, 20, 30, 40, 25]) (BTreeIndex.empty 4 N)
      = (leafSplitResult N, .ok ()) := by
  simp only [entriesOf, List.map, BTreeIndex.insertAll, IndexM.bind_run, insertEntry_fits_10,
    insertEntry_fits_20, insertEntry_fits_30, insertEntry_fits_40, insertEntry_split_25]
  rfl

/-- C13 as amended.  With leaf capacity 4 and any internal capacity of at least
1, `insertEntry` of the keys 10, 20, 30, 40, 25 into an empty index returns
normally each time and leaves an internal root with the single key 30 and the
children pages 2 and 3; page 2 is a leaf holding exactly 10, 20, 25, page 3 a
leaf holding exactly 30, 40; the right sibling of page 2 is page 3 and page 3
has no right sibling. -/
theorem leaf_split_scenario (nodeCap : Nat) (h : 1 ≤ nodeCap) :
    (BTreeIndex.insertAll (entriesOf [10, 20, 30, 40, 25]) (BTreeIndex.empty 4 nodeCap)).2
      = .ok () ∧
    ∀ t : BTreeIndex,
      t = (BTreeIndex.insertAll (entriesOf [10, 20, 30, 40, 25])
        (BTreeIndex.empty 4 nodeCap)).1 →
      t.keysOf t.rootPageNum = [30] ∧ t.childrenOf t.rootPageNum = [2, 3] ∧
      t.keysOf 2 = [10, 20, 25] ∧ t.keysOf 3 = [30, 40] ∧
      t.rightSibOf 2 = some 3 ∧ t.rightSibOf 3 = some 0 := by
  rw [insertAll_leaf_split]
  refine ⟨rfl, ?_⟩
  intro t ht
  subst ht
  obtain ⟨M, rfl⟩ : ∃ M, nodeCap = M + 1 := ⟨nodeCap - 1, by omega⟩
  exact ⟨rfl, rfl, rfl, rfl, rfl, rfl⟩

/-- Witness of C13 as amended, at internal capacity 4. -/
theorem leaf_split_scenario_witness :
    (1 ≤ 4) ∧
    (BTreeIndex.insertAll (entriesOf [10, 20, 30, 40, 25]) (BTreeIndex.empty 4 4)).2 = .ok () :=
  ⟨by decide, (leaf_split_scenario 4 (by decide)).1⟩

/-- C13 as stated fails: in the leaf-split scenario the key of the root is 30,
not 25, the left leaf holds 10, 20, 25 and the right leaf 30, 40. -/
theorem leaf_split_scenario_promotes_30 :
    leafSplitScenario.2 = .ok () ∧
    leafSplitScenario.1.keysOf leafSplitScenario.1.rootPageNum ≠ [25] ∧
    leafSplitScenario.1.keysOf 2 ≠ [10, 20] ∧
    leafSplitScenario.1.keysOf 3 ≠ [25, 30, 40] := by
  decide!

/-! ### Inputs on which the code departs from a claim, continued -/

/-- C14. After the distinct keys 2, 4, ..., 16, 1, 3, 5, 7 (leaf capacity 4,
internal capacity 2) the internal node on page 4 has the single key 10 and the
children 2 and 6, and the leaf on page 6, its child to the right of the key 10,
holds the keys 3, 4, 5, all smaller than 10. -/
theorem separator_violated_after_internal_split :
    evensThenOdds.2 = .ok () ∧
    evensThenOdds.1.keysOf 4 = [10] ∧
    evensThenOdds.1.childrenOf 4 = [2, 6] ∧
    evensThenOdds.1.keysOf 6 = [3, 4, 5] := by
  decide!

/-- C19. Splitting the full internal node with keys 6, 10 and children 2, 3, 5
(capacity 2) for the promoted pair (3, page 6), which comes from the split of
child 2, gives a left node with key 10 and children 2, 6, the pushed-up key 10,
and a right node with key 10 and children 3, 5: the keys 3 and 6 are gone and
the key 10 is in both nodes. -/
theorem internal_split_left_loses_key :
    (fullNodeOfTwo.split 2 3 6).1.keyArray.take (fullNodeOfTwo.split 2 3 6).1.numValidKeys
      = [10] ∧
    (fullNodeOfTwo.split 2 3 6).2.2 = 10 ∧
    (fullNodeOfTwo.split 2 3 6).2.1.keyArray.take (fullNodeOfTwo.split 2 3 6).2.1.numValidKeys
      = [10] ∧
    (fullNodeOfTwo.split 2 3 6).1.pageNoArray.take
      ((fullNodeOfTwo.split 2 3 6).1.numValidKeys + 1) = [2, 6] ∧
    (fullNodeOfTwo.split 2 3 6).2.1.pageNoArray.take
      ((fullNodeOfTwo.split 2 3 6).2.1.numValidKeys + 1) = [3, 5] := by
  decide

/-! ### Arrays: shifting, copying, searching -/

theorem shiftList_length {α : Type} (d : α) (index : Nat) :
    ∀ (i : Nat) (l : List α), (shiftList d index i l).length = l.length := by
  intro i
  induction i with
  | zero => intro l; rfl
  | succ i ih =>
    intro l
    unfold shiftList
    split
    · rw [ih]; simp
    · rfl

theorem shiftList_getElem? {α : Type} (d : α) (index : Nat) :
    ∀ (i : Nat) (l : List α), i < l.length → ∀ j : Nat,
      (shiftList d index i l)[j]? = if index < j ∧ j ≤ i then l[j - 1]? else l[j]? := by
  intro i
  induction i with
  | zero =>
    intro l _ j
    have : ¬(index < j ∧ j ≤ 0) := by omega
    rw [if_neg this]
    rfl
  | succ i ih =>
    intro l hl j
    unfold shiftList
    by_cases hi : i + 1 > index
    · rw [if_pos hi]
      have hlen : i < (l.set (i + 1) (l.getD i d)).length := by simp; omega
      rw [ih _ hlen j]
      have hget : some (l.getD i d) = l[i]? := by
        simp [List.getD_eq_getElem?_getD, List.getElem?_eq_getElem (show i < l.length by omega)]
      by_cases hj : index < j ∧ j ≤ i
      · rw [if_pos hj, if_pos ⟨hj.1, by omega⟩]
        rw [List.getElem?_set_ne (by omega)]
      · rw [if_neg hj]
        by_cases hj2 : j = i + 1
        · subst hj2
          rw [if_pos ⟨hi, Nat.le_refl _⟩, List.getElem?_set_self hl, hget]
          rfl
        · rw [List.getElem?_set_ne (Ne.symm hj2)]
          have : ¬(index < j ∧ j ≤ i + 1) := by omega
          rw [if_neg this]
    · rw [if_neg hi]
      have : ¬(index < j ∧ j ≤ i + 1) := by omega
      rw [if_neg this]

/-- Shifting the slots `index .. n - 1` one to the right and writing `x` at
`index` inserts `x` at position `index` among the first `n` entries. -/
theorem take_set_shiftList {α : Type} (d x : α) (index n : Nat) (l : List α)
    (h1 : index ≤ n) (h2 : n < l.length) :
    ((shiftList d index n l).set index x).take (n + 1)
      = l.take index ++ x :: (l.drop index).take (n - index) := by
  apply List.ext_getElem?
  intro j
  have hlen : index < (shiftList d index n l).length := by rw [shiftList_length]; omega
  rw [List.getElem?_take, List.getElem?_append]
  simp only [List.length_take, Nat.min_eq_left (show index ≤ l.length by omega)]
  by_cases hj : j < n + 1
  · rw [if_pos hj]
    by_cases hji : j < index
    · rw [if_pos hji, List.getElem?_set_ne (by omega), shiftList_getElem? d index n l h2,
        if_neg (by omega), List.getElem?_take_of_lt hji]
    · rw [if_neg hji]
      by_cases hje : j = index
      · subst hje
        rw [List.getElem?_set_self hlen]
        simp
      · rw [List.getElem?_set_ne (Ne.symm hje), shiftList_getElem? d index n l h2,
          if_pos (by omega)]
        obtain ⟨m, hm⟩ : ∃ m, j - index = m + 1 := ⟨j - index - 1, by omega⟩
        rw [hm, List.getElem?_cons_succ, List.getElem?_take_of_lt (by omega),
          List.getElem?_drop]
        congr 1
        omega
  · rw [if_neg hj]
    have hge : index ≤ j := by omega
    rw [if_neg (by omega)]
    obtain ⟨m, hm⟩ : ∃ m, j - index = m + 1 := ⟨j - index - 1, by omega⟩
    rw [hm, List.getElem?_cons_succ, List.getElem?_take_eq_none (by omega)]

theorem copyList_length {α : Type} (f : Nat → α) :
    ∀ (c : Nat) (l : List α), (copyList f c l).length = l.length := by
  intro c
  induction c with
  | zero => intro l; rfl
  | succ c ih =>
    intro l
    unfold copyList at ih ⊢
    rw [List.range_succ, List.foldl_append]
    simp [ih]

theorem copyList_getElem? {α : Type} (f : Nat → α) :
    ∀ (c : Nat) (l : List α) (j : Nat),
      (copyList f c l)[j]? = if j < c ∧ j < l.length then some (f j) else l[j]? := by
  intro c
  induction c with
  | zero => intro l j; simp [copyList]
  | succ c ih =>
    intro l j
    have hstep : copyList f (c + 1) l = (copyList f c l).set c (f c) := by
      unfold copyList
      rw [List.range_succ, List.foldl_append]
      rfl
    rw [hstep]
    by_cases hjc : j = c
    · subst hjc
      by_cases hl : j < l.length
      · rw [List.getElem?_set_self (by rw [copyList_length]; exact hl)]
        simp [hl]
      · rw [List.getElem?_eq_none (by simp [copyList_length]; omega)]
        simp [hl, List.getElem?_eq_none (show l.length ≤ j by omega)]
    · rw [List.getElem?_set_ne (Ne.symm hjc), ih]
      by_cases h : j < c ∧ j < l.length
      · rw [if_pos h, if_pos ⟨by omega, h.2⟩]
      · rw [if_neg h, if_neg (by omega)]

/-- Copying `c` entries of `src` from position `m` on fills the first `c` slots
with the entries `m .. m + c - 1` of `src`. -/
theorem take_copyList {α : Type} (d : α) (src l : List α) (m c : Nat)
    (h1 : c ≤ l.length) (h2 : m + c ≤ src.length) :
    (copyList (fun i => src.getD (m + i) d) c l).take c = (src.drop m).take c := by
  apply List.ext_getElem?
  intro j
  rw [List.getElem?_take, List.getElem?_take]
  by_cases hj : j < c
  · rw [if_pos hj, if_pos hj, copyList_getElem?, if_pos ⟨hj, by omega⟩, List.getElem?_drop]
    simp [List.getD_eq_getElem?_getD, List.getElem?_eq_getElem (show m + j < src.length by omega)]
  · rw [if_neg hj, if_neg hj]

theorem findIndexLoop_spec (K : List Int) (n : Nat) (k : Int) :
    ∀ (fuel index : Nat), index ≤ n → n - index ≤ fuel →
      index ≤ findIndexLoop K n k fuel index ∧ findIndexLoop K n k fuel index ≤ n ∧
      (∀ j, index ≤ j → j < findIndexLoop K n k fuel index → K.getD j 0 ≤ k) ∧
      (findIndexLoop K n k fuel index < n →
        k < K.getD (findIndexLoop K n k fuel index) 0) := by
  intro fuel
  induction fuel with
  | zero =>
    intro index h1 h2
    have : index = n := by omega
    subst this
    refine ⟨Nat.le_refl _, Nat.le_refl _, ?_, ?_⟩
    · intro j hj1 hj2
      simp only [findIndexLoop] at hj2
      omega
    · intro h
      simp only [findIndexLoop] at h
      omega
  | succ fuel ih =>
    intro index h1 h2
    unfold findIndexLoop
    by_cases hc : index < n ∧ k ≥ K.getD index 0
    · rw [if_pos hc]
      obtain ⟨a, b, c, d⟩ := ih (index + 1) (by omega) (by omega)
      refine ⟨by omega, b, ?_, d⟩
      intro j hj1 hj2
      by_cases hj : j = index
      · subst hj; exact hc.2
      · exact c j (by omega) hj2
    · rw [if_neg hc]
      refine ⟨Nat.le_refl _, h1, ?_, ?_⟩
      · intro j hj1 hj2; omega
      · intro h
        by_contra hk
        exact hc ⟨h, by omega⟩

/-- The search stops at the first slot whose key exceeds `k`; this slot is
unique. -/
theorem findIndexLoop_unique (K : List Int) (n : Nat) (k : Int) (fuel r : Nat)
    (hfuel : n ≤ fuel) (hr : r ≤ n) (hlo : ∀ j, j < r → K.getD j 0 ≤ k)
    (hhi : r < n → k < K.getD r 0) : findIndexLoop K n k fuel 0 = r := by
  obtain ⟨_, b, c, d⟩ := findIndexLoop_spec K n k fuel 0 (Nat.zero_le _) (by omega)
  rcases Nat.lt_trichotomy (findIndexLoop K n k fuel 0) r with h | h | h
  · have h1 := d (by omega)
    have h2 := hlo _ h
    omega
  · exact h
  · have h1 := hhi (by omega)
    have h2 := c r (Nat.zero_le _) h
    omega

theorem LeafNodeInt.shiftLoop_eq (index : Nat) : ∀ (i : Nat) (node : LeafNodeInt),
    LeafNodeInt.shiftLoop index i node
      = { node with
          keyArray := shiftList 0 index i node.keyArray
          ridArray := shiftList ⟨0, 0⟩ index i node.ridArray } := by
  intro i
  induction i with
  | zero => intro node; rfl
  | succ i ih =>
    intro node
    unfold LeafNodeInt.shiftLoop
    by_cases h : i + 1 > index
    · rw [if_pos h, ih]
      simp only [shiftList, if_pos h]
    · rw [if_neg h]
      simp only [shiftList, if_neg h]

theorem LeafNodeInt.insertFits_numValidKeys (node : LeafNodeInt) (k : Int) (rid : RecordId) :
    (node.insertFits k rid).numValidKeys = node.numValidKeys + 1 := by
  simp [LeafNodeInt.insertFits, LeafNodeInt.shiftData, LeafNodeInt.shiftLoop_eq]

theorem LeafNodeInt.insertFits_rightSib (node : LeafNodeInt) (k : Int) (rid : RecordId) :
    (node.insertFits k rid).rightSibPageNo = node.rightSibPageNo := by
  simp [LeafNodeInt.insertFits, LeafNodeInt.shiftData, LeafNodeInt.shiftLoop_eq]

theorem take_insert_aux {α : Type} (l : List α) (x : α) (ix n : Nat) (h : ix ≤ n) :
    l.take ix ++ x :: (l.drop ix).take (n - ix)
      = (l.take n).take ix ++ x :: (l.take n).drop ix := by
  rw [List.take_take, Nat.min_eq_left h, List.drop_take]

/-- The fits path inserts the entry at the slot `findIndex` returns. -/
theorem LeafNodeInt.insertFits_keys (node : LeafNodeInt) (k : Int) (rid : RecordId)
    (h1 : node.numValidKeys < node.keyArray.length) :
    (node.insertFits k rid).keys
      = node.keys.take (node.findIndex k) ++ k :: node.keys.drop (node.findIndex k) := by
  have hix : node.findIndex k ≤ node.numValidKeys :=
    (findIndexLoop_spec node.keyArray node.numValidKeys k node.numValidKeys 0
      (Nat.zero_le _) (by omega)).2.1
  simp only [LeafNodeInt.keys, LeafNodeInt.insertFits, LeafNodeInt.shiftData,
    LeafNodeInt.shiftLoop_eq]
  rw [take_set_shiftList 0 k _ _ _ hix h1, take_insert_aux _ _ _ _ hix]

theorem LeafNodeInt.insertFits_rids (node : LeafNodeInt) (k : Int) (rid : RecordId)
    (h1 : node.numValidKeys < node.ridArray.length) :
    (node.insertFits k rid).rids
      = node.rids.take (node.findIndex k) ++ rid :: node.rids.drop (node.findIndex k) := by
  have hix : node.findIndex k ≤ node.numValidKeys :=
    (findIndexLoop_spec node.keyArray node.numValidKeys k node.numValidKeys 0
      (Nat.zero_le _) (by omega)).2.1
  simp only [LeafNodeInt.rids, LeafNodeInt.insertFits, LeafNodeInt.shiftData,
    LeafNodeInt.shiftLoop_eq]
  rw [take_set_shiftList ⟨0, 0⟩ rid _ _ _ hix h1, take_insert_aux _ _ _ _ hix]

/-- The copy loop of the leaf split, array by array. -/
theorem LeafNodeInt.copy_eq (src : LeafNodeInt) (m : Nat) :
    ∀ (c : Nat) (nd : LeafNodeInt),
      (List.range c).foldl
        (fun (nd : LeafNodeInt) i =>
          { nd with
            keyArray := nd.keyArray.set i (src.keyArray.getD (m + i) 0)
            ridArray := nd.ridArray.set i (src.ridArray.getD (m + i) ⟨0, 0⟩) }) nd
        = { nd with
            keyArray := copyList (fun i => src.keyArray.getD (m + i) 0) c nd.keyArray
            ridArray := copyList (fun i => src.ridArray.getD (m + i) ⟨0, 0⟩) c nd.ridArray } := by
  intro c
  induction c with
  | zero => intro nd; rfl
  | succ c ih =>
    intro nd
    rw [List.range_succ, List.foldl_append, ih]
    simp only [copyList, List.range_succ, List.foldl_append, List.foldl_cons, List.foldl_nil]

theorem head?_take_getD {α : Type} (d : α) (l : List α) (n : Nat) (h1 : 1 ≤ n)
    (h2 : 1 ≤ l.length) : (l.take n).head? = some (l.getD 0 d) := by
  cases l with
  | nil => simp at h2
  | cons a t =>
    obtain ⟨n', rfl⟩ : ∃ n', n = n' + 1 := ⟨n - 1, by omega⟩
    simp

theorem LeafNodeInt.findIndex_le (node : LeafNodeInt) (k : Int) :
    node.findIndex k ≤ node.numValidKeys :=
  (findIndexLoop_spec node.keyArray node.numValidKeys k node.numValidKeys 0
    (Nat.zero_le _) (by omega)).2.1

/-- The insert-left case of the leaf split, field by field. -/
theorem LeafNodeInt.split_left (L : Nat) (leaf : LeafNodeInt) (k : Int) (rid : RecordId)
    (sp : PageId) (hL : 1 ≤ L) (hk : leaf.keyArray.length = L)
    (hr : leaf.ridArray.length = L) (hn : leaf.numValidKeys = L)
    (h : leaf.findIndex k ≤ L / 2) :
    (leaf.split L k rid sp).1.keys
        = (leaf.keyArray.take (L - (L + 1) / 2)).take (leaf.findIndex k)
          ++ k :: (leaf.keyArray.take (L - (L + 1) / 2)).drop (leaf.findIndex k) ∧
    (leaf.split L k rid sp).1.rids
        = (leaf.ridArray.take (L - (L + 1) / 2)).take (leaf.findIndex k)
          ++ rid :: (leaf.ridArray.take (L - (L + 1) / 2)).drop (leaf.findIndex k) ∧
    (leaf.split L k rid sp).2.1.keys = leaf.keyArray.drop (L - (L + 1) / 2) ∧
    (leaf.split L k rid sp).2.1.rids = leaf.ridArray.drop (L - (L + 1) / 2) ∧
    (leaf.split L k rid sp).1.numValidKeys = L - (L + 1) / 2 + 1 ∧
    (leaf.split L k rid sp).2.1.numValidKeys = (L + 1) / 2 ∧
    (leaf.split L k rid sp).2.1.keys.head? = some (leaf.split L k rid sp).2.2 ∧
    (leaf.split L k rid sp).2.1.rightSibPageNo = leaf.rightSibPageNo ∧
    (leaf.split L k rid sp).1.rightSibPageNo = sp := by
  have hspec := findIndexLoop_spec leaf.keyArray leaf.numValidKeys k leaf.numValidKeys 0
    (Nat.zero_le _) (by omega)
  have hfi : ({ leaf with numValidKeys := L - (L + 1) / 2 } : LeafNodeInt).findIndex k
      = leaf.findIndex k := by
    apply findIndexLoop_unique
    · exact Nat.le_refl _
    · show leaf.findIndex k ≤ L - (L + 1) / 2
      omega
    · intro j hj
      exact hspec.2.2.1 j (Nat.zero_le _) hj
    · intro hlt
      apply hspec.2.2.2
      show leaf.findIndex k < leaf.numValidKeys
      have : leaf.findIndex k < L - (L + 1) / 2 := hlt
      omega
  have hkeys := LeafNodeInt.insertFits_keys
    ({ leaf with numValidKeys := L - (L + 1) / 2 } : LeafNodeInt) k rid
    (by show L - (L + 1) / 2 < leaf.keyArray.length; omega)
  have hrids := LeafNodeInt.insertFits_rids
    ({ leaf with numValidKeys := L - (L + 1) / 2 } : LeafNodeInt) k rid
    (by show L - (L + 1) / 2 < leaf.ridArray.length; omega)
  rw [hfi] at hkeys hrids
  have hlen : ∀ {α : Type} (l : List α), l.length = L →
      (l.drop (L - (L + 1) / 2)).take ((L + 1) / 2) = l.drop (L - (L + 1) / 2) := by
    intro α l hl
    apply List.take_of_length_le
    simp [hl]
    omega
  simp only [LeafNodeInt.split, h, decide_True, if_true, LeafNodeInt.copy_eq]
  refine ⟨hkeys, hrids, ?_, ?_, ?_, trivial, ?_, ?_, trivial⟩
  · simp only [LeafNodeInt.keys, LeafNodeInt.zero]
    rw [take_copyList 0 _ _ _ _ (by simp; omega) (by omega), hlen _ hk]
  · simp only [LeafNodeInt.rids, LeafNodeInt.zero]
    rw [take_copyList (⟨0, 0⟩ : RecordId) _ _ _ _ (by simp; omega) (by omega), hlen _ hr]
  · rw [LeafNodeInt.insertFits_numValidKeys]
  · simp only [LeafNodeInt.keys, LeafNodeInt.zero]
    apply head?_take_getD
    · omega
    · rw [copyList_length]; simp; omega
  · rw [LeafNodeInt.insertFits_rightSib]

theorem LeafNodeInt.insertFits_keyArray_length (node : LeafNodeInt) (k : Int) (rid : RecordId) :
    (node.insertFits k rid).keyArray.length = node.keyArray.length := by
  simp [LeafNodeInt.insertFits, LeafNodeInt.shiftData, LeafNodeInt.shiftLoop_eq,
    shiftList_length]

theorem copyList_getD {α : Type} (d : α) (f : Nat → α) (c : Nat) (l : List α) (j : Nat)
    (h1 : j < c) (h2 : j < l.length) : (copyList f c l).getD j d = f j := by
  rw [List.getD_eq_getElem?_getD, copyList_getElem?, if_pos ⟨h1, h2⟩]
  rfl

/-- The insert-right case of the leaf split, field by field. -/
theorem LeafNodeInt.split_right (L : Nat) (leaf : LeafNodeInt) (k : Int) (rid : RecordId)
    (sp : PageId) (hL : 1 ≤ L) (hk : leaf.keyArray.length = L)
    (hr : leaf.ridArray.length = L) (hn : leaf.numValidKeys = L)
    (h : ¬ leaf.findIndex k ≤ L / 2) :
    (leaf.split L k rid sp).1.keys = leaf.keyArray.take (L - L / 2) ∧
    (leaf.split L k rid sp).1.rids = leaf.ridArray.take (L - L / 2) ∧
    (leaf.split L k rid sp).2.1.keys
        = (leaf.keyArray.drop (L - L / 2)).take (leaf.findIndex k - (L - L / 2))
          ++ k :: (leaf.keyArray.drop (L - L / 2)).drop (leaf.findIndex k - (L - L / 2)) ∧
    (leaf.split L k rid sp).2.1.rids
        = (leaf.ridArray.drop (L - L / 2)).take (leaf.findIndex k - (L - L / 2))
          ++ rid :: (leaf.ridArray.drop (L - L / 2)).drop (leaf.findIndex k - (L - L / 2)) ∧
    (leaf.split L k rid sp).1.numValidKeys = L - L / 2 ∧
    (leaf.split L k rid sp).2.1.numValidKeys = L / 2 + 1 ∧
    (leaf.split L k rid sp).2.1.keys.head? = some (leaf.split L k rid sp).2.2 ∧
    (leaf.split L k rid sp).2.1.rightSibPageNo = leaf.rightSibPageNo ∧
    (leaf.split L k rid sp).1.rightSibPageNo = sp := by
  have hspec := findIndexLoop_spec leaf.keyArray leaf.numValidKeys k leaf.numValidKeys 0
    (Nat.zero_le _) (by omega)
  have hidx : leaf.findIndex k ≤ L := hn ▸ leaf.findIndex_le k
  have hlen : ∀ {α : Type} (l : List α), l.length = L →
      (l.drop (L - L / 2)).take (L / 2) = l.drop (L - L / 2) := by
    intro α l hl
    apply List.take_of_length_le
    simp [hl]
    omega
  generalize hsec : LeafNodeInt.mk
      (copyList (fun i => leaf.keyArray.getD (L - L / 2 + i) 0) (L / 2) (List.replicate L 0))
      (copyList (fun i => leaf.ridArray.getD (L - L / 2 + i) ⟨0, 0⟩) (L / 2)
        (List.replicate L ⟨0, 0⟩))
      (L / 2) 0 = sec
  have hsk : sec.keyArray = copyList (fun i => leaf.keyArray.getD (L - L / 2 + i) 0)
        (L / 2) (List.replicate L 0) := by rw [← hsec]
  have hsr : sec.ridArray = copyList (fun i => leaf.ridArray.getD (L - L / 2 + i) ⟨0, 0⟩)
        (L / 2) (List.replicate L ⟨0, 0⟩) := by rw [← hsec]
  have hsn : sec.numValidKeys = L / 2 := by rw [← hsec]
  have hfi : sec.findIndex k = leaf.findIndex k - (L - L / 2) := by
    unfold LeafNodeInt.findIndex
    rw [hsn, hsk]
    apply findIndexLoop_unique
    · exact Nat.le_refl _
    · show leaf.findIndex k - (L - L / 2) ≤ L / 2
      omega
    · intro j hj
      have hj2 : j < leaf.findIndex k - (L - L / 2) := hj
      rw [copyList_getD 0 _ _ _ _ (by omega) (by simp; omega)]
      exact hspec.2.2.1 _ (Nat.zero_le _) (show L - L / 2 + j < leaf.findIndex k by omega)
    · intro hlt
      have hlt2 : leaf.findIndex k - (L - L / 2) < L / 2 := hlt
      rw [copyList_getD 0 _ _ _ _ hlt (by simp; omega)]
      have he : L - L / 2 + (leaf.findIndex k - (L - L / 2)) = leaf.findIndex k := by omega
      show k < leaf.keyArray.getD (L - L / 2 + (leaf.findIndex k - (L - L / 2))) 0
      rw [he]
      apply hspec.2.2.2
      show leaf.findIndex k < leaf.numValidKeys
      omega
  have hkeys0 : sec.keys = leaf.keyArray.drop (L - L / 2) := by
    unfold LeafNodeInt.keys
    rw [hsn, hsk, take_copyList 0 _ _ _ _ (by simp; omega) (by omega), hlen _ hk]
  have hrids0 : sec.rids = leaf.ridArray.drop (L - L / 2) := by
    unfold LeafNodeInt.rids
    rw [hsn, hsr, take_copyList (⟨0, 0⟩ : RecordId) _ _ _ _ (by simp; omega) (by omega),
      hlen _ hr]
  have hkeys := LeafNodeInt.insertFits_keys sec k rid
    (by rw [hsn, hsk, copyList_length]; simp; omega)
  have hrids := LeafNodeInt.insertFits_rids sec k rid
    (by rw [hsn, hsr, copyList_length]; simp; omega)
  rw [hfi, hkeys0] at hkeys
  rw [hfi, hrids0] at hrids
  simp only [LeafNodeInt.split, h, decide_False, if_false, LeafNodeInt.copy_eq,
    LeafNodeInt.zero, Nat.add_zero, Bool.false_eq_true]
  rw [hsec]
  refine ⟨rfl, rfl, hkeys, hrids, trivial, ?_, ?_, trivial, trivial⟩
  · rw [LeafNodeInt.insertFits_numValidKeys, hsn]
  · apply head?_take_getD
    · show 1 ≤ (sec.insertFits k rid).numValidKeys
      rw [LeafNodeInt.insertFits_numValidKeys]
      omega
    · show 1 ≤ (sec.insertFits k rid).keyArray.length
      rw [LeafNodeInt.insertFits_keyArray_length, hsk, copyList_length]
      simp
      omega

theorem insert_concat_left {α : Type} (l : List α) (x : α) (i m : Nat) (h : i ≤ m) :
    ((l.take m).take i ++ x :: (l.take m).drop i) ++ l.drop m = l.take i ++ x :: l.drop i := by
  have e : (l.take m).drop i ++ l.drop m = l.drop i := by
    have e1 : l.drop m = (l.drop i).drop (m - i) := by
      rw [List.drop_drop]
      congr 1
      omega
    rw [List.drop_take, e1, List.take_append_drop]
  rw [List.take_take, Nat.min_eq_left h, List.append_assoc, List.cons_append, e]

theorem insert_concat_right {α : Type} (l : List α) (x : α) (i m : Nat) (h : m ≤ i) :
    l.take m ++ ((l.drop m).take (i - m) ++ x :: (l.drop m).drop (i - m))
      = l.take i ++ x :: l.drop i := by
  have e1 : l.take m ++ (l.drop m).take (i - m) = l.take i := by
    have := List.take_add l m (i - m)
    rw [Nat.add_sub_cancel' h] at this
    exact this.symm
  have e2 : (l.drop m).drop (i - m) = l.drop i := by
    rw [List.drop_drop]
    congr 1
    omega
  rw [← List.append_assoc, e1, e2]

theorem insert_sorted (K : List Int) (k : Int) (i : Nat)
    (hs : K.Pairwise (fun a b => a ≤ b)) (hlo : ∀ x ∈ K.take i, x ≤ k)
    (hhi : ∀ x ∈ K.drop i, k < x) :
    (K.take i ++ k :: K.drop i).Pairwise (fun a b => a ≤ b) := by
  have hs2 : (K.take i ++ K.drop i).Pairwise (fun a b => a ≤ b) := by
    rw [List.take_append_drop]; exact hs
  rw [List.pairwise_append] at hs2
  rw [List.pairwise_append, List.pairwise_cons]
  refine ⟨hs2.1, ⟨fun b hb => Int.le_of_lt (hhi b hb), hs2.2.1⟩, ?_⟩
  intro a ha b hb
  rcases List.mem_cons.1 hb with rfl | hb
  · exact hlo a ha
  · exact hs2.2.2 a ha b hb

/-- The slot `findIndex` returns on a sorted full leaf: the keys before it are at
most `k`, the keys from it on exceed `k`. -/
theorem LeafNodeInt.findIndex_sorted (leaf : LeafNodeInt) (k : Int)
    (hn : leaf.numValidKeys = leaf.keyArray.length)
    (hs : leaf.keyArray.Pairwise (fun a b => a ≤ b)) :
    (∀ x ∈ leaf.keyArray.take (leaf.findIndex k), x ≤ k) ∧
    (∀ x ∈ leaf.keyArray.drop (leaf.findIndex k), k < x) := by
  have hspec := findIndexLoop_spec leaf.keyArray leaf.numValidKeys k leaf.numValidKeys 0
    (Nat.zero_le _) (by omega)
  constructor
  · intro x hx
    obtain ⟨j, hj⟩ := List.mem_iff_getElem?.1 hx
    rw [List.getElem?_take] at hj
    by_cases hlt : j < leaf.findIndex k
    · rw [if_pos hlt] at hj
      have := hspec.2.2.1 j (Nat.zero_le _) hlt
      rw [List.getD_eq_getElem?_getD, hj] at this
      exact this
    · rw [if_neg hlt] at hj
      cases hj
  · intro x hx
    by_cases hlt : leaf.findIndex k < leaf.keyArray.length
    · have h1 := hspec.2.2.2 (by show leaf.findIndex k < leaf.numValidKeys; omega)
      have h2 : leaf.keyArray.getD (leaf.findIndex k) 0 = leaf.keyArray[leaf.findIndex k] := by
        rw [List.getD_eq_getElem?_getD, List.getElem?_eq_getElem hlt]
        rfl
      have hs2 : (leaf.keyArray.take (leaf.findIndex k)
          ++ leaf.keyArray.drop (leaf.findIndex k)).Pairwise (fun a b => a ≤ b) := by
        rw [List.take_append_drop]; exact hs
      rw [List.pairwise_append, List.drop_eq_getElem_cons hlt, List.pairwise_cons] at hs2
      rw [List.drop_eq_getElem_cons hlt] at hx
      have h3 : k < leaf.keyArray[leaf.findIndex k] := by
        rw [← h2]; exact h1
      rcases List.mem_cons.1 hx with rfl | hx
      · exact h3
      · exact Int.lt_of_lt_of_le h3 (hs2.2.1.1 x hx)
    · rw [List.drop_eq_nil_of_le (by omega)] at hx
      cases hx

/-- Claim C20.  Leaf split, for every capacity `L ≥ 1`, every full leaf with
non-decreasing keys and every new entry `(k, rid)`: with `i` the slot
`findIndex` returns (every key before it is at most `k`, every key from it on
exceeds `k`), the entries of the old leaf followed by those of the new leaf are
the old entries with `(k, rid)` inserted at `i`; both leaves are sorted and every
key of the old leaf is at most every key of the new leaf; when `i ≤ L / 2` the
new leaf holds exactly the trailing `(L + 1) / 2` old entries, otherwise the old
leaf keeps the leading `L - L / 2` old entries and the new leaf holds the
trailing `L / 2` old entries and the new entry; the sizes differ by at most one;
the promoted key is the first key of the new leaf; the new leaf inherits the
right sibling and the old leaf points to the new leaf. -/
theorem leaf_split_postcondition (L : Nat) (leaf left right : LeafNodeInt) (k promoted : Int)
    (rid : RecordId) (sp : PageId)
    (hL : 1 ≤ L) (hk : leaf.keyArray.length = L) (hr : leaf.ridArray.length = L)
    (hn : leaf.numValidKeys = L) (hs : leaf.keyArray.Pairwise (fun a b => a ≤ b))
    (hsplit : leaf.split L k rid sp = (left, right, promoted)) :
    (∀ x ∈ leaf.keys.take (leaf.findIndex k), x ≤ k) ∧
    (∀ x ∈ leaf.keys.drop (leaf.findIndex k), k < x) ∧
    left.keys ++ right.keys
      = leaf.keys.take (leaf.findIndex k) ++ k :: leaf.keys.drop (leaf.findIndex k) ∧
    left.rids ++ right.rids
      = leaf.rids.take (leaf.findIndex k) ++ rid :: leaf.rids.drop (leaf.findIndex k) ∧
    left.keys.Pairwise (fun a b => a ≤ b) ∧ right.keys.Pairwise (fun a b => a ≤ b) ∧
    (∀ a ∈ left.keys, ∀ b ∈ right.keys, a ≤ b) ∧
    (leaf.findIndex k ≤ L / 2 →
      right.keys = leaf.keys.drop (L - (L + 1) / 2) ∧
      right.rids = leaf.rids.drop (L - (L + 1) / 2) ∧
      right.numValidKeys = (L + 1) / 2 ∧ left.numValidKeys = L - (L + 1) / 2 + 1) ∧
    (¬ leaf.findIndex k ≤ L / 2 →
      left.keys = leaf.keys.take (L - L / 2) ∧
      left.rids = leaf.rids.take (L - L / 2) ∧
      right.keys = (leaf.keys.drop (L - L / 2)).take (leaf.findIndex k - (L - L / 2))
        ++ k :: leaf.keys.drop (leaf.findIndex k) ∧
      right.rids = (leaf.rids.drop (L - L / 2)).take (leaf.findIndex k - (L - L / 2))
        ++ rid :: leaf.rids.drop (leaf.findIndex k) ∧
      right.numValidKeys = L / 2 + 1 ∧ left.numValidKeys = L - L / 2) ∧
    left.numValidKeys ≤ right.numValidKeys + 1 ∧
    right.numValidKeys ≤ left.numValidKeys + 1 ∧
    right.keys.head? = some promoted ∧
    right.rightSibPageNo = leaf.rightSibPageNo ∧ left.rightSibPageNo = sp := by
  have hK : leaf.keys = leaf.keyArray := by
    unfold LeafNodeInt.keys
    exact List.take_of_length_le (by omega)
  have hR : leaf.rids = leaf.ridArray := by
    unfold LeafNodeInt.rids
    exact List.take_of_length_le (by omega)
  have hleft : left = (leaf.split L k rid sp).1 := by rw [hsplit]
  have hright : right = (leaf.split L k rid sp).2.1 := by rw [hsplit]
  have hprom : promoted = (leaf.split L k rid sp).2.2 := by rw [hsplit]
  have hidx : leaf.findIndex k ≤ L := hn ▸ leaf.findIndex_le k
  obtain ⟨hlo, hhi⟩ := leaf.findIndex_sorted k (by omega) hs
  have hsorted := insert_sorted leaf.keyArray k (leaf.findIndex k) hs hlo hhi
  rw [hK, hR, hleft, hright, hprom]
  by_cases h : leaf.findIndex k ≤ L / 2
  · obtain ⟨a1, a2, a3, a4, a5, a6, a7, a8, a9⟩ :=
      LeafNodeInt.split_left L leaf k rid sp hL hk hr hn h
    have hcat : (leaf.split L k rid sp).1.keys ++ (leaf.split L k rid sp).2.1.keys
        = leaf.keyArray.take (leaf.findIndex k) ++ k :: leaf.keyArray.drop (leaf.findIndex k) := by
      rw [a1, a3, insert_concat_left _ _ _ _ (by omega)]
    have hcatr : (leaf.split L k rid sp).1.rids ++ (leaf.split L k rid sp).2.1.rids
        = leaf.ridArray.take (leaf.findIndex k) ++ rid :: leaf.ridArray.drop (leaf.findIndex k) := by
      rw [a2, a4, insert_concat_left _ _ _ _ (by omega)]
    have hp := hsorted
    rw [← hcat, List.pairwise_append] at hp
    refine ⟨hlo, hhi, hcat, hcatr, hp.1, hp.2.1, hp.2.2, fun _ => ⟨a3, a4, a6, a5⟩,
      fun hc => absurd h hc, by omega, by omega, a7, a8, a9⟩
  · obtain ⟨a1, a2, a3, a4, a5, a6, a7, a8, a9⟩ :=
      LeafNodeInt.split_right L leaf k rid sp hL hk hr hn h
    have hdd : ∀ {α : Type} (l : List α),
        (l.drop (L - L / 2)).drop (leaf.findIndex k - (L - L / 2))
          = l.drop (leaf.findIndex k) := by
      intro α l
      rw [List.drop_drop]
      congr 1
      omega
    have hcat : (leaf.split L k rid sp).1.keys ++ (leaf.split L k rid sp).2.1.keys
        = leaf.keyArray.take (leaf.findIndex k) ++ k :: leaf.keyArray.drop (leaf.findIndex k) := by
      rw [a1, a3, insert_concat_right _ _ _ _ (by omega)]
    have hcatr : (leaf.split L k rid sp).1.rids ++ (leaf.split L k rid sp).2.1.rids
        = leaf.ridArray.take (leaf.findIndex k) ++ rid :: leaf.ridArray.drop (leaf.findIndex k) := by
      rw [a2, a4, insert_concat_right _ _ _ _ (by omega)]
    have hp := hsorted
    rw [← hcat, List.pairwise_append] at hp
    rw [hdd] at a3 a4
    refine ⟨hlo, hhi, hcat, hcatr, hp.1, hp.2.1, hp.2.2, fun hc => absurd hc h,
      fun _ => ⟨a1, a2, a3, a4, a6, a5⟩, by omega, by omega, a7, a8, a9⟩

theorem leaf_split_postcondition_witness :
    (fullLeafOfFour.split 4 25 ⟨7, 7⟩ 3).1.keys = [10, 20, 25] ∧
    (fullLeafOfFour.split 4 25 ⟨7, 7⟩ 3).2.1.keys = [30, 40] ∧
    (fullLeafOfFour.split 4 25 ⟨7, 7⟩ 3).2.2 = 30 ∧
    (fullLeafOfFour.split 4 25 ⟨7, 7⟩ 3).1.keys ++ (fullLeafOfFour.split 4 25 ⟨7, 7⟩ 3).2.1.keys
      = fullLeafOfFour.keys.take (fullLeafOfFour.findIndex 25)
        ++ 25 :: fullLeafOfFour.keys.drop (fullLeafOfFour.findIndex 25) ∧
    (fullLeafOfFour.split 4 25 ⟨7, 7⟩ 3).2.1.rightSibPageNo = 9 ∧
    (fullLeafOfFour.split 4 25 ⟨7, 7⟩ 3).1.rightSibPageNo = 3 :=
  have h := leaf_split_postcondition 4 fullLeafOfFour (fullLeafOfFour.split 4 25 ⟨7, 7⟩ 3).1
    (fullLeafOfFour.split 4 25 ⟨7, 7⟩ 3).2.1 25 (fullLeafOfFour.split 4 25 ⟨7, 7⟩ 3).2.2
    ⟨7, 7⟩ 3 (by decide) (by decide) (by decide) (by decide) (by decide) rfl
  ⟨by decide, by decide, by decide, h.2.2.1, h.2.2.2.2.2.2.2.2.2.2.2.2.1,
    h.2.2.2.2.2.2.2.2.2.2.2.2.2⟩

/-! ### `startScan`: the state after a failure -/

theorem findLeafLoop_scanHolds (t0 : BTreeIndex) (key : Int) :
    ∀ (fuel : Nat) (pageNo : PageId) (page : Node) (currDepth : Int) (isLeaf : Bool)
      (t : BTreeIndex), t0.scanHolds t → t.currentPageNum = pageNo →
      IndexM.wp (BTreeIndex.findLeafLoop
          (fun p => IndexM.modify (fun t => { t with currentPageNum := p })) key fuel pageNo page
          currDepth isLeaf)
        (fun t1 r => r ≠ .error .NoSuchKeyFound ∧ ∀ a, r = .ok a → t0.scanHolds t1) t := by
  intro fuel
  induction fuel with
  | zero =>
    intro pageNo page currDepth isLeaf t ht hp
    unfold BTreeIndex.findLeafLoop
    cases isLeaf
    · simp [IndexM.wp_throw]
    · simp only [if_true, IndexM.wp_pure']
      exact ⟨by simp, fun _ _ => ht⟩
  | succ n ih =>
    intro pageNo page currDepth isLeaf t ht hp
    unfold BTreeIndex.findLeafLoop
    cases isLeaf
    · simp only [Bool.false_eq_true, ↓reduceIte, IndexM.wp_bind, Node.wp_asNonLeaf,
        IndexM.wp_modify, BTreeIndex.wp_unPinPage, BTreeIndex.wp_readPage]
      refine ⟨fun nl _ => ⟨fun hnone => ?_, fun _ _ => by simp,
        fun hpin => ⟨fun _ => by simp, fun nd _ => ?_⟩⟩, fun _ _ => by simp⟩
      · exfalso
        have ho := ht.2 pageNo
        rw [BTreeIndex.pinCnt_of_none (t := t) hnone, hp, if_pos rfl] at ho
        omega
      refine ih _ _ _ _ _ ⟨ht.1, ?_⟩ rfl
      intro q
      have hq := ht.2 q
      have ho := ht.2 pageNo
      simp only [BTreeIndex.pinCnt, assocGet_assocSet] at hq ho hpin ⊢
      rw [hp] at hq ho
      by_cases h1 : q = nl.pageNoArray.getD (nl.findIndex key) 0 <;>
        by_cases h2 : q = pageNo <;>
        by_cases h3 : nl.pageNoArray.getD (nl.findIndex key) 0 = pageNo <;>
        simp_all
    · simp only [if_true, IndexM.wp_pure']
      exact ⟨by simp, fun _ _ => ht⟩

theorem IndexM.wp_and {α : Type} {m : IndexM α} {Q R : BTreeIndex → Res α → Prop}
    {t : BTreeIndex} (h1 : IndexM.wp m Q t) (h2 : IndexM.wp m R t) :
    IndexM.wp m (fun t1 r => Q t1 r ∧ R t1 r) t :=
  ⟨h1, h2⟩

theorem findLeafFromRoot_scanHolds (key : Int) (t : BTreeIndex) (h : t.scanExecuting = true) :
    IndexM.wp (BTreeIndex.findLeafFromRoot key)
      (fun t1 r => r ≠ .error .NoSuchKeyFound ∧ ∀ a, r = .ok a → t.scanHolds t1) t := by
  unfold BTreeIndex.findLeafFromRoot BTreeIndex.findLeaf
  simp only [IndexM.wp_bind, IndexM.wp_get, IndexM.wp_modify, BTreeIndex.wp_readPage,
    IndexM.wp_pure']
  refine ⟨fun _ => by simp, fun nd _ => ?_⟩
  refine IndexM.wp_mono (findLeafLoop_scanHolds t key _ _ _ _ _ _ ⟨h, ?_⟩ rfl) ?_
  · intro q
    simp only [BTreeIndex.pinCnt, assocGet_assocSet]
    by_cases hq : q = t.rootPageNum <;> simp [hq]
  · intro t1 r hr
    cases r with
    | ok a => exact ⟨by simp, fun _ _ => hr.2 a rfl⟩
    | error e =>
      simp only [ne_eq, Res.error.injEq] at hr ⊢
      exact ⟨hr.1, by simp⟩

theorem startScanSlots_scanHolds (t0 : BTreeIndex) (currentNode : LeafNodeInt) :
    ∀ (fuel : Nat) (t : BTreeIndex), t0.scanHolds t →
      IndexM.wp (BTreeIndex.startScanSlots currentNode fuel) (fun t1 _ => t0.scanHolds t1) t := by
  intro fuel
  induction fuel with
  | zero =>
    intro t ht
    unfold BTreeIndex.startScanSlots
    simp only [IndexM.wp_bind, IndexM.wp_get, IndexM.wp_ite, IndexM.wp_throw, IndexM.wp_pure']
    exact ⟨fun _ => ht, fun _ => ht⟩
  | succ n ih =>
    intro t ht
    unfold BTreeIndex.startScanSlots
    simp only [IndexM.wp_bind, IndexM.wp_get, IndexM.wp_ite, IndexM.wp_throw, IndexM.wp_pure',
      IndexM.wp_modify]
    exact ⟨fun _ => ⟨fun _ => ht, fun _ => ⟨fun _ => ht, fun _ => ih _ ht⟩⟩, fun _ => ht⟩

theorem startScanLeaves_scanHolds (t0 : BTreeIndex) (currentNode : LeafNodeInt) :
    ∀ (fuel : Nat) (t : BTreeIndex), t0.scanHolds t →
      IndexM.wp (BTreeIndex.startScanLeaves currentNode fuel)
        (fun t1 r => r = .error .NoSuchKeyFound → t0.scanHolds t1) t := by
  intro fuel
  induction fuel with
  | zero =>
    intro t _
    unfold BTreeIndex.startScanLeaves
    simp [IndexM.wp_throw]
  | succ n ih =>
    intro t ht
    unfold BTreeIndex.startScanLeaves
    simp only [IndexM.wp_bind, IndexM.wp_modify]
    refine IndexM.wp_mono (startScanSlots_scanHolds t0 currentNode _ _ ht) ?_
    intro t1 r hr
    cases r with
    | error e => exact fun _ => hr
    | ok a =>
      cases a with
      | some u => simp [IndexM.wp_pure']
      | none =>
        simp only [IndexM.wp_ite, IndexM.wp_throw, IndexM.wp_bind, IndexM.wp_get,
          BTreeIndex.wp_unPinPage, IndexM.wp_modify, BTreeIndex.wp_readPage]
        refine ⟨fun _ _ => hr, fun _ => ⟨fun hnone => ?_, fun _ _ => by simp, fun hpin =>
          ⟨fun _ => by simp, fun nd _ => ih _ ⟨hr.1, ?_⟩⟩⟩⟩
        · exfalso
          have ho := hr.2 t1.currentPageNum
          rw [BTreeIndex.pinCnt_of_none (t := t1) hnone, if_pos rfl] at ho
          omega
        intro q
        have hq := hr.2 q
        have ho := hr.2 t1.currentPageNum
        simp only [BTreeIndex.pinCnt, assocGet_assocSet] at hq ho hpin ⊢
        by_cases h1 : q = currentNode.rightSibPageNo <;>
          by_cases h2 : q = t1.currentPageNum <;>
          by_cases h3 : currentNode.rightSibPageNo = t1.currentPageNum <;>
          simp_all

/-- The state `startScan` leaves behind when it throws, called while no scan is
executing. -/
theorem startScan_failure_wp (t : BTreeIndex) (lo hi : Int) (loOp hiOp : Operator)
    (h : t.scanExecuting = false) :
    IndexM.wp (BTreeIndex.startScan lo loOp hi hiOp)
      (fun t1 r =>
        (r = .error .BadOpcodes → t1 = t) ∧
        (r = .error .BadScanrange → t1 = { t with lowValInt := lo, highValInt := hi }) ∧
        (r = .error .NoSuchKeyFound → t.leafOccupancy = 0 → t1 = t) ∧
        (r = .error .NoSuchKeyFound → t.leafOccupancy ≠ 0 → t.scanHolds t1)) t := by
  by_cases h1 : loOp ≠ .GTE ∧ loOp ≠ .GT
  · rw [IndexM.wp_of_eq (startScan_bad_lowOp t lo hi loOp hiOp h1)]
    simp
  by_cases h2 : hiOp ≠ .LTE ∧ hiOp ≠ .LT
  · rw [IndexM.wp_of_eq (startScan_bad_highOp t lo hi loOp hiOp h1 h2)]
    simp
  unfold BTreeIndex.startScan
  rw [if_neg h1, if_neg h2]
  simp only [IndexM.wp_bind, IndexM.wp_get, IndexM.wp_ite, IndexM.wp_throw, IndexM.wp_modify,
    IndexM.wp_pure', BTreeIndex.wp_pageData, Node.wp_asLeaf]
  refine ⟨fun h0 => by simp [h0], fun h0 => ⟨fun hs => ?_, fun _ => ⟨fun _ => by simp, fun _ => ?_⟩⟩⟩
  · rw [h] at hs; cases hs
  · have e1 := findLeafFromRoot_scanHolds lo
      { t with lowValInt := lo, highValInt := hi, scanExecuting := true, lowOp := loOp,
               highOp := hiOp } rfl
    have e2 := findLeafFromRoot_notArgErr lo
      { t with lowValInt := lo, highValInt := hi, scanExecuting := true, lowOp := loOp,
               highOp := hiOp }
    refine IndexM.wp_mono (IndexM.wp_and e1 e2) ?_
    intro t1 r hr
    cases r with
    | error e =>
      obtain ⟨⟨a, _⟩, b, c⟩ := hr
      exact ⟨fun x => absurd x c, fun x => absurd x b, fun x => absurd x a, fun x => absurd x a⟩
    | ok u =>
      have hh : t.scanHolds t1 := hr.1.2 u rfl
      refine ⟨fun _ => by simp, fun nd _ => ⟨fun n _ => ?_, fun n _ => by simp⟩⟩
      refine IndexM.wp_mono (IndexM.wp_and (startScanLeaves_scanHolds t n _ t1 hh)
        (startScanLeaves_notArgErr n _ t1)) ?_
      intro t2 r2 hr2
      exact ⟨fun x => absurd x hr2.2.2, fun x => absurd x hr2.2.1,
        fun x h0 => absurd h0 (by assumption), fun x _ => hr2.1 x⟩

/-- The state after a failing `startScan`.  When `startScan` is called while no
scan is executing and throws: after `BadOpcodesException`, and after
`NoSuchKeyFoundException` on an index with `leafOccupancy = 0`, the state is
the state before the call;
after `BadScanrangeException` only `lowValInt` and `highValInt` have changed, so
no scan is executing, every pin count is as before, and `endScan` and
`scanNext` throw `ScanNotInitializedException`; after
`NoSuchKeyFoundException` on an index with `leafOccupancy ≠ 0` the scan stays
open: `scanExecuting` is true, the page `currentPageNum` has one pin more than
before the call and every other page has its former pin count, and a following
`endScan` returns normally, clears `scanExecuting` and restores every pin
count. -/
theorem startScan_failure_state (t t1 : BTreeIndex) (r : Res Unit) (lo hi : Int)
    (loOp hiOp : Operator) (h : t.scanExecuting = false)
    (hrun : BTreeIndex.startScan lo loOp hi hiOp t = (t1, r)) :
    (r = .error .BadOpcodes → t1 = t) ∧
    (r = .error .BadScanrange →
      t1 = { t with lowValInt := lo, highValInt := hi } ∧ t1.scanExecuting = false ∧
      (∀ q : PageId, t1.pinCnt q = t.pinCnt q) ∧
      (BTreeIndex.endScan t1).2 = .error .ScanNotInitialized ∧
      (BTreeIndex.scanNext t1).2 = .error .ScanNotInitialized) ∧
    (r = .error .NoSuchKeyFound → t.leafOccupancy = 0 → t1 = t) ∧
    (r = .error .NoSuchKeyFound → t.leafOccupancy ≠ 0 →
      t1.scanExecuting = true ∧
      (∀ q : PageId, t1.pinCnt q = t.pinCnt q + (if q = t1.currentPageNum then 1 else 0)) ∧
      (BTreeIndex.endScan t1).2 = .ok () ∧
      (BTreeIndex.endScan t1).1.scanExecuting = false ∧
      (∀ q : PageId, (BTreeIndex.endScan t1).1.pinCnt q = t.pinCnt q)) := by
  have hw := startScan_failure_wp t lo hi loOp hiOp h
  rw [IndexM.wp_of_eq hrun] at hw
  obtain ⟨w1, w2, w3, w4⟩ := hw
  refine ⟨w1, fun hr => ?_, w3, fun hr h0 => ?_⟩
  · have e := w2 hr
    have hs1 : t1.scanExecuting = false := by rw [e]; exact h
    refine ⟨e, hs1, fun q => by rw [e]; rfl, ?_, ?_⟩
    · rw [endScan_not_executing t1 hs1]
    · rw [scanNext_not_executing t1 hs1]
  · obtain ⟨s1, s2⟩ := w4 hr h0
    have hc := s2 t1.currentPageNum
    rw [if_pos rfl] at hc
    have hne : t1.pinCnt t1.currentPageNum ≠ 0 := by omega
    have he : BTreeIndex.endScan t1
        = ({ ({ t1 with scanExecuting := false } : BTreeIndex) with
              pins := assocSet t1.pins t1.currentPageNum (t1.pinCnt t1.currentPageNum - 1) },
            .ok ()) := by
      rw [endScan_executing t1 s1]
      unfold BTreeIndex.unPinPage
      rw [if_neg (show ¬ assocGet ({ t1 with scanExecuting := false } : BTreeIndex).pins
          t1.currentPageNum = none from BTreeIndex.held_of_pinCnt hne),
        if_neg (show ¬ ({ t1 with scanExecuting := false } : BTreeIndex).pinCnt
          t1.currentPageNum = 0 from hne)]
      rfl
    rw [he]
    refine ⟨s1, s2, rfl, rfl, ?_⟩
    intro q
    have hq := s2 q
    simp only [BTreeIndex.pinCnt, assocGet_assocSet] at hq hc ⊢
    by_cases h1 : q = t1.currentPageNum
    · subst h1
      simp only [if_true, Option.getD_some]
      omega
    · simp only [if_neg h1] at hq ⊢
      omega

/-- The state after a failing `startScan` on the index holding the keys 10 and 20:
`startScan(40, GTE, 30, LTE)` throws `BadScanrangeException` and leaves no
scan executing and the pin counts as they were. -/
theorem startScan_failure_state_witness :
    twoKeyIndex.scanExecuting = false ∧
    (BTreeIndex.startScan 40 .GTE 30 .LTE twoKeyIndex).2 = .error .BadScanrange ∧
    (BTreeIndex.startScan 40 .GTE 30 .LTE twoKeyIndex).1.scanExecuting = false ∧
    (∀ q : PageId,
      (BTreeIndex.startScan 40 .GTE 30 .LTE twoKeyIndex).1.pinCnt q = twoKeyIndex.pinCnt q) :=
  have h := (startScan_failure_state twoKeyIndex
    (BTreeIndex.startScan 40 .GTE 30 .LTE twoKeyIndex).1
    (BTreeIndex.startScan 40 .GTE 30 .LTE twoKeyIndex).2 40 30 .GTE .LTE rfl rfl).2.1
    (by decide)
  ⟨rfl, by decide, h.2.1, h.2.2.1⟩

/-- C16.  On the index holding the keys 10 and 20, with no scan executing and the
root leaf, page 2, pinned once, `startScan(30, GTE, 40, LTE)` throws
`NoSuchKeyFoundException` and leaves `scanExecuting` true and page 2 pinned
twice; `endScan` then returns normally, although no `startScan` has returned,
instead of throwing `ScanNotInitializedException`.  After the failure with
`BadScanrangeException` of `startScan(40, GTE, 30, LTE)` no scan is executing. -/
theorem startScan_no_key_leaves_scan_open :
    BTreeIndex.insertAll (entriesOf [10, 20]) (BTreeIndex.empty 4 4) = (twoKeyIndex, .ok ()) ∧
    twoKeyIndex.scanExecuting = false ∧ twoKeyIndex.pinCnt 2 = 1 ∧
    (BTreeIndex.startScan 30 .GTE 40 .LTE twoKeyIndex).2 = .error .NoSuchKeyFound ∧
    (BTreeIndex.startScan 30 .GTE 40 .LTE twoKeyIndex).1.scanExecuting = true ∧
    (BTreeIndex.startScan 30 .GTE 40 .LTE twoKeyIndex).1.pinCnt 2 = 2 ∧
    (BTreeIndex.endScan (BTreeIndex.startScan 30 .GTE 40 .LTE twoKeyIndex).1).2 = .ok () ∧
    (BTreeIndex.startScan 40 .GTE 30 .LTE twoKeyIndex).2 = .error .BadScanrange ∧
    (BTreeIndex.startScan 40 .GTE 30 .LTE twoKeyIndex).1.scanExecuting = false := by
  decide!

/-- C17.  On the index holding the keys 10 and 20, `startScan(10, GTE, 20, LTE)`
returns and `endScan` returns: `scanExecuting` is false, page 2 is pinned once
as before the scan and no dirty release was recorded.  Then
`startScan(30, GTE, 40, LTE)` throws `NoSuchKeyFoundException`, and after it,
with no successful `startScan` since the `endScan`, a second `endScan` returns
normally and `scanNext` throws `IndexScanCompletedException`; neither throws
`ScanNotInitializedException`. -/
theorem endScan_after_failed_startScan :
    (BTreeIndex.startScan 10 .GTE 20 .LTE twoKeyIndex).2 = .ok () ∧
    (BTreeIndex.endScan (BTreeIndex.startScan 10 .GTE 20 .LTE twoKeyIndex).1).2 = .ok () ∧
    scanEndedIndex.scanExecuting = false ∧ scanEndedIndex.pinCnt 2 = 1 ∧
    scanEndedIndex.dirtied = twoKeyIndex.dirtied ∧
    (BTreeIndex.endScan scanEndedIndex).2 = .error .ScanNotInitialized ∧
    (BTreeIndex.startScan 30 .GTE 40 .LTE scanEndedIndex).2 = .error .NoSuchKeyFound ∧
    scanFailedIndex.scanExecuting = true ∧ scanFailedIndex.pinCnt 2 = 2 ∧
    (BTreeIndex.endScan scanFailedIndex).2 = .ok () ∧
    (BTreeIndex.scanNext scanFailedIndex).2 = .error .IndexScanCompleted := by
  decide!

/-! ### Pin balance of `insertEntry` -/

theorem IndexM.wpOk_bind {α β : Type} {m : IndexM α} {f : α → IndexM β}
    {P : BTreeIndex → β → Prop} {t : BTreeIndex}
    (h : IndexM.wpOk m (fun t1 a => IndexM.wpOk (f a) P t1) t) : IndexM.wpOk (m >>= f) P t := by
  intro t2 b hr
  rw [IndexM.bind_run] at hr
  rcases hm : m t with ⟨t1, r⟩
  rw [hm] at hr
  cases r with
  | ok a => exact h t1 a hm t2 b hr
  | error e => cases hr

theorem IndexM.wpOk_pure {α : Type} {a : α} {P : BTreeIndex → α → Prop} {t : BTreeIndex}
    (h : P t a) : IndexM.wpOk (IndexM.pure a) P t := by
  intro t1 b hr
  cases hr
  exact h

theorem IndexM.wpOk_pure' {α : Type} {a : α} {P : BTreeIndex → α → Prop} {t : BTreeIndex}
    (h : P t a) : IndexM.wpOk (Pure.pure a) P t :=
  IndexM.wpOk_pure h

theorem IndexM.wpOk_throw {α : Type} {e : Err} {P : BTreeIndex → α → Prop} {t : BTreeIndex} :
    IndexM.wpOk (IndexM.throw e) P t := by
  intro t1 b hr
  cases hr

theorem IndexM.wpOk_get {P : BTreeIndex → BTreeIndex → Prop} {t : BTreeIndex} (h : P t t) :
    IndexM.wpOk IndexM.get P t := by
  intro t1 b hr
  cases hr
  exact h

theorem IndexM.wpOk_modify {f : BTreeIndex → BTreeIndex} {P : BTreeIndex → Unit → Prop}
    {t : BTreeIndex} (h : P (f t) ()) : IndexM.wpOk (IndexM.modify f) P t := by
  intro t1 b hr
  cases hr
  exact h

theorem IndexM.wpOk_mono {α : Type} {m : IndexM α} {P R : BTreeIndex → α → Prop}
    {t : BTreeIndex} (h : IndexM.wpOk m P t) (hPR : ∀ t1 a, P t1 a → R t1 a) :
    IndexM.wpOk m R t :=
  fun t1 a hr => hPR t1 a (h t1 a hr)

theorem BTreeIndex.holds_readPage {t : BTreeIndex} {M : Multiset PageId} (h : t.holds M)
    {p : PageId} (hp : assocGet t.pages p ≠ none) :
    ({ t with pins := assocSet t.pins p (t.pinCnt p + 1) } : BTreeIndex).holds (p ::ₘ M) := by
  refine ⟨h.1, h.2.1, ?_, ?_⟩
  · intro x hx
    rcases Multiset.mem_cons.1 hx with rfl | hx
    · exact h.2.1 _ hp
    · exact h.2.2.1 x hx
  · intro q
    have hq := h.2.2.2 q
    have hpp := h.2.2.2 p
    simp only [BTreeIndex.pinCnt, assocGet_assocSet, Multiset.count_cons] at hq hpp ⊢
    by_cases e : q = p
    · subst e
      simp only [if_true, Option.getD_some]
      omega
    · simp only [if_neg e] at hq ⊢
      omega

theorem BTreeIndex.holds_unPinPage {t : BTreeIndex} {M : Multiset PageId} {p : PageId}
    (h : t.holds (p ::ₘ M)) (d : Bool) :
    ({ t with pins := assocSet t.pins p (t.pinCnt p - 1)
              dirtied := markDirty t.dirtied p d } : BTreeIndex).holds M := by
  refine ⟨h.1, h.2.1, fun x hx => h.2.2.1 x (Multiset.mem_cons_of_mem hx), ?_⟩
  intro q
  have hq := h.2.2.2 q
  have hpp := h.2.2.2 p
  simp only [BTreeIndex.pinCnt, assocGet_assocSet, Multiset.count_cons] at hq hpp ⊢
  by_cases e : q = p
  · subst e
    simp only [if_true, Option.getD_some] at hq ⊢
    omega
  · simp only [if_neg e] at hq ⊢
    omega

theorem BTreeIndex.holds_pinCnt_pos {t : BTreeIndex} {M : Multiset PageId} {p : PageId}
    (h : t.holds (p ::ₘ M)) : t.pinCnt p ≠ 0 := by
  have hpp := h.2.2.2 p
  rw [Multiset.count_cons_self] at hpp
  omega

theorem BTreeIndex.holds_pinCnt_zero {t : BTreeIndex} {M : Multiset PageId} {p : PageId}
    (h : t.holds M) (h1 : p ≠ t.rootPageNum) (h2 : p ∉ M) : t.pinCnt p = 0 := by
  have hpp := h.2.2.2 p
  rw [if_neg h1, Multiset.count_eq_zero_of_not_mem h2] at hpp
  exact hpp

theorem BTreeIndex.holds_allocPage {t : BTreeIndex} {M : Multiset PageId} (h : t.holds M) :
    ({ t with pins := assocSet t.pins t.nextPageNo 1, nextPageNo := t.nextPageNo + 1 }
      : BTreeIndex).holds (t.nextPageNo ::ₘ M) := by
  have hnot : t.nextPageNo ∉ M := fun hm => Nat.lt_irrefl _ (h.2.2.1 _ hm)
  have hne : t.nextPageNo ≠ t.rootPageNum := Nat.ne_of_gt h.1
  refine ⟨Nat.lt_succ_of_lt h.1, fun p hp => Nat.lt_succ_of_lt (h.2.1 p hp), ?_, ?_⟩
  · intro x hx
    rcases Multiset.mem_cons.1 hx with rfl | hx
    · exact Nat.lt_succ_self _
    · exact Nat.lt_succ_of_lt (h.2.2.1 x hx)
  · intro q
    have hq := h.2.2.2 q
    simp only [BTreeIndex.pinCnt, assocGet_assocSet, Multiset.count_cons] at hq ⊢
    by_cases e : q = t.nextPageNo
    · subst e
      simp only [if_true, Option.getD_some, if_neg hne,
        Multiset.count_eq_zero_of_not_mem hnot]
    · simp only [if_neg e] at hq ⊢
      omega

theorem BTreeIndex.holds_writeNode {t : BTreeIndex} {M : Multiset PageId} (h : t.holds M)
    {p : PageId} (hp : p < t.nextPageNo) (nd : Node) :
    ({ t with pages := assocSet t.pages p nd } : BTreeIndex).holds M := by
  refine ⟨h.1, ?_, h.2.2.1, h.2.2.2⟩
  intro q hq
  simp only [assocGet_assocSet] at hq
  by_cases e : q = p
  · rw [e]; exact hp
  · rw [if_neg e] at hq
    exact h.2.1 q hq

theorem BTreeIndex.holds_setRoot {t : BTreeIndex} {M : Multiset PageId} {a : PageId}
    (h : t.holds (a ::ₘ M)) :
    ({ t with rootPageNum := a } : BTreeIndex).holds (t.rootPageNum ::ₘ M) := by
  refine ⟨h.2.2.1 a (Multiset.mem_cons_self a M), h.2.1, ?_, ?_⟩
  · intro x hx
    rcases Multiset.mem_cons.1 hx with rfl | hx
    · exact h.1
    · exact h.2.2.1 x (Multiset.mem_cons_of_mem hx)
  · intro q
    have hq := h.2.2.2 q
    simp only [BTreeIndex.pinCnt, Multiset.count_cons] at hq ⊢
    rw [hq]
    omega

theorem BTreeIndex.wpOk_readPage {t : BTreeIndex} {M : Multiset PageId} (h : t.holds M)
    (p : PageId) {P : BTreeIndex → Node → Prop}
    (hk : ∀ (t1 : BTreeIndex) (nd : Node), t1.holds (p ::ₘ M) →
      t1.nextPageNo = t.nextPageNo → t1.rootPageNum = t.rootPageNum → P t1 nd) :
    IndexM.wpOk (BTreeIndex.readPage p) P t := by
  intro t1 nd hr
  unfold BTreeIndex.readPage at hr
  cases hg : assocGet t.pages p with
  | none => rw [hg] at hr; cases hr
  | some nd0 =>
    rw [hg] at hr
    cases hr
    exact hk _ _ (BTreeIndex.holds_readPage h (by rw [hg]; simp)) rfl rfl

theorem BTreeIndex.wpOk_unPinPage {t : BTreeIndex} {M : Multiset PageId} {p : PageId}
    (h : t.holds (p ::ₘ M)) (d : Bool) {P : BTreeIndex → Unit → Prop}
    (hk : ∀ t1 : BTreeIndex, t1.holds M →
      t1.nextPageNo = t.nextPageNo → t1.rootPageNum = t.rootPageNum → P t1 ()) :
    IndexM.wpOk (BTreeIndex.unPinPage p d) P t := by
  intro t1 u hr
  unfold BTreeIndex.unPinPage at hr
  rw [if_neg (BTreeIndex.held_of_pinCnt (BTreeIndex.holds_pinCnt_pos h)),
    if_neg (BTreeIndex.holds_pinCnt_pos h)] at hr
  cases hr
  exact hk _ (BTreeIndex.holds_unPinPage h d) rfl rfl

theorem BTreeIndex.wpOk_unPinPage_zero {t : BTreeIndex} {M : Multiset PageId} {p : PageId}
    (h : t.holds M) (h1 : p ≠ t.rootPageNum) (h2 : p ∉ M) (d : Bool)
    (h0 : assocGet t.pins p ≠ none) {P : BTreeIndex → Unit → Prop} :
    IndexM.wpOk (BTreeIndex.unPinPage p d) P t := by
  intro t1 u hr
  unfold BTreeIndex.unPinPage at hr
  rw [if_neg h0, if_pos (BTreeIndex.holds_pinCnt_zero h h1 h2)] at hr
  cases hr

theorem BTreeIndex.wpOk_unPinPage_held {t : BTreeIndex} {M : Multiset PageId} {p : PageId}
    (h : t.holds (p ::ₘ M)) (d : Bool) {P : BTreeIndex → Unit → Prop}
    (hk : ∀ t1 : BTreeIndex, t1.holds M →
      t1.nextPageNo = t.nextPageNo → t1.rootPageNum = t.rootPageNum →
      assocGet t1.pins p ≠ none → P t1 ()) :
    IndexM.wpOk (BTreeIndex.unPinPage p d) P t := by
  intro t1 u hr
  unfold BTreeIndex.unPinPage at hr
  rw [if_neg (BTreeIndex.held_of_pinCnt (BTreeIndex.holds_pinCnt_pos h)),
    if_neg (BTreeIndex.holds_pinCnt_pos h)] at hr
  cases hr
  exact hk _ (BTreeIndex.holds_unPinPage h d) rfl rfl (by simp [assocGet_assocSet])

theorem BTreeIndex.wpOk_allocPage {t : BTreeIndex} {M : Multiset PageId} (h : t.holds M)
    {P : BTreeIndex → PageId → Prop}
    (hk : ∀ t1 : BTreeIndex, t1.holds (t.nextPageNo ::ₘ M) →
      t1.nextPageNo = t.nextPageNo + 1 → t1.rootPageNum = t.rootPageNum → P t1 t.nextPageNo) :
    IndexM.wpOk BTreeIndex.allocPage P t := by
  intro t1 u hr
  cases hr
  exact hk _ (BTreeIndex.holds_allocPage h) rfl rfl

theorem BTreeIndex.wpOk_writeNode {t : BTreeIndex} {M : Multiset PageId} (h : t.holds M)
    {p : PageId} (hp : p < t.nextPageNo) (nd : Node) {P : BTreeIndex → Unit → Prop}
    (hk : ∀ t1 : BTreeIndex, t1.holds M →
      t1.nextPageNo = t.nextPageNo → t1.rootPageNum = t.rootPageNum → P t1 ()) :
    IndexM.wpOk (BTreeIndex.writeNode p nd) P t := by
  intro t1 u hr
  cases hr
  exact hk _ (BTreeIndex.holds_writeNode h hp nd) rfl rfl

theorem BTreeIndex.wpOk_pageData (p : PageId) {t : BTreeIndex} {P : BTreeIndex → Node → Prop}
    (hk : ∀ nd : Node, P t nd) : IndexM.wpOk (BTreeIndex.pageData p) P t := by
  intro t1 nd hr
  unfold BTreeIndex.pageData at hr
  cases hg : assocGet t.pages p with
  | none => rw [hg] at hr; cases hr
  | some nd0 =>
    rw [hg] at hr
    cases hr
    exact hk _

theorem Node.wpOk_asLeaf (nd : Node) {t : BTreeIndex} {P : BTreeIndex → LeafNodeInt → Prop}
    (hk : ∀ n : LeafNodeInt, P t n) : IndexM.wpOk nd.asLeaf P t := by
  intro t1 n hr
  cases nd with
  | leaf n0 => cases hr; exact hk _
  | nonLeaf n0 => cases hr

theorem Node.wpOk_asNonLeaf (nd : Node) {t : BTreeIndex}
    {P : BTreeIndex → NonLeafNodeInt → Prop}
    (hk : ∀ n : NonLeafNodeInt, P t n) : IndexM.wpOk nd.asNonLeaf P t := by
  intro t1 n hr
  cases nd with
  | leaf n0 => cases hr
  | nonLeaf n0 => cases hr; exact hk _

/-- The descent of `insertEntry` holds one pin beyond the root's at every step; on
return this pin is on the leaf reached. -/
theorem findLeafLoop_holds (key : Int) :
    ∀ (fuel : Nat) (pageNo : PageId) (page : Node) (currDepth : Int) (isLeaf : Bool)
      (t : BTreeIndex), t.holds (pageNo ::ₘ 0) →
      IndexM.wpOk (BTreeIndex.findLeafLoop (fun _ => IndexM.pure ()) key fuel pageNo page
        currDepth isLeaf) (fun t1 a => t1.holds (a.1 ::ₘ 0)) t := by
  intro fuel
  induction fuel with
  | zero =>
    intro pageNo page currDepth isLeaf t h
    unfold BTreeIndex.findLeafLoop
    cases isLeaf
    · exact IndexM.wpOk_throw
    · exact IndexM.wpOk_pure h
  | succ n ih =>
    intro pageNo page currDepth isLeaf t h
    unfold BTreeIndex.findLeafLoop
    cases isLeaf
    · simp only [Bool.false_eq_true, ↓reduceIte]
      refine IndexM.wpOk_bind (Node.wpOk_asNonLeaf _ fun nl => ?_)
      refine IndexM.wpOk_bind (IndexM.wpOk_pure ?_)
      refine IndexM.wpOk_bind (BTreeIndex.wpOk_unPinPage h _ fun t1 h1 _ _ => ?_)
      refine IndexM.wpOk_bind (BTreeIndex.wpOk_readPage h1 _ fun t2 nd h2 _ _ => ?_)
      exact ih _ _ _ _ _ h2
    · exact IndexM.wpOk_pure h

theorem findLeaf_holds (key : Int) (pageNo : PageId) (currDepth : Int) (isLeaf : Bool)
    (t : BTreeIndex) (h : t.holds 0) :
    IndexM.wpOk (BTreeIndex.findLeaf (fun _ => IndexM.pure ()) pageNo key currDepth isLeaf)
      (fun t1 a => t1.holds (a.1 ::ₘ 0)) t := by
  unfold BTreeIndex.findLeaf
  refine IndexM.wpOk_bind (BTreeIndex.wpOk_readPage h _ fun t1 nd h1 _ _ => ?_)
  refine IndexM.wpOk_bind (IndexM.wpOk_get ?_)
  exact findLeafLoop_holds key _ _ _ _ _ _ h1

/-- The search of `findParent` holds one pin beyond the root's at every step; on
return this pin is on the page returned. -/
theorem findParentLoop_holds (target : PageId) (key : Int) :
    ∀ (fuel : Nat) (id : PageId) (page : Node) (t : BTreeIndex), t.holds (id ::ₘ 0) →
      IndexM.wpOk (BTreeIndex.findParentLoop target key fuel id page)
        (fun t1 a => t1.holds (a ::ₘ 0)) t := by
  intro fuel
  induction fuel with
  | zero =>
    intro id page t h
    unfold BTreeIndex.findParentLoop
    exact IndexM.wpOk_throw
  | succ n ih =>
    intro id page t h
    unfold BTreeIndex.findParentLoop
    refine IndexM.wpOk_bind (Node.wpOk_asNonLeaf _ fun nl => ?_)
    by_cases hc : nl.pageNoArray.getD (nl.findIndex key) 0 = target
    · simp only [hc, if_true]
      exact IndexM.wpOk_pure h
    · simp only [hc, if_false]
      refine IndexM.wpOk_bind (BTreeIndex.wpOk_unPinPage h _ fun t1 h1 _ _ => ?_)
      refine IndexM.wpOk_bind (BTreeIndex.wpOk_readPage h1 _ fun t2 nd h2 _ _ => ?_)
      exact ih _ _ _ h2

/-- The call `findParent` leaves the pin counts balanced and returns the number
of a page of the file. -/
theorem findParent_holds (target : PageId) (t : BTreeIndex) (h : t.holds 0) :
    IndexM.wpOk (BTreeIndex.findParent target)
      (fun t1 a => t1.holds 0 ∧ a < t1.nextPageNo) t := by
  unfold BTreeIndex.findParent
  refine IndexM.wpOk_bind (IndexM.wpOk_get ?_)
  by_cases hc : target = t.rootPageNum
  · simp only [hc, if_true]
    exact IndexM.wpOk_pure ⟨h, h.1⟩
  · simp only [hc, if_false]
    refine IndexM.wpOk_bind (BTreeIndex.wpOk_readPage h _ fun t1 nd h1 _ _ => ?_)
    refine IndexM.wpOk_bind (BTreeIndex.wpOk_unPinPage h1 _ fun t2 h2 _ e2 => ?_)
    refine IndexM.wpOk_bind (BTreeIndex.wpOk_readPage h2 _ fun t3 nd3 h3 _ _ => ?_)
    refine IndexM.wpOk_bind (IndexM.wpOk_mono (findParentLoop_holds target _ _ _ _ _ h3) ?_)
    intro t4 id1 h4
    have hlt : id1 < t4.nextPageNo := h4.2.2.1 id1 (Multiset.mem_cons_self _ _)
    refine IndexM.wpOk_bind (BTreeIndex.wpOk_unPinPage h4 _ fun t5 h5 e5 _ => ?_)
    exact IndexM.wpOk_pure ⟨h5, by rw [e5]; exact hlt⟩

theorem IndexM.wpOk_modify_eq {f : BTreeIndex → BTreeIndex} {P : BTreeIndex → Unit → Prop}
    {t : BTreeIndex} (h : ∀ s : BTreeIndex, s = f t → P s ()) :
    IndexM.wpOk (IndexM.modify f) P t :=
  IndexM.wpOk_modify (h _ rfl)

/-- The loop of `insertEntry` that walks up the tree leaves the pin counts
balanced, whether it returns from `insertEntry` or runs to its end. -/
theorem insertWalkUp_holds :
    ∀ (fuel : Nat) (currId : PageId) (currKey : Int) (prevId : PageId) (currDepth : Int)
      (secondPageId : PageId) (t : BTreeIndex), t.holds 0 → currId < t.nextPageNo →
      IndexM.wpOk (BTreeIndex.insertWalkUp fuel currId currKey prevId currDepth secondPageId)
        (fun t1 r => t1.holds 0 ∧
          ∀ (cid : PageId) (k : Int) (sp : PageId), r = some (cid, k, sp) →
            cid < t1.nextPageNo) t := by
  intro fuel
  induction fuel with
  | zero =>
    intro currId currKey prevId currDepth secondPageId t h hlt
    unfold BTreeIndex.insertWalkUp
    by_cases hd : currDepth ≥ 0
    · simp only [hd, if_true]
      exact IndexM.wpOk_throw
    · simp only [hd, if_false]
      refine IndexM.wpOk_pure ⟨h, ?_⟩
      intro cid k sp e
      cases e
      exact hlt
  | succ n ih =>
    intro currId currKey prevId currDepth secondPageId t h hlt
    unfold BTreeIndex.insertWalkUp
    by_cases hd : currDepth ≥ 0
    · simp only [hd, if_true]
      refine IndexM.wpOk_bind (BTreeIndex.wpOk_readPage h _ fun t1 nd h1 e1 _ => ?_)
      refine IndexM.wpOk_bind (Node.wpOk_asNonLeaf _ fun currNode => ?_)
      refine IndexM.wpOk_bind (IndexM.wpOk_modify_eq fun s hs => ?_)
      have h2 : s.holds (currId ::ₘ 0) := by rw [hs]; exact h1
      have e2 : s.nextPageNo = t1.nextPageNo := by rw [hs]
      clear hs
      refine IndexM.wpOk_bind (IndexM.wpOk_get ?_)
      have hcur : currId < s.nextPageNo := h2.2.2.1 _ (Multiset.mem_cons_self _ _)
      by_cases hfit : currNode.numValidKeys < s.INTARRAYNONLEAFSIZE
      · simp only [hfit, if_true]
        refine IndexM.wpOk_bind (BTreeIndex.wpOk_writeNode h2 hcur _ fun t3 h3 _ _ => ?_)
        refine IndexM.wpOk_bind (BTreeIndex.wpOk_unPinPage h3 _ fun t4 h4 _ _ => ?_)
        refine IndexM.wpOk_pure ⟨h4, ?_⟩
        intro cid k sp e
        cases e
      · simp only [hfit, if_false]
        refine IndexM.wpOk_bind (BTreeIndex.wpOk_allocPage h2 fun t3 h3 e3 _ => ?_)
        rcases hsp : currNode.split s.INTARRAYNONLEAFSIZE currKey prevId with ⟨c1, c2, c3⟩
        simp only []
        have hsec : s.nextPageNo < t3.nextPageNo := by rw [e3]; exact Nat.lt_succ_self _
        refine IndexM.wpOk_bind (BTreeIndex.wpOk_writeNode h3 hsec _ fun t4 h4 e4 _ => ?_)
        have hcur4 : currId < t4.nextPageNo :=
          h4.2.2.1 _ (Multiset.mem_cons_of_mem (Multiset.mem_cons_self _ _))
        refine IndexM.wpOk_bind (BTreeIndex.wpOk_writeNode h4 hcur4 _ fun t5 h5 _ _ => ?_)
        refine IndexM.wpOk_bind (BTreeIndex.wpOk_unPinPage h5 _ fun t6 h6 _ _ => ?_)
        refine IndexM.wpOk_bind (BTreeIndex.wpOk_unPinPage h6 _ fun t7 h7 _ _ => ?_)
        refine IndexM.wpOk_bind (IndexM.wpOk_mono (findParent_holds _ _ h7) ?_)
        intro t8 id1 h8
        exact ih _ _ _ _ _ _ h8.1 h8.2
    · simp only [hd, if_false]
      refine IndexM.wpOk_pure ⟨h, ?_⟩
      intro cid k sp e
      cases e
      exact hlt

/-- The tail of `insertEntry` that makes a new root: when it returns, the new
root holds the only pin. -/
theorem insertNewRoot_holds (cid : PageId) (k : Int) (sp : PageId) (t : BTreeIndex)
    (h : t.holds 0) (hc : cid < t.nextPageNo) :
    IndexM.wpOk (BTreeIndex.insertNewRoot cid k sp) (fun t1 _ => t1.holds 0) t := by
  unfold BTreeIndex.insertNewRoot
  refine IndexM.wpOk_bind (BTreeIndex.wpOk_allocPage h fun t1 h1 e1 r1 => ?_)
  refine IndexM.wpOk_bind (IndexM.wpOk_modify_eq fun s hs => ?_)
  have h2 : s.holds (t.rootPageNum ::ₘ 0) := by
    rw [hs, ← r1]; exact BTreeIndex.holds_setRoot h1
  have r2 : s.rootPageNum = t.nextPageNo := by rw [hs]
  clear hs
  refine IndexM.wpOk_bind (IndexM.wpOk_get ?_)
  simp only []
  refine IndexM.wpOk_bind (IndexM.wpOk_modify_eq fun s3 hs3 => ?_)
  have h3 : s3.holds (t.rootPageNum ::ₘ 0) := by rw [hs3]; exact h2
  have r3 : s3.rootPageNum = t.nextPageNo := by rw [hs3]; exact r2
  clear hs3
  have hnew : t.nextPageNo < s3.nextPageNo := by rw [← r3]; exact h3.1
  refine IndexM.wpOk_bind (BTreeIndex.wpOk_writeNode h3 hnew _ fun t4 h4 _ r4 => ?_)
  refine IndexM.wpOk_bind (BTreeIndex.wpOk_readPage h4 _ fun t5 _ h5 _ r5 => ?_)
  refine IndexM.wpOk_bind (BTreeIndex.wpOk_readPage h5 _ fun t6 _ h6 _ r6 => ?_)
  have hroot6 : t6.rootPageNum = t.nextPageNo := by rw [r6, r5, r4, r3]
  have hcne : cid ≠ t.nextPageNo := Nat.ne_of_lt hc
  by_cases hcr : cid = t.rootPageNum
  · subst hcr
    rw [Multiset.cons_swap] at h6
    refine IndexM.wpOk_bind (BTreeIndex.wpOk_unPinPage h6 _ fun t7 h7 _ _ => ?_)
    rw [Multiset.cons_swap] at h7
    refine IndexM.wpOk_bind (BTreeIndex.wpOk_unPinPage h7 _ fun t8 h8 _ _ => ?_)
    exact BTreeIndex.wpOk_unPinPage h8 _ fun t9 h9 _ _ => h9
  · rw [Multiset.cons_swap] at h6
    refine IndexM.wpOk_bind (BTreeIndex.wpOk_unPinPage_held h6 _ fun t7 h7 _ r7 hheld7 => ?_)
    have hroot7 : t7.rootPageNum = t.nextPageNo := by rw [r7, hroot6]
    by_cases hcs : cid = sp
    · subst hcs
      refine IndexM.wpOk_bind (BTreeIndex.wpOk_unPinPage_held h7 _ fun t8 h8 _ r8 hheld8 => ?_)
      refine BTreeIndex.wpOk_unPinPage_zero h8 (by rw [r8, hroot7]; exact hcne) ?_ _ hheld8
      simp [hcr]
    · refine IndexM.wpOk_bind (BTreeIndex.wpOk_unPinPage_zero h7
        (by rw [hroot7]; exact hcne) ?_ _ hheld7)
      simp [hcr, hcs]

/-- Pin balance of `insertEntry`, as a statement about the state after a normal
return. -/
theorem insertEntry_holds (key : Int) (rid : RecordId) (t : BTreeIndex) (h : t.holds 0) :
    IndexM.wpOk (BTreeIndex.insertEntry key rid) (fun t1 _ => t1.holds 0) t := by
  unfold BTreeIndex.insertEntry
  refine IndexM.wpOk_bind (IndexM.wpOk_modify_eq fun s hs => ?_)
  have h1 : s.holds 0 := by rw [hs]; exact h
  clear hs
  refine IndexM.wpOk_bind (IndexM.wpOk_get ?_)
  refine IndexM.wpOk_bind (IndexM.wpOk_mono (findLeaf_holds key _ _ _ _ h1) ?_)
  rintro t2 ⟨currId, currDepth⟩ h2
  simp only []
  have hcur : currId < t2.nextPageNo := h2.2.2.1 _ (Multiset.mem_cons_self _ _)
  refine IndexM.wpOk_bind (BTreeIndex.wpOk_pageData _ fun currPage => ?_)
  refine IndexM.wpOk_bind (Node.wpOk_asLeaf _ fun leafNode => ?_)
  by_cases hfit : leafNode.numValidKeys < s.INTARRAYLEAFSIZE
  · simp only [hfit, if_true]
    refine IndexM.wpOk_bind (BTreeIndex.wpOk_writeNode h2 hcur _ fun t3 h3 _ _ => ?_)
    exact BTreeIndex.wpOk_unPinPage h3 _ fun t4 h4 _ _ => h4
  · simp only [hfit, if_false]
    refine IndexM.wpOk_bind (BTreeIndex.wpOk_allocPage h2 fun t3 h3 e3 _ => ?_)
    rcases hsp : leafNode.split s.INTARRAYLEAFSIZE key rid t2.nextPageNo with ⟨c1, c2, c3⟩
    simp only []
    have hsec : t2.nextPageNo < t3.nextPageNo := by rw [e3]; exact Nat.lt_succ_self _
    refine IndexM.wpOk_bind (BTreeIndex.wpOk_writeNode h3 hsec _ fun t4 h4 e4 _ => ?_)
    have hcur4 : currId < t4.nextPageNo :=
      h4.2.2.1 _ (Multiset.mem_cons_of_mem (Multiset.mem_cons_self _ _))
    refine IndexM.wpOk_bind (BTreeIndex.wpOk_writeNode h4 hcur4 _ fun t5 h5 _ _ => ?_)
    refine IndexM.wpOk_bind (BTreeIndex.wpOk_unPinPage h5 _ fun t6 h6 _ _ => ?_)
    refine IndexM.wpOk_bind (BTreeIndex.wpOk_unPinPage h6 _ fun t7 h7 _ _ => ?_)
    refine IndexM.wpOk_bind (IndexM.wpOk_mono (findParent_holds _ _ h7) ?_)
    intro t8 id1 h8
    refine IndexM.wpOk_bind (IndexM.wpOk_mono (insertWalkUp_holds _ _ _ _ _ _ _ h8.1 h8.2) ?_)
    intro t9 r h9
    cases r with
    | none => exact IndexM.wpOk_pure h9.1
    | some x =>
      obtain ⟨cid, k, sp⟩ := x
      exact insertNewRoot_holds cid k sp t9 h9.1 (h9.2 cid k sp rfl)

/-- Claim C18.  Pin balance of `insertEntry` on a pool that is a map from page
number to pin count and a file that hands out page numbers in sequence (the
root and every page of the file have numbers below `nextPageNo`): if before the
call the root has pin count 1 and every other page has pin count 0, then after
a normal return, on whichever path, the root of the index, which may be a new
page, has pin count 1 and every other page has pin count 0, a replaced old
root and the pages allocated by the call included; the assumptions on the file
hold again. -/
theorem insertEntry_pin_balance (t t1 : BTreeIndex) (key : Int) (rid : RecordId)
    (hroot : t.rootPageNum < t.nextPageNo)
    (hfile : ∀ p : PageId, assocGet t.pages p ≠ none → p < t.nextPageNo)
    (hpins : ∀ q : PageId, t.pinCnt q = if q = t.rootPageNum then 1 else 0)
    (hrun : BTreeIndex.insertEntry key rid t = (t1, .ok ())) :
    (∀ q : PageId, t1.pinCnt q = if q = t1.rootPageNum then 1 else 0) ∧
    t1.rootPageNum < t1.nextPageNo ∧
    (∀ p : PageId, assocGet t1.pages p ≠ none → p < t1.nextPageNo) := by
  have h : t.holds 0 := by
    refine ⟨hroot, hfile, fun p hp => ?_, fun q => ?_⟩
    · simp at hp
    · rw [hpins q]; simp
  have h1 := insertEntry_holds key rid t h t1 () hrun
  refine ⟨fun q => ?_, h1.1, h1.2.1⟩
  rw [h1.2.2.2 q]
  simp

/-- Witness of C18: `insertEntry(25)` into the index whose root leaf holds 10,
20, 30, 40 splits the leaf and makes a new root on page 4; afterwards page 4 is
pinned once and the old root, page 2, and its new sibling, page 3, are not
pinned. -/
theorem insertEntry_pin_balance_witness :
    (leafSplitResult 4).rootPageNum = 4 ∧ (leafSplitResult 4).pinCnt 4 = 1 ∧
    (leafSplitResult 4).pinCnt 2 = 0 ∧ (leafSplitResult 4).pinCnt 3 = 0 :=
  have h := (insertEntry_pin_balance (leafRootIndex 4 (leafOfFour 10 20 30 40 4 0) 4)
    (leafSplitResult 4) (Int.ofNat 25) (RecordId.mk 25 0) (by decide)
    (by
      intro p hp
      by_cases e : p = 2
      · rw [e]; decide
      · exact absurd (by simp [leafRootIndex, BTreeIndex.empty, assocGet, Ne.symm e]) hp)
    (by
      intro q
      by_cases e1 : q = 2
      · rw [e1]; rfl
      · by_cases e2 : q = 1
        · rw [e2]; rfl
        · simp [leafRootIndex, BTreeIndex.empty, BTreeIndex.pinCnt, assocGet, Ne.symm e1,
            Ne.symm e2, e1])
    (insertEntry_split_25 4)).1
  ⟨rfl, h 4, h 2, h 3⟩

/-! ### Insertion into a node with room -/

theorem getD_take_of_lt {α : Type} (d : α) (l : List α) (n j : Nat) (h : j < n) :
    (l.take n).getD j d = l.getD j d := by
  rw [List.getD_eq_getElem?_getD, List.getD_eq_getElem?_getD, List.getElem?_take_of_lt h]

/-- In a sorted list, a slot `i` with every entry before it at most `k` and the
entry at it above `k` separates the entries at most `k` from those above. -/
theorem sorted_split_at (l : List Int) (k : Int) (i : Nat)
    (hs : l.Pairwise (fun a b => a ≤ b)) (hlo : ∀ j, j < i → l.getD j 0 ≤ k)
    (hhi : i < l.length → k < l.getD i 0) :
    (∀ x ∈ l.take i, x ≤ k) ∧ (∀ x ∈ l.drop i, k < x) := by
  constructor
  · intro x hx
    obtain ⟨j, hj⟩ := List.mem_iff_getElem?.1 hx
    rw [List.getElem?_take] at hj
    by_cases hlt : j < i
    · rw [if_pos hlt] at hj
      have := hlo j hlt
      rw [List.getD_eq_getElem?_getD, hj] at this
      exact this
    · rw [if_neg hlt] at hj
      cases hj
  · intro x hx
    by_cases hlt : i < l.length
    · have h1 := hhi hlt
      have h2 : l.getD i 0 = l[i] := by
        rw [List.getD_eq_getElem?_getD, List.getElem?_eq_getElem hlt]
        rfl
      have hs2 : (l.take i ++ l.drop i).Pairwise (fun a b => a ≤ b) := by
        rw [List.take_append_drop]; exact hs
      rw [List.pairwise_append, List.drop_eq_getElem_cons hlt, List.pairwise_cons] at hs2
      rw [List.drop_eq_getElem_cons hlt] at hx
      have h3 : k < l[i] := by
        rw [← h2]; exact h1
      rcases List.mem_cons.1 hx with rfl | hx
      · exact h3
      · exact Int.lt_of_lt_of_le h3 (hs2.2.1.1 x hx)
    · rw [List.drop_eq_nil_of_le (by omega)] at hx
      cases hx

/-- Claim C21.  The fits path of a leaf insertion, for every leaf with `n` valid
entries, room for one more, and non-decreasing keys, and every `(k, rid)`:
`findIndex` returns the least slot `i` whose key exceeds `k`, or `n` if there is
none; after `shiftData` and the two writes the leaf has `n + 1` valid entries,
its keys and record ids are the old ones with `k` and `rid` inserted at `i`,
which is after every old entry with key at most `k` and before every old entry
with a larger key, and the keys are non-decreasing again. -/
theorem leaf_insertFits_postcondition (leaf : LeafNodeInt) (k : Int) (rid : RecordId)
    (hk : leaf.numValidKeys < leaf.keyArray.length)
    (hr : leaf.numValidKeys < leaf.ridArray.length)
    (hs : leaf.keys.Pairwise (fun a b => a ≤ b)) :
    leaf.findIndex k ≤ leaf.numValidKeys ∧
    (∀ j : Nat, j < leaf.findIndex k → leaf.keyArray.getD j 0 ≤ k) ∧
    (leaf.findIndex k < leaf.numValidKeys → k < leaf.keyArray.getD (leaf.findIndex k) 0) ∧
    (leaf.insertFits k rid).numValidKeys = leaf.numValidKeys + 1 ∧
    (leaf.insertFits k rid).keys
      = leaf.keys.take (leaf.findIndex k) ++ k :: leaf.keys.drop (leaf.findIndex k) ∧
    (leaf.insertFits k rid).rids
      = leaf.rids.take (leaf.findIndex k) ++ rid :: leaf.rids.drop (leaf.findIndex k) ∧
    (∀ x ∈ leaf.keys.take (leaf.findIndex k), x ≤ k) ∧
    (∀ x ∈ leaf.keys.drop (leaf.findIndex k), k < x) ∧
    (leaf.insertFits k rid).keys.Pairwise (fun a b => a ≤ b) := by
  have hspec := findIndexLoop_spec leaf.keyArray leaf.numValidKeys k leaf.numValidKeys 0
    (Nat.zero_le _) (by omega)
  have hi : leaf.findIndex k ≤ leaf.numValidKeys := hspec.2.1
  have hlen : leaf.keys.length = leaf.numValidKeys := by
    unfold LeafNodeInt.keys
    rw [List.length_take]
    omega
  have hsplit := sorted_split_at leaf.keys k (leaf.findIndex k) hs
    (fun j hj => by
      unfold LeafNodeInt.keys
      rw [getD_take_of_lt 0 _ _ _ (by omega)]
      exact hspec.2.2.1 j (Nat.zero_le _) hj)
    (fun hlt => by
      rw [hlen] at hlt
      unfold LeafNodeInt.keys
      rw [getD_take_of_lt 0 _ _ _ hlt]
      exact hspec.2.2.2 hlt)
  have hkeys := LeafNodeInt.insertFits_keys leaf k rid hk
  refine ⟨hi, fun j hj => hspec.2.2.1 j (Nat.zero_le _) hj, hspec.2.2.2,
    LeafNodeInt.insertFits_numValidKeys leaf k rid, hkeys,
    LeafNodeInt.insertFits_rids leaf k rid hr, hsplit.1, hsplit.2, ?_⟩
  rw [hkeys]
  exact insert_sorted leaf.keys k _ hs hsplit.1 hsplit.2

/-- Witness of C21: inserting `(30, rid)` into the leaf with keys 10, 20, 40 gives
the keys 10, 20, 30, 40. -/
theorem leaf_insertFits_postcondition_witness :
    (leafOfThree.insertFits 30 ⟨1, 3⟩).keys = [10, 20, 30, 40] ∧
    (leafOfThree.insertFits 30 ⟨1, 3⟩).rids = [⟨1, 1⟩, ⟨1, 2⟩, ⟨1, 3⟩, ⟨1, 4⟩] ∧
    (leafOfThree.insertFits 30 ⟨1, 3⟩).keys.Pairwise (fun a b => a ≤ b) :=
  have h := leaf_insertFits_postcondition leafOfThree 30 ⟨1, 3⟩ (by decide) (by decide)
    (by decide)
  ⟨by decide, by decide, h.2.2.2.2.2.2.2.2⟩

theorem NonLeafNodeInt.shiftLoop_both_eq (index : Nat) : ∀ (i : Nat) (node : NonLeafNodeInt),
    NonLeafNodeInt.shiftLoop index i node
      = { node with
          keyArray := shiftList 0 index i node.keyArray
          pageNoArray := shiftList 0 (index + 1) (i + 1) node.pageNoArray } := by
  intro i
  induction i with
  | zero =>
    intro node
    have : ¬ (0 + 1 > index + 1) := by omega
    simp only [NonLeafNodeInt.shiftLoop, shiftList, if_neg this]
  | succ i ih =>
    intro node
    unfold NonLeafNodeInt.shiftLoop
    by_cases h : i + 1 > index
    · have h2 : i + 1 + 1 > index + 1 := by omega
      rw [if_pos h, ih]
      simp only [shiftList, if_pos h, if_pos h2]
    · have h2 : ¬ (i + 1 + 1 > index + 1) := by omega
      rw [if_neg h]
      simp only [shiftList, if_neg h, if_neg h2]

theorem NonLeafNodeInt.findIndex_le_count (node : NonLeafNodeInt) (k : Int) :
    node.findIndex k ≤ node.numValidKeys :=
  (findIndexLoop_spec node.keyArray node.numValidKeys k node.numValidKeys 0
    (Nat.zero_le _) (by omega)).2.1

theorem NonLeafNodeInt.insertFits_count (node : NonLeafNodeInt) (k : Int) (c : PageId) :
    (node.insertFits k c).numValidKeys = node.numValidKeys + 1 := by
  simp [NonLeafNodeInt.insertFits, NonLeafNodeInt.shiftData, NonLeafNodeInt.shiftLoop_both_eq]

theorem NonLeafNodeInt.insertFits_level (node : NonLeafNodeInt) (k : Int) (c : PageId) :
    (node.insertFits k c).level = node.level := by
  simp [NonLeafNodeInt.insertFits, NonLeafNodeInt.shiftData, NonLeafNodeInt.shiftLoop_both_eq]

theorem NonLeafNodeInt.insertFits_keys_eq (node : NonLeafNodeInt) (k : Int) (c : PageId)
    (h1 : node.numValidKeys < node.keyArray.length) :
    (node.insertFits k c).keys
      = node.keys.take (node.findIndex k) ++ k :: node.keys.drop (node.findIndex k) := by
  have hix := node.findIndex_le_count k
  simp only [NonLeafNodeInt.keys, NonLeafNodeInt.insertFits, NonLeafNodeInt.shiftData,
    NonLeafNodeInt.shiftLoop_both_eq]
  rw [take_set_shiftList 0 k _ _ _ hix h1, take_insert_aux _ _ _ _ hix]

theorem NonLeafNodeInt.insertFits_children (node : NonLeafNodeInt) (k : Int) (c : PageId)
    (h1 : node.numValidKeys + 1 < node.pageNoArray.length) :
    (node.insertFits k c).children
      = node.children.take (node.findIndex k + 1)
        ++ c :: node.children.drop (node.findIndex k + 1) := by
  have hix := node.findIndex_le_count k
  simp only [NonLeafNodeInt.children, NonLeafNodeInt.insertFits, NonLeafNodeInt.shiftData,
    NonLeafNodeInt.shiftLoop_both_eq]
  rw [take_set_shiftList 0 c _ _ _ (Nat.succ_le_succ hix) h1,
    take_insert_aux _ _ _ _ (Nat.succ_le_succ hix)]

theorem insert_sorted_strict (K : List Int) (k : Int) (i : Nat)
    (hs : K.Pairwise (fun a b => a < b)) (hlo : ∀ x ∈ K.take i, x ≤ k)
    (hhi : ∀ x ∈ K.drop i, k < x) (hk : k ∉ K) :
    (K.take i ++ k :: K.drop i).Pairwise (fun a b => a < b) := by
  have hs2 : (K.take i ++ K.drop i).Pairwise (fun a b => a < b) := by
    rw [List.take_append_drop]; exact hs
  rw [List.pairwise_append] at hs2
  rw [List.pairwise_append, List.pairwise_cons]
  refine ⟨hs2.1, ⟨hhi, hs2.2.1⟩, ?_⟩
  intro a ha b hb
  rcases List.mem_cons.1 hb with rfl | hb
  · have h1 := hlo a ha
    have h2 : a ≠ b := fun e => hk (e ▸ List.mem_of_mem_take ha)
    omega
  · exact hs2.2.2 a ha b hb

/-- Claim C22.  Insertion into an internal node with room, for every node with `n`
valid keys in non-decreasing order, `n + 1` children, room for one more key and
child, and every promoted pair `(k, c)`: with `i = findIndex(k)` (the old keys
before slot `i` are at most `k`, those from slot `i` on exceed `k`), the node
has `n + 1` keys, the old keys with `k` inserted at `i`, and `n + 2` children,
the old children with `c` inserted at `i + 1`, so that `c` is the child to the
right of `k`, the children to the left of slot `i + 1` and the keys to the left
of slot `i` stay where they were, the others move one slot to the right, and
no old child is lost; the keys are non-decreasing again, and strictly ascending
when the old keys are and `k` is not among them; `level` is unchanged. -/
theorem nonleaf_insertFits_postcondition (node : NonLeafNodeInt) (k : Int) (c : PageId)
    (hk : node.numValidKeys < node.keyArray.length)
    (hc : node.numValidKeys + 1 < node.pageNoArray.length)
    (hs : node.keys.Pairwise (fun a b => a ≤ b)) :
    node.findIndex k ≤ node.numValidKeys ∧
    (∀ x ∈ node.keys.take (node.findIndex k), x ≤ k) ∧
    (∀ x ∈ node.keys.drop (node.findIndex k), k < x) ∧
    (node.insertFits k c).numValidKeys = node.numValidKeys + 1 ∧
    (node.insertFits k c).keys
      = node.keys.take (node.findIndex k) ++ k :: node.keys.drop (node.findIndex k) ∧
    (node.insertFits k c).children
      = node.children.take (node.findIndex k + 1)
        ++ c :: node.children.drop (node.findIndex k + 1) ∧
    (node.insertFits k c).children.length = node.numValidKeys + 2 ∧
    (node.insertFits k c).keys.getD (node.findIndex k) 0 = k ∧
    (node.insertFits k c).children.getD (node.findIndex k + 1) 0 = c ∧
    (∀ x ∈ node.children, x ∈ (node.insertFits k c).children) ∧
    (node.insertFits k c).keys.Pairwise (fun a b => a ≤ b) ∧
    (node.keys.Pairwise (fun a b => a < b) → k ∉ node.keys →
      (node.insertFits k c).keys.Pairwise (fun a b => a < b)) ∧
    (node.insertFits k c).level = node.level := by
  have hspec := findIndexLoop_spec node.keyArray node.numValidKeys k node.numValidKeys 0
    (Nat.zero_le _) (by omega)
  have hi : node.findIndex k ≤ node.numValidKeys := hspec.2.1
  have hlen : node.keys.length = node.numValidKeys := by
    unfold NonLeafNodeInt.keys
    rw [List.length_take]
    omega
  have hclen : node.children.length = node.numValidKeys + 1 := by
    unfold NonLeafNodeInt.children
    rw [List.length_take]
    omega
  have hsplit := sorted_split_at node.keys k (node.findIndex k) hs
    (fun j hj => by
      unfold NonLeafNodeInt.keys
      rw [getD_take_of_lt 0 _ _ _ (by omega)]
      exact hspec.2.2.1 j (Nat.zero_le _) hj)
    (fun hlt => by
      rw [hlen] at hlt
      unfold NonLeafNodeInt.keys
      rw [getD_take_of_lt 0 _ _ _ hlt]
      exact hspec.2.2.2 hlt)
  have hkeys := NonLeafNodeInt.insertFits_keys_eq node k c hk
  have hch := NonLeafNodeInt.insertFits_children node k c hc
  refine ⟨hi, hsplit.1, hsplit.2, NonLeafNodeInt.insertFits_count node k c, hkeys, hch,
    ?_, ?_, ?_, ?_, ?_, ?_, NonLeafNodeInt.insertFits_level node k c⟩
  · rw [hch]
    simp only [List.length_append, List.length_take, List.length_cons, List.length_drop, hclen]
    omega
  · rw [hkeys, List.getD_eq_getElem?_getD,
      List.getElem?_append_right (by rw [List.length_take, hlen]; omega)]
    simp [List.length_take, hlen, Nat.min_eq_left hi]
  · rw [hch, List.getD_eq_getElem?_getD,
      List.getElem?_append_right (by rw [List.length_take, hclen]; omega)]
    simp [List.length_take, hclen, Nat.min_eq_left (Nat.succ_le_succ hi)]
  · intro x hx
    rw [hch]
    rw [← List.take_append_drop (node.findIndex k + 1) node.children] at hx
    rcases List.mem_append.1 hx with h | h
    · exact List.mem_append_left _ h
    · exact List.mem_append_right _ (List.mem_cons_of_mem _ h)
  · rw [hkeys]
    exact insert_sorted node.keys k _ hs hsplit.1 hsplit.2
  · intro hlt hnot
    rw [hkeys]
    exact insert_sorted_strict node.keys k _ hlt hsplit.1 hsplit.2 hnot

/-- Witness of C22: inserting `(20, page 7)` into the node with keys 10, 30 and
children 2, 3, 5 gives the keys 10, 20, 30 and the children 2, 3, 7, 5. -/
theorem nonleaf_insertFits_postcondition_witness :
    (nodeOfTwo.insertFits 20 7).keys = [10, 20, 30] ∧
    (nodeOfTwo.insertFits 20 7).children = [2, 3, 7, 5] ∧
    (nodeOfTwo.insertFits 20 7).keys.Pairwise (fun a b => a < b) :=
  have h := nonleaf_insertFits_postcondition nodeOfTwo 20 7 (by decide) (by decide)
    (by decide)
  ⟨by decide, by decide, h.2.2.2.2.2.2.2.2.2.2.2.1 (by decide) (by decide)⟩

/-! ### `startScan` and the right sibling -/

/-- With the bounds `26 ≤ key ≤ 35`, each round of the loop of `startScan` over the
left leaf of the scenario finds no slot, moves `currentPageNum` to the sibling
and starts over on the same node: no number of rounds ends the loop. -/
theorem startScanLeaves_same_node :
    ∀ (fuel : Nat) (t : BTreeIndex), t.lowValInt = 26 → t.highValInt = 35 → t.lowOp = .GTE →
      t.highOp = .LTE → t.pinCnt t.currentPageNum ≠ 0 → assocGet t.pages 3 ≠ none →
      IndexM.wp (BTreeIndex.startScanLeaves leftLeafOfScenario fuel)
        (fun _ r => r = .error .OutOfFuel) t := by
  intro fuel
  induction fuel with
  | zero =>
    intro t _ _ _ _ _ _
    unfold BTreeIndex.startScanLeaves
    simp [IndexM.wp_throw]
  | succ n ih =>
    intro t h1 h2 h3 h4 h5 h6
    unfold BTreeIndex.startScanLeaves
    simp only [IndexM.wp_bind, IndexM.wp_modify]
    have hslots : BTreeIndex.startScanSlots leftLeafOfScenario leftLeafOfScenario.numValidKeys
        { t with nextEntry := 0 } = ({ t with nextEntry := 3 }, .ok none) := by
      simp [BTreeIndex.startScanSlots, leftLeafOfScenario, IndexM.bind_run, IndexM.get,
        IndexM.modify, IndexM.pure, IndexM.throw, h1, h2, h3, h4]
    rw [IndexM.wp_of_eq hslots]
    simp only [IndexM.wp_ite, IndexM.wp_throw, IndexM.wp_bind, IndexM.wp_get,
      BTreeIndex.wp_unPinPage, IndexM.wp_modify, BTreeIndex.wp_readPage]
    refine ⟨fun h0 => absurd h0 (by decide), fun _ => ⟨fun h0 =>
      absurd (BTreeIndex.pinCnt_of_none (t := t) h0) h5, fun _ h0 => absurd h0 h5, fun _ =>
      ⟨fun h0 => absurd h0 h6, fun nd _ => ?_⟩⟩⟩
    refine ih _ h1 h2 h3 h4 ?_ h6
    simp [BTreeIndex.pinCnt, assocGet_assocSet, leftLeafOfScenario]

/-- Claim C23.  On the index of the leaf-split scenario (root key 30, leaves 10, 20,
25 and 30, 40, a tree that satisfies the separator invariant and whose sibling
chain is sorted and ends in 0) the key 30 satisfies `26 ≤ key ≤ 35`, yet
`startScan(26, GTE, 35, LTE)` does not position the cursor on it: the descent
ends on the left leaf, which has no key in the range, and the loop then goes on
reading that same leaf however many rounds it is given, so the call does not
return. -/
theorem startScan_never_reaches_sibling :
    leafSplitScenario = (leafSplitResult 4, .ok ()) ∧
    (leafSplitResult 4).keysOf (leafSplitResult 4).rootPageNum = [30] ∧
    (leafSplitResult 4).childrenOf (leafSplitResult 4).rootPageNum = [2, 3] ∧
    (leafSplitResult 4).keysOf 2 = [10, 20, 25] ∧
    (leafSplitResult 4).keysOf 3 = [30, 40] ∧
    (BTreeIndex.startScan 26 .GTE 35 .LTE (leafSplitResult 4)).2 = .error .OutOfFuel ∧
    BTreeIndex.findLeafFromRoot 26
        { leafSplitResult 4 with lowValInt := 26, highValInt := 35, scanExecuting := true }
      = (scanAtLeftLeaf, .ok ()) ∧
    assocGet scanAtLeftLeaf.pages 2 = some (.leaf leftLeafOfScenario) ∧
    ∀ fuel : Nat,
      (BTreeIndex.startScanLeaves leftLeafOfScenario fuel scanAtLeftLeaf).2
        = .error .OutOfFuel :=
  ⟨by decide!, by decide!, by decide!, by decide!, by decide!, by decide!, by decide!,
    by decide!,
    fun fuel => startScanLeaves_same_node fuel scanAtLeftLeaf rfl rfl rfl rfl (by decide)
      (by decide)⟩

/-! ### Child pointers of the nodes an insertion writes -/

theorem forall_mem_set {α : Type} {P : α → Prop} {l : List α} (h : ∀ x ∈ l, P x) (i : Nat)
    {v : α} (hv : P v) : ∀ x ∈ l.set i v, P x := by
  intro x hx
  rcases List.mem_or_eq_of_mem_set hx with h1 | h1
  · exact h x h1
  · rw [h1]; exact hv

theorem forall_mem_getD {α : Type} {P : α → Prop} {l : List α} (h : ∀ x ∈ l, P x) {d : α}
    (hd : P d) (i : Nat) : P (l.getD i d) := by
  rw [List.getD_eq_getElem?_getD]
  cases hg : l[i]? with
  | none => exact hd
  | some x => exact h x (List.getElem?_mem hg)

theorem forall_mem_shiftList {α : Type} {P : α → Prop} {d : α} (hd : P d) (index : Nat) :
    ∀ (i : Nat) (l : List α), (∀ x ∈ l, P x) → ∀ x ∈ shiftList d index i l, P x := by
  intro i
  induction i with
  | zero => intro l h; exact h
  | succ i ih =>
    intro l h
    unfold shiftList
    by_cases hc : i + 1 > index
    · rw [if_pos hc]
      exact ih _ (forall_mem_set h _ (forall_mem_getD h hd i))
    · rw [if_neg hc]
      exact h

theorem forall_mem_copyList {α : Type} {P : α → Prop} (f : Nat → α) (hf : ∀ i, P (f i)) :
    ∀ (c : Nat) (l : List α), (∀ x ∈ l, P x) → ∀ x ∈ copyList f c l, P x := by
  intro c
  induction c with
  | zero => intro l h; exact h
  | succ c ih =>
    intro l h
    have hstep : copyList f (c + 1) l = (copyList f c l).set c (f c) := by
      unfold copyList
      rw [List.range_succ, List.foldl_append]
      rfl
    rw [hstep]
    exact forall_mem_set (ih l h) _ (hf c)

theorem NonLeafNodeInt.copyNode_eq (src : NonLeafNodeInt) (m : Nat) :
    ∀ (c : Nat) (nd : NonLeafNodeInt),
      (List.range c).foldl
        (fun (nd : NonLeafNodeInt) i =>
          { nd with
            keyArray := nd.keyArray.set i (src.keyArray.getD (m + i) 0)
            pageNoArray := nd.pageNoArray.set i (src.pageNoArray.getD (m + i) 0) }) nd
        = { nd with
            keyArray := copyList (fun i => src.keyArray.getD (m + i) 0) c nd.keyArray
            pageNoArray := copyList (fun i => src.pageNoArray.getD (m + i) 0) c
              nd.pageNoArray } := by
  intro c
  induction c with
  | zero => intro nd; rfl
  | succ c ih =>
    intro nd
    rw [List.range_succ, List.foldl_append, ih]
    simp only [copyList, List.range_succ, List.foldl_append, List.foldl_cons, List.foldl_nil]

/-- The child slots of a node after an insertion with room hold old slot values,
the promoted page or 0. -/
theorem NonLeafNodeInt.insertFits_slots {P : PageId → Prop} (h0 : P 0) (node : NonLeafNodeInt)
    (k : Int) {prevId : PageId} (hp : P prevId) (hn : ∀ x ∈ node.pageNoArray, P x) :
    ∀ x ∈ (node.insertFits k prevId).pageNoArray, P x := by
  simp only [NonLeafNodeInt.insertFits, NonLeafNodeInt.shiftData, NonLeafNodeInt.shiftLoop_both_eq]
  exact forall_mem_set (forall_mem_shiftList h0 _ _ _ hn) _ hp

/-- The child slots of both halves of an internal split hold old slot values, the
promoted page or 0. -/
theorem NonLeafNodeInt.split_slots {P : PageId → Prop} (h0 : P 0) (cap : Nat)
    (node : NonLeafNodeInt) (k : Int) {prevId : PageId} (hp : P prevId)
    (hn : ∀ x ∈ node.pageNoArray, P x) :
    (∀ x ∈ (node.split cap k prevId).1.pageNoArray, P x) ∧
    (∀ x ∈ (node.split cap k prevId).2.1.pageNoArray, P x) := by
  have hsec : ∀ (c m : Nat), ∀ x ∈ (copyList (fun i => node.pageNoArray.getD (m + i) 0) c
      (List.replicate (cap + 1) 0)).set c (node.pageNoArray.getD cap 0), P x := by
    intro c m
    refine forall_mem_set (forall_mem_copyList _ (fun i => forall_mem_getD hn h0 _) _ _ ?_) _
      (forall_mem_getD hn h0 _)
    intro x hx
    rw [(List.mem_replicate.1 hx).2]
    exact h0
  unfold NonLeafNodeInt.split
  simp only [NonLeafNodeInt.copyNode_eq, NonLeafNodeInt.zero]
  split
  · split
    · exact ⟨forall_mem_set hn _ hp, hsec _ _⟩
    · exact ⟨NonLeafNodeInt.insertFits_slots h0 _ _ hp hn, hsec _ _⟩
  · exact ⟨hn, NonLeafNodeInt.insertFits_slots h0 _ _ hp (hsec _ _)⟩

/-! ### The occupancy counters -/

theorem BTreeIndex.pinsOnly_refl (t : BTreeIndex) : t.pinsOnly t := ⟨t.pins, rfl⟩

theorem BTreeIndex.pinsOnly_trans {t t1 t2 : BTreeIndex} (h1 : t.pinsOnly t1)
    (h2 : t1.pinsOnly t2) : t.pinsOnly t2 := by
  obtain ⟨ps1, rfl⟩ := h1
  obtain ⟨ps2, rfl⟩ := h2
  exact ⟨ps2, rfl⟩

theorem BTreeIndex.poolOnly_refl (t : BTreeIndex) : t.poolOnly t := ⟨t.pins, t.dirtied, rfl⟩

theorem BTreeIndex.poolOnly_trans {t t1 t2 : BTreeIndex} (h1 : t.poolOnly t1)
    (h2 : t1.poolOnly t2) : t.poolOnly t2 := by
  obtain ⟨ps1, ds1, rfl⟩ := h1
  obtain ⟨ps2, ds2, rfl⟩ := h2
  exact ⟨ps2, ds2, rfl⟩

theorem BTreeIndex.occOk_poolOnly {t t1 : BTreeIndex} {c : Nat} (h : t.poolOnly t1)
    (hk : t.occOk c) : t1.occOk c := by
  obtain ⟨ps, ds, rfl⟩ := h
  exact hk

theorem BTreeIndex.wpOk_readPage_poolOnly (p : PageId) {t : BTreeIndex}
    {P : BTreeIndex → Node → Prop}
    (hk : ∀ (t1 : BTreeIndex) (nd : Node), t.poolOnly t1 → assocGet t.pages p = some nd →
      P t1 nd) :
    IndexM.wpOk (BTreeIndex.readPage p) P t := by
  intro t1 nd hr
  unfold BTreeIndex.readPage at hr
  cases hg : assocGet t.pages p with
  | none => rw [hg] at hr; cases hr
  | some nd0 =>
    rw [hg] at hr
    cases hr
    exact hk _ _ ⟨_, _, rfl⟩ hg

theorem BTreeIndex.wpOk_unPinPage_poolOnly (p : PageId) (d : Bool) {t : BTreeIndex}
    {P : BTreeIndex → Unit → Prop} (hk : ∀ t1 : BTreeIndex, t.poolOnly t1 → P t1 ()) :
    IndexM.wpOk (BTreeIndex.unPinPage p d) P t := by
  intro t1 u hr
  unfold BTreeIndex.unPinPage at hr
  by_cases h0 : assocGet t.pins p = none
  · rw [if_pos h0] at hr
    cases hr
    exact hk _ t.poolOnly_refl
  · rw [if_neg h0] at hr
    by_cases h : t.pinCnt p = 0
    · rw [if_pos h] at hr; cases hr
    · rw [if_neg h] at hr
      cases hr
      exact hk _ ⟨_, _, rfl⟩

theorem BTreeIndex.wpOk_pageData_eq (p : PageId) {t : BTreeIndex} {P : BTreeIndex → Node → Prop}
    (hk : ∀ nd : Node, assocGet t.pages p = some nd → P t nd) :
    IndexM.wpOk (BTreeIndex.pageData p) P t := by
  intro t1 nd hr
  unfold BTreeIndex.pageData at hr
  cases hg : assocGet t.pages p with
  | none => rw [hg] at hr; cases hr
  | some nd0 =>
    rw [hg] at hr
    cases hr
    exact hk _ hg

theorem Node.wpOk_asLeaf_eq (nd : Node) {t : BTreeIndex} {P : BTreeIndex → LeafNodeInt → Prop}
    (hk : ∀ n : LeafNodeInt, nd = .leaf n → P t n) : IndexM.wpOk nd.asLeaf P t := by
  intro t1 n hr
  cases nd with
  | leaf n0 => cases hr; exact hk _ rfl
  | nonLeaf n0 => cases hr

theorem Node.wpOk_asNonLeaf_eq (nd : Node) {t : BTreeIndex}
    {P : BTreeIndex → NonLeafNodeInt → Prop}
    (hk : ∀ n : NonLeafNodeInt, nd = .nonLeaf n → P t n) : IndexM.wpOk nd.asNonLeaf P t := by
  intro t1 n hr
  cases nd with
  | leaf n0 => cases hr
  | nonLeaf n0 => cases hr; exact hk _ rfl

theorem BTreeIndex.wpOk_allocPage_eq {t : BTreeIndex} {P : BTreeIndex → PageId → Prop}
    (hk : ∀ s : BTreeIndex,
      s = { t with pins := assocSet t.pins t.nextPageNo 1, nextPageNo := t.nextPageNo + 1 } →
      P s t.nextPageNo) :
    IndexM.wpOk BTreeIndex.allocPage P t := by
  intro t1 u hr
  cases hr
  exact hk _ rfl

theorem BTreeIndex.wpOk_writeNode_eq (p : PageId) (nd : Node) {t : BTreeIndex}
    {P : BTreeIndex → Unit → Prop}
    (hk : ∀ s : BTreeIndex, s = { t with pages := assocSet t.pages p nd } → P s ()) :
    IndexM.wpOk (BTreeIndex.writeNode p nd) P t := by
  intro t1 u hr
  cases hr
  exact hk _ rfl

theorem BTreeIndex.occOk_allocPage {t : BTreeIndex} {c : Nat} (h : t.occOk c) :
    ({ t with pins := assocSet t.pins t.nextPageNo 1, nextPageNo := t.nextPageNo + 1 }
      : BTreeIndex).occOk c := by
  obtain ⟨h1, h2, h3, h4, h5, h6⟩ := h
  exact ⟨h1, h2, Nat.lt_succ_of_lt h3,
    fun p n hp x hx => ⟨Nat.lt_succ_of_lt (h4 p n hp x hx).1, (h4 p n hp x hx).2⟩, h5, h6⟩

theorem BTreeIndex.occOk_writeLeaf {t : BTreeIndex} {c : Nat} (h : t.occOk c) (p : PageId)
    (lf : LeafNodeInt) (hp : t.nodeOccupancy ≠ 0 → p ≠ t.rootPageNum) :
    ({ t with pages := assocSet t.pages p (.leaf lf) } : BTreeIndex).occOk c := by
  obtain ⟨h1, h2, h3, h4, h5, h6⟩ := h
  refine ⟨h1, h2, h3, ?_, ?_, ?_⟩
  · intro q n hq
    simp only [assocGet_assocSet] at hq
    by_cases e : q = p
    · rw [if_pos e] at hq; cases hq
    · rw [if_neg e] at hq
      exact h4 q n hq
  · intro hz
    show ∃ lf0, assocGet (assocSet t.pages p (.leaf lf)) t.rootPageNum = some (.leaf lf0)
    rw [assocGet_assocSet]
    by_cases e : t.rootPageNum = p
    · rw [if_pos e]; exact ⟨lf, rfl⟩
    · rw [if_neg e]; exact h5 hz
  · intro hz
    show ∃ n0, assocGet (assocSet t.pages p (.leaf lf)) t.rootPageNum = some (.nonLeaf n0)
    rw [assocGet_assocSet, if_neg (Ne.symm (hp hz))]
    exact h6 hz

theorem BTreeIndex.occOk_writeNonLeaf {t : BTreeIndex} {c : Nat} (h : t.occOk c) (p : PageId)
    (n : NonLeafNodeInt) (hn : ∀ x ∈ n.pageNoArray, x < t.nextPageNo ∧ x ≠ t.rootPageNum)
    (hp : t.nodeOccupancy = 0 → p ≠ t.rootPageNum) :
    ({ t with pages := assocSet t.pages p (.nonLeaf n) } : BTreeIndex).occOk c := by
  obtain ⟨h1, h2, h3, h4, h5, h6⟩ := h
  refine ⟨h1, h2, h3, ?_, ?_, ?_⟩
  · intro q n0 hq
    simp only [assocGet_assocSet] at hq
    by_cases e : q = p
    · rw [if_pos e] at hq
      cases hq
      exact hn
    · rw [if_neg e] at hq
      exact h4 q n0 hq
  · intro hz
    show ∃ lf0, assocGet (assocSet t.pages p (.nonLeaf n)) t.rootPageNum = some (.leaf lf0)
    rw [assocGet_assocSet, if_neg (Ne.symm (hp hz))]
    exact h5 hz
  · intro hz
    show ∃ n0, assocGet (assocSet t.pages p (.nonLeaf n)) t.rootPageNum = some (.nonLeaf n0)
    rw [assocGet_assocSet]
    by_cases e : t.rootPageNum = p
    · rw [if_pos e]; exact ⟨n, rfl⟩
    · rw [if_neg e]; exact h6 hz

theorem BTreeIndex.occOk_nodeOccupancy {t : BTreeIndex} {c : Nat} (h : t.occOk c)
    (hz : t.nodeOccupancy ≠ 0) :
    ({ t with nodeOccupancy := t.nodeOccupancy + 1 } : BTreeIndex).occOk c := by
  obtain ⟨h1, h2, h3, h4, h5, h6⟩ := h
  exact ⟨h1, h2, h3, h4, fun e => absurd e (Nat.succ_ne_zero _), fun _ => h6 hz⟩

theorem BTreeIndex.occOk_slot {t : BTreeIndex} {c : Nat} (h : t.occOk c) {p : PageId}
    {n : NonLeafNodeInt} (hp : assocGet t.pages p = some (.nonLeaf n)) (i : Nat) :
    n.pageNoArray.getD i 0 < t.nextPageNo ∧ n.pageNoArray.getD i 0 ≠ t.rootPageNum :=
  forall_mem_getD (P := fun x => x < t.nextPageNo ∧ x ≠ t.rootPageNum) (h.2.2.2.1 p n hp)
    ⟨Nat.lt_trans h.2.1 h.2.2.1, Nat.ne_of_lt h.2.1⟩ i

/-- The descent of `insertEntry` changes pin counts only; it returns the page it
was given when `isLeaf` is set, and otherwise a page other than the root. -/
theorem findLeafLoop_occ (key : Int) (c : Nat) :
    ∀ (fuel : Nat) (pageNo : PageId) (page : Node) (currDepth : Int) (isLeaf : Bool)
      (t : BTreeIndex), t.occOk c → assocGet t.pages pageNo = some page →
      pageNo < t.nextPageNo →
      IndexM.wpOk (BTreeIndex.findLeafLoop (fun _ => IndexM.pure ()) key fuel pageNo page
        currDepth isLeaf)
        (fun t1 a => t.poolOnly t1 ∧ a.1 < t.nextPageNo ∧
          ((isLeaf = false ∧ a.1 ≠ t.rootPageNum) ∨ (isLeaf = true ∧ a = (pageNo, currDepth)))) t := by
  intro fuel
  induction fuel with
  | zero =>
    intro pageNo page currDepth isLeaf t h hp hlt
    unfold BTreeIndex.findLeafLoop
    cases isLeaf
    · exact IndexM.wpOk_throw
    · exact IndexM.wpOk_pure ⟨t.poolOnly_refl, hlt, Or.inr ⟨rfl, rfl⟩⟩
  | succ n ih =>
    intro pageNo page currDepth isLeaf t h hp hlt
    unfold BTreeIndex.findLeafLoop
    cases isLeaf
    · simp only [Bool.false_eq_true, ↓reduceIte]
      refine IndexM.wpOk_bind (Node.wpOk_asNonLeaf_eq _ fun nl hnl => ?_)
      refine IndexM.wpOk_bind (IndexM.wpOk_pure ?_)
      refine IndexM.wpOk_bind (BTreeIndex.wpOk_unPinPage_poolOnly _ _ fun t1 h1 => ?_)
      refine IndexM.wpOk_bind (BTreeIndex.wpOk_readPage_poolOnly _ fun t2 nd h2 hnd => ?_)
      have hslot := BTreeIndex.occOk_slot h (hnl ▸ hp) (nl.findIndex key)
      have h12 := BTreeIndex.poolOnly_trans h1 h2
      obtain ⟨ps1, dps1, rfl⟩ := h1
      obtain ⟨ps2, dps2, rfl⟩ := h2
      refine IndexM.wpOk_mono (ih _ _ _ _ _ h hnd hslot.1) ?_
      intro t3 a ha
      refine ⟨BTreeIndex.poolOnly_trans h12 ha.1, ha.2.1, Or.inl ⟨trivial, ?_⟩⟩
      rcases ha.2.2 with h3 | h3
      · exact h3.2
      · rw [h3.2]; exact hslot.2
    · exact IndexM.wpOk_pure ⟨t.poolOnly_refl, hlt, Or.inr ⟨rfl, rfl⟩⟩

theorem findLeaf_occ (key : Int) (c : Nat) (currDepth : Int) (isLeaf : Bool) (t : BTreeIndex)
    (h : t.occOk c) :
    IndexM.wpOk (BTreeIndex.findLeaf (fun _ => IndexM.pure ()) t.rootPageNum key currDepth
        isLeaf)
      (fun t1 a => t.poolOnly t1 ∧ a.1 < t.nextPageNo ∧
        ((isLeaf = false ∧ a.1 ≠ t.rootPageNum) ∨
          (isLeaf = true ∧ a = (t.rootPageNum, currDepth)))) t := by
  unfold BTreeIndex.findLeaf
  refine IndexM.wpOk_bind (BTreeIndex.wpOk_readPage_poolOnly _ fun t1 nd h1 hnd => ?_)
  refine IndexM.wpOk_bind (IndexM.wpOk_get ?_)
  obtain ⟨ps1, dps1, rfl⟩ := h1
  refine IndexM.wpOk_mono (findLeafLoop_occ key c _ _ _ _ _ _ h hnd h.2.2.1) ?_
  intro t3 a ha
  exact ⟨BTreeIndex.poolOnly_trans ⟨ps1, dps1, rfl⟩ ha.1, ha.2.1, ha.2.2⟩

theorem findParentLoop_occ (target : PageId) (key : Int) (c : Nat) :
    ∀ (fuel : Nat) (id : PageId) (page : Node) (t : BTreeIndex), t.occOk c →
      assocGet t.pages id = some page → id < t.nextPageNo →
      IndexM.wpOk (BTreeIndex.findParentLoop target key fuel id page)
        (fun t1 a => t.poolOnly t1 ∧ a < t.nextPageNo) t := by
  intro fuel
  induction fuel with
  | zero =>
    intro id page t h hp hlt
    unfold BTreeIndex.findParentLoop
    exact IndexM.wpOk_throw
  | succ n ih =>
    intro id page t h hp hlt
    unfold BTreeIndex.findParentLoop
    refine IndexM.wpOk_bind (Node.wpOk_asNonLeaf_eq _ fun nl hnl => ?_)
    by_cases hc : nl.pageNoArray.getD (nl.findIndex key) 0 = target
    · simp only [hc, if_true]
      exact IndexM.wpOk_pure ⟨t.poolOnly_refl, hlt⟩
    · simp only [hc, if_false]
      refine IndexM.wpOk_bind (BTreeIndex.wpOk_unPinPage_poolOnly _ _ fun t1 h1 => ?_)
      refine IndexM.wpOk_bind (BTreeIndex.wpOk_readPage_poolOnly _ fun t2 nd h2 hnd => ?_)
      have hslot := BTreeIndex.occOk_slot h (hnl ▸ hp) (nl.findIndex key)
      have h12 := BTreeIndex.poolOnly_trans h1 h2
      obtain ⟨ps1, dps1, rfl⟩ := h1
      obtain ⟨ps2, dps2, rfl⟩ := h2
      refine IndexM.wpOk_mono (ih _ _ _ h hnd hslot.1) ?_
      intro t3 a ha
      exact ⟨BTreeIndex.poolOnly_trans h12 ha.1, ha.2⟩

theorem findParent_occ (target : PageId) (c : Nat) (t : BTreeIndex) (h : t.occOk c) :
    IndexM.wpOk (BTreeIndex.findParent target)
      (fun t1 a => t.poolOnly t1 ∧ a < t.nextPageNo) t := by
  unfold BTreeIndex.findParent
  refine IndexM.wpOk_bind (IndexM.wpOk_get ?_)
  by_cases hc : target = t.rootPageNum
  · simp only [hc, if_true]
    exact IndexM.wpOk_pure ⟨t.poolOnly_refl, h.2.2.1⟩
  · simp only [hc, if_false]
    refine IndexM.wpOk_bind (BTreeIndex.wpOk_readPage_poolOnly _ fun t1 nd h1 _ => ?_)
    refine IndexM.wpOk_bind (BTreeIndex.wpOk_unPinPage_poolOnly _ _ fun t2 h2 => ?_)
    refine IndexM.wpOk_bind (BTreeIndex.wpOk_readPage_poolOnly _ fun t3 nd3 h3 hnd3 => ?_)
    have h13 := BTreeIndex.poolOnly_trans (BTreeIndex.poolOnly_trans h1 h2) h3
    obtain ⟨ps1, dps1, rfl⟩ := h1
    obtain ⟨ps2, dps2, rfl⟩ := h2
    obtain ⟨ps3, dps3, rfl⟩ := h3
    refine IndexM.wpOk_bind (IndexM.wpOk_mono (findParentLoop_occ target _ c _ _ _ _ h hnd3
      h.2.2.1) ?_)
    intro t4 id1 h4
    refine IndexM.wpOk_bind (BTreeIndex.wpOk_unPinPage_poolOnly _ _ fun t5 h5 => ?_)
    exact IndexM.wpOk_pure
      ⟨BTreeIndex.poolOnly_trans (BTreeIndex.poolOnly_trans h13 h4.1) h5, h4.2⟩

theorem insertWalkUp_occ (c : Nat) :
    ∀ (fuel : Nat) (currId : PageId) (currKey : Int) (prevId : PageId) (currDepth : Int)
      (secondPageId : PageId) (t : BTreeIndex), t.occOk c →
      (currDepth ≥ 0 → t.nodeOccupancy ≠ 0) →
      prevId < t.nextPageNo → prevId ≠ t.rootPageNum → currId < t.nextPageNo →
      secondPageId < t.nextPageNo →
      IndexM.wpOk (BTreeIndex.insertWalkUp fuel currId currKey prevId currDepth secondPageId)
        (fun t1 r => t1.occOk c ∧
          ∀ (cid : PageId) (k : Int) (sp : PageId), r = some (cid, k, sp) →
            cid < t1.nextPageNo ∧ sp < t1.nextPageNo) t := by
  intro fuel
  induction fuel with
  | zero =>
    intro currId currKey prevId currDepth secondPageId t h hz hp1 hp2 hcur hsec
    unfold BTreeIndex.insertWalkUp
    by_cases hd : currDepth ≥ 0
    · simp only [hd, if_true]
      exact IndexM.wpOk_throw
    · simp only [hd, if_false]
      refine IndexM.wpOk_pure ⟨h, ?_⟩
      intro cid k sp e
      cases e
      exact ⟨hcur, hsec⟩
  | succ n ih =>
    intro currId currKey prevId currDepth secondPageId t h hz hp1 hp2 hcur hsec
    unfold BTreeIndex.insertWalkUp
    by_cases hd : currDepth ≥ 0
    · simp only [hd, if_true]
      have hnz := hz hd
      refine IndexM.wpOk_bind (BTreeIndex.wpOk_readPage_poolOnly _ fun t1 nd h1 hnd => ?_)
      refine IndexM.wpOk_bind (Node.wpOk_asNonLeaf_eq _ fun currNode hcn => ?_)
      obtain ⟨ps1, dps1, rfl⟩ := h1
      have hslots : ∀ x ∈ currNode.pageNoArray, x < t.nextPageNo ∧ x ≠ t.rootPageNum :=
        h.2.2.2.1 currId currNode (hcn ▸ hnd)
      refine IndexM.wpOk_bind (IndexM.wpOk_modify_eq fun s hs => ?_)
      have h2 : s.occOk c := by rw [hs]; exact BTreeIndex.occOk_nodeOccupancy h hnz
      have e2 : s.nextPageNo = t.nextPageNo := by rw [hs]
      have r2 : s.rootPageNum = t.rootPageNum := by rw [hs]
      have n2 : s.nodeOccupancy ≠ 0 := by rw [hs]; exact Nat.succ_ne_zero _
      clear hs
      refine IndexM.wpOk_bind (IndexM.wpOk_get ?_)
      have h0 : (0 : PageId) < s.nextPageNo ∧ (0 : PageId) ≠ s.rootPageNum :=
        ⟨Nat.lt_trans h2.2.1 h2.2.2.1, Nat.ne_of_lt h2.2.1⟩
      by_cases hfit : currNode.numValidKeys < s.INTARRAYNONLEAFSIZE
      · simp only [hfit, if_true]
        refine IndexM.wpOk_bind (BTreeIndex.wpOk_writeNode_eq _ _ fun s3 hs3 => ?_)
        have h3 : s3.occOk c := by
          rw [hs3]
          refine BTreeIndex.occOk_writeNonLeaf h2 _ _ ?_ (fun e => absurd e n2)
          exact NonLeafNodeInt.insertFits_slots
            (P := fun x => x < s.nextPageNo ∧ x ≠ s.rootPageNum) h0 _ _
            ⟨e2 ▸ hp1, r2 ▸ hp2⟩ (by rw [e2, r2]; exact hslots)
        clear hs3
        refine IndexM.wpOk_bind (BTreeIndex.wpOk_unPinPage_poolOnly _ _ fun t4 h4 => ?_)
        refine IndexM.wpOk_pure ⟨BTreeIndex.occOk_poolOnly h4 h3, ?_⟩
        intro cid k sp e
        cases e
      · simp only [hfit, if_false]
        refine IndexM.wpOk_bind (BTreeIndex.wpOk_allocPage_eq fun s3 hs3 => ?_)
        have h3 : s3.occOk c := by rw [hs3]; exact BTreeIndex.occOk_allocPage h2
        have e3 : s3.nextPageNo = s.nextPageNo + 1 := by rw [hs3]
        have r3 : s3.rootPageNum = s.rootPageNum := by rw [hs3]
        have n3 : s3.nodeOccupancy ≠ 0 := by rw [hs3]; exact n2
        clear hs3
        have hP0 : (0 : PageId) < s3.nextPageNo ∧ (0 : PageId) ≠ s3.rootPageNum :=
          ⟨Nat.lt_trans h3.2.1 h3.2.2.1, Nat.ne_of_lt h3.2.1⟩
        have hPp : prevId < s3.nextPageNo ∧ prevId ≠ s3.rootPageNum := by
          rw [e3, r3, e2, r2]; exact ⟨Nat.lt_succ_of_lt hp1, hp2⟩
        have hPn : ∀ x ∈ currNode.pageNoArray, x < s3.nextPageNo ∧ x ≠ s3.rootPageNum := by
          intro x hx
          rw [e3, r3, e2, r2]
          exact ⟨Nat.lt_succ_of_lt (hslots x hx).1, (hslots x hx).2⟩
        have hsl := NonLeafNodeInt.split_slots
          (P := fun x => x < s3.nextPageNo ∧ x ≠ s3.rootPageNum) hP0 s.INTARRAYNONLEAFSIZE
          currNode currKey hPp hPn
        rcases hsp : currNode.split s.INTARRAYNONLEAFSIZE currKey prevId with ⟨c1, c2, c3⟩
        rw [hsp] at hsl
        simp only []
        refine IndexM.wpOk_bind (BTreeIndex.wpOk_writeNode_eq _ _ fun s4 hs4 => ?_)
        have h4 : s4.occOk c := by
          rw [hs4]; exact BTreeIndex.occOk_writeNonLeaf h3 _ _ hsl.2 (fun e => absurd e n3)
        have e4 : s4.nextPageNo = s3.nextPageNo := by rw [hs4]
        have r4 : s4.rootPageNum = s3.rootPageNum := by rw [hs4]
        have n4 : s4.nodeOccupancy ≠ 0 := by rw [hs4]; exact n3
        clear hs4
        refine IndexM.wpOk_bind (BTreeIndex.wpOk_writeNode_eq _ _ fun s5 hs5 => ?_)
        have h5 : s5.occOk c := by
          rw [hs5]
          exact BTreeIndex.occOk_writeNonLeaf h4 _ _ (by rw [e4, r4]; exact hsl.1)
            (fun e => absurd e n4)
        have e5 : s5.nextPageNo = s4.nextPageNo := by rw [hs5]
        have r5 : s5.rootPageNum = s4.rootPageNum := by rw [hs5]
        have n5 : s5.nodeOccupancy ≠ 0 := by rw [hs5]; exact n4
        clear hs5
        refine IndexM.wpOk_bind (BTreeIndex.wpOk_unPinPage_poolOnly _ _ fun t6 h6 => ?_)
        refine IndexM.wpOk_bind (BTreeIndex.wpOk_unPinPage_poolOnly _ _ fun t7 h7 => ?_)
        have h57 := BTreeIndex.poolOnly_trans h6 h7
        refine IndexM.wpOk_bind (IndexM.wpOk_mono
          (findParent_occ _ c _ (BTreeIndex.occOk_poolOnly h57 h5)) ?_)
        intro t8 id1 h8
        have h58 := BTreeIndex.poolOnly_trans h57 h8.1
        have hid : id1 < s5.nextPageNo := by
          obtain ⟨ps, dps, rfl⟩ := h57
          exact h8.2
        obtain ⟨ps8, dps8, rfl⟩ := h58
        have hnew : s.nextPageNo < s5.nextPageNo := by
          rw [e5, e4, e3]; exact Nat.lt_succ_self _
        have hnr : s.nextPageNo ≠ s5.rootPageNum := by
          rw [r5, r4, r3]; exact Nat.ne_of_gt h2.2.2.1
        exact ih _ _ _ _ _ _ h5 (fun _ => n5) hnew hnr hid hnew
    · simp only [hd, if_false]
      refine IndexM.wpOk_pure ⟨h, ?_⟩
      intro cid k sp e
      cases e
      exact ⟨hcur, hsec⟩

theorem assocGet_set_self {α : Type} (l : List (PageId × α)) (p : PageId) (a : α) :
    assocGet (assocSet l p a) p = some a := by
  rw [assocGet_assocSet, if_pos rfl]

theorem insertNewRoot_occ (c : Nat) (cid : PageId) (k : Int) (sp : PageId) (t : BTreeIndex)
    (h : t.occOk c) (hc : cid < t.nextPageNo) (hs : sp < t.nextPageNo) :
    IndexM.wpOk (BTreeIndex.insertNewRoot cid k sp) (fun t1 _ => t1.occOk c) t := by
  unfold BTreeIndex.insertNewRoot
  refine IndexM.wpOk_bind (BTreeIndex.wpOk_allocPage_eq fun s1 hs1 => ?_)
  refine IndexM.wpOk_bind (IndexM.wpOk_modify_eq fun s2 hs2 => ?_)
  refine IndexM.wpOk_bind (IndexM.wpOk_get ?_)
  simp only []
  refine IndexM.wpOk_bind (IndexM.wpOk_modify_eq fun s3 hs3 => ?_)
  refine IndexM.wpOk_bind (BTreeIndex.wpOk_writeNode_eq _ _ fun s4 hs4 => ?_)
  have h4 : s4.occOk c := by
    obtain ⟨h1, h2, h3, h4, h5, h6⟩ := h
    subst hs1
    subst hs2
    subst hs3
    subst hs4
    refine ⟨h1, Nat.lt_trans h2 h3, Nat.lt_succ_self _, ?_, fun e => absurd e (Nat.succ_ne_zero _),
      fun _ => ⟨_, assocGet_set_self t.pages t.nextPageNo _⟩⟩
    intro q n hq x hx
    have hq : assocGet (assocSet t.pages t.nextPageNo _) q = some (.nonLeaf n) := hq
    simp only [assocGet_assocSet] at hq
    by_cases e : q = t.nextPageNo
    · rw [if_pos e] at hq
      cases hq
      have hx1 := List.mem_or_eq_of_mem_set hx
      rcases hx1 with hx1 | hx1
      · rcases List.mem_or_eq_of_mem_set hx1 with hx2 | hx2
        · simp only [NonLeafNodeInt.zero] at hx2
          rw [(List.mem_replicate.1 hx2).2]
          exact ⟨Nat.lt_trans (Nat.lt_trans h2 h3) (Nat.lt_succ_self _),
            Nat.ne_of_lt (Nat.lt_trans h2 h3)⟩
        · rw [hx2]
          exact ⟨Nat.lt_succ_of_lt hc, Nat.ne_of_lt hc⟩
      · rw [hx1]
        exact ⟨Nat.lt_succ_of_lt hs, Nat.ne_of_lt hs⟩
    · rw [if_neg e] at hq
      have := h4 q n hq x hx
      exact ⟨Nat.lt_succ_of_lt this.1, Nat.ne_of_lt this.1⟩
  refine IndexM.wpOk_bind (BTreeIndex.wpOk_readPage_poolOnly _ fun t5 _ h5 _ => ?_)
  refine IndexM.wpOk_bind (BTreeIndex.wpOk_readPage_poolOnly _ fun t6 _ h6 _ => ?_)
  refine IndexM.wpOk_bind (BTreeIndex.wpOk_unPinPage_poolOnly _ _ fun t7 h7 => ?_)
  refine IndexM.wpOk_bind (BTreeIndex.wpOk_unPinPage_poolOnly _ _ fun t8 h8 => ?_)
  refine BTreeIndex.wpOk_unPinPage_poolOnly _ _ fun t9 h9 => ?_
  exact BTreeIndex.occOk_poolOnly (BTreeIndex.poolOnly_trans (BTreeIndex.poolOnly_trans
    (BTreeIndex.poolOnly_trans (BTreeIndex.poolOnly_trans h5 h6) h7) h8) h9) h4

/-- A call of `insertEntry` that returns normally counts one entry and keeps the
occupancy counters consistent with the pages. -/
theorem insertEntry_occ (key : Int) (rid : RecordId) (c : Nat) (t : BTreeIndex)
    (h : t.occOk c) :
    IndexM.wpOk (BTreeIndex.insertEntry key rid) (fun t1 _ => t1.occOk (c + 1)) t := by
  unfold BTreeIndex.insertEntry
  refine IndexM.wpOk_bind (IndexM.wpOk_modify_eq fun s hs => ?_)
  have h1 : s.occOk (c + 1) := by
    obtain ⟨a1, a2, a3, a4, a5, a6⟩ := h
    rw [hs]
    exact ⟨by rw [← a1], a2, a3, a4, a5, a6⟩
  clear hs
  refine IndexM.wpOk_bind (IndexM.wpOk_get ?_)
  refine IndexM.wpOk_bind (IndexM.wpOk_mono (findLeaf_occ key (c + 1) _ _ _ h1) ?_)
  rintro t2 ⟨currId, currDepth⟩ ⟨hpo, hcur, hkind⟩
  simp only []
  obtain ⟨ps2, dps2, rfl⟩ := hpo
  have hne : s.nodeOccupancy ≠ 0 → currId ≠ s.rootPageNum := by
    intro hz
    rcases hkind with hk | hk
    · exact hk.2
    · exact absurd (of_decide_eq_true hk.1) hz
  have hdepth : s.nodeOccupancy = 0 → currDepth = 0 := by
    intro hz
    rcases hkind with hk | hk
    · exact absurd (decide_eq_true hz) (by rw [hk.1]; simp)
    · exact (Prod.mk.inj hk.2).2
  refine IndexM.wpOk_bind (BTreeIndex.wpOk_pageData_eq _ fun currPage _ => ?_)
  refine IndexM.wpOk_bind (Node.wpOk_asLeaf_eq _ fun leafNode _ => ?_)
  by_cases hfit : leafNode.numValidKeys < s.INTARRAYLEAFSIZE
  · simp only [hfit, if_true]
    refine IndexM.wpOk_bind (BTreeIndex.wpOk_writeNode_eq _ _ fun s3 hs3 => ?_)
    have h3 : s3.occOk (c + 1) := by
      rw [hs3]; exact BTreeIndex.occOk_writeLeaf h1 _ _ hne
    clear hs3
    exact BTreeIndex.wpOk_unPinPage_poolOnly _ _ fun t4 h4 => BTreeIndex.occOk_poolOnly h4 h3
  · simp only [hfit, if_false]
    refine IndexM.wpOk_bind (BTreeIndex.wpOk_allocPage_eq fun s3 hs3 => ?_)
    have h3 : s3.occOk (c + 1) := by rw [hs3]; exact BTreeIndex.occOk_allocPage h1
    have e3 : s3.nextPageNo = s.nextPageNo + 1 := by rw [hs3]
    have r3 : s3.rootPageNum = s.rootPageNum := by rw [hs3]
    have n3 : s3.nodeOccupancy = s.nodeOccupancy := by rw [hs3]
    clear hs3
    rcases hsp : leafNode.split s.INTARRAYLEAFSIZE key rid s.nextPageNo with ⟨c1, c2, c3⟩
    simp only []
    refine IndexM.wpOk_bind (BTreeIndex.wpOk_writeNode_eq _ _ fun s4 hs4 => ?_)
    have h4 : s4.occOk (c + 1) := by
      rw [hs4]
      exact BTreeIndex.occOk_writeLeaf h3 _ _
        (fun _ => by rw [r3]; exact Nat.ne_of_gt h1.2.2.1)
    have e4 : s4.nextPageNo = s3.nextPageNo := by rw [hs4]
    have r4 : s4.rootPageNum = s3.rootPageNum := by rw [hs4]
    have n4 : s4.nodeOccupancy = s3.nodeOccupancy := by rw [hs4]
    clear hs4
    refine IndexM.wpOk_bind (BTreeIndex.wpOk_writeNode_eq _ _ fun s5 hs5 => ?_)
    have h5 : s5.occOk (c + 1) := by
      rw [hs5]
      exact BTreeIndex.occOk_writeLeaf h4 _ _
        (fun hz => by rw [r4, r3]; exact hne (by rw [← n3, ← n4]; exact hz))
    have e5 : s5.nextPageNo = s4.nextPageNo := by rw [hs5]
    have r5 : s5.rootPageNum = s4.rootPageNum := by rw [hs5]
    have n5 : s5.nodeOccupancy = s4.nodeOccupancy := by rw [hs5]
    clear hs5
    refine IndexM.wpOk_bind (BTreeIndex.wpOk_unPinPage_poolOnly _ _ fun t6 h6 => ?_)
    refine IndexM.wpOk_bind (BTreeIndex.wpOk_unPinPage_poolOnly _ _ fun t7 h7 => ?_)
    have h57 := BTreeIndex.poolOnly_trans h6 h7
    refine IndexM.wpOk_bind (IndexM.wpOk_mono
      (findParent_occ _ (c + 1) _ (BTreeIndex.occOk_poolOnly h57 h5)) ?_)
    intro t8 id1 h8
    have h58 := BTreeIndex.poolOnly_trans h57 h8.1
    have hid : id1 < s5.nextPageNo := by
      obtain ⟨ps, dps, rfl⟩ := h57
      exact h8.2
    obtain ⟨ps8, dps8, rfl⟩ := h58
    have hnew : s.nextPageNo < s5.nextPageNo := by
      rw [e5, e4, e3]; exact Nat.lt_succ_self _
    have hnr : s.nextPageNo ≠ s5.rootPageNum := by
      rw [r5, r4, r3]; exact Nat.ne_of_gt h1.2.2.1
    have hwalk : currDepth - 1 ≥ 0 → s5.nodeOccupancy ≠ 0 := by
      intro hd hz
      have := hdepth (by rw [← n3, ← n4, ← n5]; exact hz)
      omega
    refine IndexM.wpOk_bind (IndexM.wpOk_mono
      (insertWalkUp_occ (c + 1) _ _ _ _ _ _ _ h5 hwalk hnew hnr hid hnew) ?_)
    intro t9 r h9
    cases r with
    | none => exact IndexM.wpOk_pure h9.1
    | some x =>
      obtain ⟨cid, k, sp⟩ := x
      exact insertNewRoot_occ (c + 1) cid k sp t9 h9.1 (h9.2 cid k sp rfl).1
        (h9.2 cid k sp rfl).2

theorem insertAll_occ :
    ∀ (entries : List (Int × RecordId)) (c : Nat) (t : BTreeIndex), t.occOk c →
      IndexM.wpOk (BTreeIndex.insertAll entries) (fun t1 _ => t1.occOk (c + entries.length)) t := by
  intro entries
  induction entries with
  | nil =>
    intro c t h
    exact IndexM.wpOk_pure h
  | cons e rest ih =>
    intro c t h
    obtain ⟨k, r⟩ := e
    unfold BTreeIndex.insertAll
    refine IndexM.wpOk_bind (IndexM.wpOk_mono (insertEntry_occ k r c t h) ?_)
    intro t1 _ h1
    refine IndexM.wpOk_mono (ih (c + 1) t1 h1) ?_
    intro t2 _ h2
    have e : c + (rest.length + 1) = c + 1 + rest.length := by omega
    rw [List.length_cons, e]
    exact h2

theorem BTreeIndex.empty_occOk (leafCap nodeCap : Nat) :
    (BTreeIndex.empty leafCap nodeCap).occOk 0 := by
  refine ⟨rfl, Nat.zero_lt_succ _, Nat.lt_succ_self _, ?_, fun _ => ⟨_, rfl⟩,
    fun h => absurd rfl h⟩
  intro p n hp
  simp only [BTreeIndex.empty, assocGet] at hp
  split at hp <;> cases hp

/-- Claim C26.  From an empty index of any capacities (the root an empty leaf,
both counters 0), after any sequence of `insertEntry` calls that all return
normally, `leafOccupancy` is the number of calls, the root page is a leaf or an
internal node, and `nodeOccupancy = 0` holds exactly when it is a leaf. -/
theorem occupancy_counters_after_inserts (leafCap nodeCap : Nat)
    (entries : List (Int × RecordId)) (t : BTreeIndex)
    (hrun : BTreeIndex.insertAll entries (BTreeIndex.empty leafCap nodeCap) = (t, .ok ())) :
    t.leafOccupancy = entries.length ∧
    (t.nodeOccupancy = 0 ↔
      ∃ lf : LeafNodeInt, assocGet t.pages t.rootPageNum = some (.leaf lf)) ∧
    (t.nodeOccupancy ≠ 0 ↔
      ∃ n : NonLeafNodeInt, assocGet t.pages t.rootPageNum = some (.nonLeaf n)) := by
  have h := insertAll_occ entries 0 _ (BTreeIndex.empty_occOk leafCap nodeCap) t () hrun
  rw [Nat.zero_add] at h
  obtain ⟨h1, _, _, _, h5, h6⟩ := h
  refine ⟨h1, ⟨h5, ?_⟩, ⟨h6, ?_⟩⟩
  · rintro ⟨lf, hlf⟩
    by_contra hz
    obtain ⟨n, hn⟩ := h6 hz
    rw [hlf] at hn
    cases hn
  · rintro ⟨n, hn⟩ hz
    obtain ⟨lf, hlf⟩ := h5 hz
    rw [hlf] at hn
    cases hn

/-- Witness of C26: after the five inserts of the leaf-split scenario
`leafOccupancy` is 5, `nodeOccupancy` is not 0 and the root, page 4, is an
internal node. -/
theorem occupancy_counters_after_inserts_witness :
    (leafSplitResult 4).leafOccupancy = 5 ∧ (leafSplitResult 4).nodeOccupancy ≠ 0 ∧
    ∃ n : NonLeafNodeInt,
      assocGet (leafSplitResult 4).pages (leafSplitResult 4).rootPageNum = some (.nonLeaf n) :=
  have h := occupancy_counters_after_inserts 4 4 (entriesOf [10, 20, 30, 40, 25])
    (leafSplitResult 4) (insertAll_leaf_split 4)
  ⟨h.1, by decide, h.2.2.1 (by decide)⟩

/-! ### The new root -/

theorem findParent_root (t : BTreeIndex) :
    BTreeIndex.findParent t.rootPageNum t = (t, .ok t.rootPageNum) := by
  simp [BTreeIndex.findParent, IndexM.bind_run, IndexM.get, IndexM.pure]

theorem IndexM.run_eq_of_wp {α : Type} {m : IndexM α} {t : BTreeIndex} {a : α}
    (h : (m t).2 = .ok a) : m t = ((m t).1, .ok a) :=
  Prod.ext rfl h

/-! ### Parent lookup -/

theorem pairwise_getD_le (l : List Int) (hs : l.Pairwise (fun a b => a < b)) (j j' : Nat)
    (h : j ≤ j') (hj' : j' < l.length) : l.getD j 0 ≤ l.getD j' 0 := by
  rcases Nat.eq_or_lt_of_le h with e | e
  · rw [e]
  · have hj : j < l.length := by omega
    rw [List.pairwise_iff_getElem] at hs
    have := hs j j' hj hj' e
    rw [List.getD_eq_getElem?_getD, List.getD_eq_getElem?_getD, List.getElem?_eq_getElem hj,
      List.getElem?_eq_getElem hj']
    exact Int.le_of_lt this

theorem NonLeafNodeInt.keys_length (nd : NonLeafNodeInt)
    (h : nd.numValidKeys ≤ nd.keyArray.length) : nd.keys.length = nd.numValidKeys := by
  unfold NonLeafNodeInt.keys
  rw [List.length_take]
  omega

theorem NonLeafNodeInt.getD_mem_keys (nd : NonLeafNodeInt)
    (h : nd.numValidKeys ≤ nd.keyArray.length) (j : Nat) (hj : j < nd.numValidKeys) :
    nd.keyArray.getD j 0 ∈ nd.keys := by
  have hl : j < nd.keyArray.length := by omega
  rw [List.mem_iff_getElem?]
  refine ⟨j, ?_⟩
  unfold NonLeafNodeInt.keys
  rw [List.getElem?_take_of_lt hj, List.getD_eq_getElem?_getD, List.getElem?_eq_getElem hl]
  rfl

/-- Routing: in a node with strictly ascending keys, a key in the range of child
`i` is sent to child `i`. -/
theorem NonLeafNodeInt.findIndex_of_keyIn (nd : NonLeafNodeInt) (lo hi : Option Int)
    (k : Int) (i : Nat) (hlen : nd.numValidKeys ≤ nd.keyArray.length)
    (hs : nd.keys.Pairwise (fun a b => a < b)) (hi1 : i ≤ nd.numValidKeys)
    (hk : KeyIn (nd.childLo lo i) (nd.childHi hi i) k) : nd.findIndex k = i := by
  apply findIndexLoop_unique _ _ _ _ _ (Nat.le_refl _) hi1
  · intro j hj
    have hne : ¬ i = 0 := by omega
    have h1 := hk.1 (nd.keyArray.getD (i - 1) 0) (by simp [NonLeafNodeInt.childLo, hne])
    have h2 := pairwise_getD_le nd.keys hs j (i - 1) (by omega)
      (by rw [nd.keys_length hlen]; omega)
    unfold NonLeafNodeInt.keys at h2
    rw [getD_take_of_lt 0 _ _ _ (by omega), getD_take_of_lt 0 _ _ _ (by omega)] at h2
    omega
  · intro hlt
    have hne : ¬ i = nd.numValidKeys := by omega
    exact hk.2 (nd.keyArray.getD i 0) (by simp [NonLeafNodeInt.childHi, hne])

/-- A key in the range of a child is in the range of the node. -/
theorem NonLeafNodeInt.keyIn_of_child (nd : NonLeafNodeInt) (lo hi : Option Int) (k : Int)
    (i : Nat) (hlen : nd.numValidKeys ≤ nd.keyArray.length)
    (hin : ∀ x ∈ nd.keys, KeyIn lo hi x) (hi1 : i ≤ nd.numValidKeys)
    (hk : KeyIn (nd.childLo lo i) (nd.childHi hi i) k) : KeyIn lo hi k := by
  constructor
  · intro l hl
    by_cases h0 : i = 0
    · exact hk.1 l (by simp [NonLeafNodeInt.childLo, h0, hl])
    · have h1 := hk.1 (nd.keyArray.getD (i - 1) 0) (by simp [NonLeafNodeInt.childLo, h0])
      have h2 := (hin _ (nd.getD_mem_keys hlen (i - 1) (by omega))).1 l hl
      omega
  · intro h hh
    by_cases h0 : i = nd.numValidKeys
    · exact hk.2 h (by simp [NonLeafNodeInt.childHi, h0, hh])
    · have h1 := hk.2 (nd.keyArray.getD i 0) (by simp [NonLeafNodeInt.childHi, h0])
      have h2 := (hin _ (nd.getD_mem_keys hlen i (by omega))).2 h hh
      omega

/-- The first key of the root of a subtree lies in the range of the subtree. -/
theorem BTreeIndex.subtree_firstKey (pages : List (PageId × Node)) (h : Nat) (p : PageId)
    (lo hi : Option Int) (nd : Node) (hs : BTreeIndex.subtree pages h p lo hi)
    (hp : assocGet pages p = some nd) (hk : nd.hasKey) : KeyIn lo hi nd.firstKey := by
  cases h with
  | zero =>
    obtain ⟨lf, h1, h2⟩ := hs
    rw [hp] at h1
    cases h1
    apply h2
    obtain ⟨a, b⟩ := hk
    rw [List.mem_iff_getElem?]
    refine ⟨0, ?_⟩
    show (lf.keyArray.take lf.numValidKeys)[0]? = some (lf.keyArray.getD 0 0)
    rw [List.getElem?_take_of_lt a, List.getD_eq_getElem?_getD, List.getElem?_eq_getElem b]
    rfl
  | succ h =>
    obtain ⟨n, h1, h2, _, h4, _⟩ := hs
    rw [hp] at h1
    cases h1
    exact h4 _ (n.getD_mem_keys h2 0 hk.1)

/-- The first key of a node strictly below the root of a subtree lies in the range
of the child of the root under which the node is found, and so in the range of
the subtree. -/
theorem BTreeIndex.below_firstKey (pages : List (PageId × Node)) (target : PageId)
    (tnode : Node) (ht : assocGet pages target = some tnode) (hk : tnode.hasKey) :
    ∀ (h : Nat) (p : PageId) (lo hi : Option Int), BTreeIndex.subtree pages h p lo hi →
      BTreeIndex.below pages target h p → KeyIn lo hi tnode.firstKey := by
  intro h
  induction h with
  | zero => intro p lo hi _ hb; exact absurd hb (by simp [BTreeIndex.below])
  | succ h ih =>
    intro p lo hi hs hb
    obtain ⟨nd, h1, h2, h3, h4, h5⟩ := hs
    obtain ⟨nd', b1, i, b2, b3⟩ := hb
    rw [h1] at b1
    cases b1
    apply nd.keyIn_of_child lo hi _ i h2 h4 b2
    rcases b3 with b3 | b3
    · exact BTreeIndex.subtree_firstKey pages h target _ _ tnode (b3 ▸ h5 i b2) ht hk
    · exact ih _ _ _ (h5 i b2) b3

theorem BTreeIndex.onePin_readPage {t s : BTreeIndex} (h : t.samePins s) (p : PageId) :
    t.onePin { s with pins := assocSet s.pins p (s.pinCnt p + 1) } p := by
  obtain ⟨⟨ps, rfl⟩, h2⟩ := h
  refine ⟨⟨_, rfl⟩, fun q => ?_⟩
  have hq := h2 q
  have hp := h2 p
  simp only [BTreeIndex.pinCnt, assocGet_assocSet] at hq hp ⊢
  by_cases e : q = p
  · subst e
    simp only [if_true, Option.getD_some]
    omega
  · simp only [if_neg e]
    omega

theorem BTreeIndex.samePins_unPinPage {t s : BTreeIndex} {p : PageId} (h : t.onePin s p) :
    s.pinCnt p ≠ 0 ∧ t.samePins { s with pins := assocSet s.pins p (s.pinCnt p - 1) } := by
  obtain ⟨⟨ps, rfl⟩, h2⟩ := h
  have hp := h2 p
  rw [if_pos rfl] at hp
  refine ⟨by omega, ⟨_, rfl⟩, fun q => ?_⟩
  have hq := h2 q
  simp only [BTreeIndex.pinCnt, assocGet_assocSet] at hq hp ⊢
  by_cases e : q = p
  · subst e
    simp only [if_true, Option.getD_some] at hq ⊢
    omega
  · simp only [if_neg e] at hq ⊢
    omega

theorem BTreeIndex.wp_readPage_some {p : PageId} {nd : Node} {t : BTreeIndex}
    (h : assocGet t.pages p = some nd) (Q : BTreeIndex → Res Node → Prop) :
    IndexM.wp (BTreeIndex.readPage p) Q t
      ↔ Q { t with pins := assocSet t.pins p (t.pinCnt p + 1) } (.ok nd) := by
  simp [BTreeIndex.wp_readPage, h]

theorem BTreeIndex.wp_unPinPage_pos {p : PageId} {t : BTreeIndex} (h : t.pinCnt p ≠ 0)
    (Q : BTreeIndex → Res Unit → Prop) :
    IndexM.wp (BTreeIndex.unPinPage p false) Q t
      ↔ Q { t with pins := assocSet t.pins p (t.pinCnt p - 1) } (.ok ()) := by
  have h0 := BTreeIndex.held_of_pinCnt h
  rw [BTreeIndex.wp_unPinPage]
  exact ⟨fun hw => hw.2.2 h, fun hq => ⟨fun e => absurd e h0, fun _ e => absurd e h,
    fun _ => hq⟩⟩

theorem BTreeIndex.below_zero (pages : List (PageId × Node)) (target p : PageId) :
    ¬ BTreeIndex.below pages target 0 p := by
  simp [BTreeIndex.below]

/-- The loop of `findParent`, started at an ancestor of the target with the first
key of the target, ends at the node whose child slot for that key holds the
target; the only pin then held is on that node. -/
theorem findParentLoop_finds (t : BTreeIndex) (target : PageId) (tnode : Node)
    (ht : assocGet t.pages target = some tnode) (hk : tnode.hasKey) :
    ∀ (h fuel : Nat) (p : PageId) (lo hi : Option Int) (nd : NonLeafNodeInt) (s : BTreeIndex),
      h < fuel → BTreeIndex.subtree t.pages (h + 1) p lo hi →
      BTreeIndex.below t.pages target (h + 1) p →
      assocGet t.pages p = some (.nonLeaf nd) → t.onePin s p →
      IndexM.wp (BTreeIndex.findParentLoop target tnode.firstKey fuel p (.nonLeaf nd))
        (fun s1 r => ∃ (par : PageId) (pn : NonLeafNodeInt), r = .ok par ∧
          assocGet t.pages par = some (.nonLeaf pn) ∧
          pn.findIndex tnode.firstKey ≤ pn.numValidKeys ∧
          pn.pageNoArray.getD (pn.findIndex tnode.firstKey) 0 = target ∧
          (par = p ∨ BTreeIndex.below t.pages par (h + 1) p) ∧
          t.onePin s1 par) s := by
  intro h
  induction h with
  | zero =>
    intro fuel p lo hi nd s hf hs hb hp hpin
    obtain ⟨f, rfl⟩ : ∃ f, fuel = f + 1 := ⟨fuel - 1, by omega⟩
    obtain ⟨nd1, h1, h2, h3, h4, h5⟩ := hs
    obtain ⟨nd2, b1, i, b2, b3⟩ := hb
    rw [hp] at h1 b1
    cases h1
    cases b1
    have hchild : nd.pageNoArray.getD i 0 = target := by
      rcases b3 with b3 | b3
      · exact b3
      · exact absurd b3 (BTreeIndex.below_zero _ _ _)
    have hkey : KeyIn (nd.childLo lo i) (nd.childHi hi i) tnode.firstKey :=
      BTreeIndex.subtree_firstKey t.pages 0 target _ _ tnode (hchild ▸ h5 i b2) ht hk
    have hidx := nd.findIndex_of_keyIn lo hi _ i h2 h3 b2 hkey
    unfold BTreeIndex.findParentLoop
    simp only [IndexM.wp_bind, Node.wp_asNonLeaf, IndexM.wp_ite, IndexM.wp_pure']
    refine ⟨fun n hn => ?_, fun n hn => by cases hn⟩
    cases hn
    rw [hidx]
    exact ⟨fun _ => ⟨p, nd, rfl, hp, by rw [hidx]; exact b2, by rw [hidx]; exact hchild,
      Or.inl rfl, hpin⟩, fun hc => absurd hchild hc⟩
  | succ h ih =>
    intro fuel p lo hi nd s hf hs hb hp hpin
    obtain ⟨f, rfl⟩ : ∃ f, fuel = f + 1 := ⟨fuel - 1, by omega⟩
    obtain ⟨nd1, h1, h2, h3, h4, h5⟩ := hs
    obtain ⟨nd2, b1, i, b2, b3⟩ := hb
    rw [hp] at h1 b1
    cases h1
    cases b1
    have hkey : KeyIn (nd.childLo lo i) (nd.childHi hi i) tnode.firstKey := by
      rcases b3 with b3 | b3
      · exact BTreeIndex.subtree_firstKey t.pages (h + 1) target _ _ tnode (b3 ▸ h5 i b2) ht hk
      · exact BTreeIndex.below_firstKey t.pages target tnode ht hk _ _ _ _ (h5 i b2) b3
    have hidx := nd.findIndex_of_keyIn lo hi _ i h2 h3 b2 hkey
    unfold BTreeIndex.findParentLoop
    simp only [IndexM.wp_bind, Node.wp_asNonLeaf, IndexM.wp_ite, IndexM.wp_pure']
    refine ⟨fun n hn => ?_, fun n hn => by cases hn⟩
    cases hn
    rw [hidx]
    refine ⟨fun hc => ⟨p, nd, rfl, hp, by rw [hidx]; exact b2, by rw [hidx]; exact hc,
      Or.inl rfl, hpin⟩, fun hc => ?_⟩
    have hbelow : BTreeIndex.below t.pages target (h + 1) (nd.pageNoArray.getD i 0) := by
      rcases b3 with b3 | b3
      · exact absurd b3 hc
      · exact b3
    have hsub := h5 i b2
    obtain ⟨ndc, c1, _⟩ := id hsub
    obtain ⟨hpos, hsame⟩ := BTreeIndex.samePins_unPinPage hpin
    rw [BTreeIndex.wp_unPinPage_pos hpos]
    have hpages : assocGet ({ s with pins := assocSet s.pins p (s.pinCnt p - 1) } :
        BTreeIndex).pages (nd.pageNoArray.getD i 0) = some (.nonLeaf ndc) := by
      obtain ⟨⟨ps, rfl⟩, _⟩ := hpin
      exact c1
    rw [BTreeIndex.wp_readPage_some hpages]
    refine IndexM.wp_mono (ih f _ _ _ ndc _ (by omega) hsub hbelow c1
      (BTreeIndex.onePin_readPage hsame _)) ?_
    rintro s1 r ⟨par, pn, e1, e2, e3, e4, e5, e6⟩
    exact ⟨par, pn, e1, e2, e3, e4, Or.inr ⟨nd, hp, i, b2, e5.imp_left Eq.symm⟩, e6⟩

theorem BTreeIndex.subtree_page (pages : List (PageId × Node)) (h : Nat) (p : PageId)
    (lo hi : Option Int) (hs : BTreeIndex.subtree pages h p lo hi) : assocGet pages p ≠ none := by
  cases h with
  | zero =>
    obtain ⟨lf, e, _⟩ := hs
    rw [e]; exact Option.some_ne_none _
  | succ h =>
    obtain ⟨nd, e, _⟩ := hs
    rw [e]; exact Option.some_ne_none _

/-- A page is the root of a well-formed subtree of one height only. -/
theorem BTreeIndex.subtree_height_unique (pages : List (PageId × Node)) :
    ∀ (a b : Nat) (p : PageId) (lo hi lo1 hi1 : Option Int),
      BTreeIndex.subtree pages a p lo hi → BTreeIndex.subtree pages b p lo1 hi1 → a = b := by
  intro a
  induction a with
  | zero =>
    intro b p lo hi lo1 hi1 h1 h2
    obtain ⟨lf, e, _⟩ := h1
    cases b with
    | zero => rfl
    | succ b =>
      obtain ⟨nd, e2, _⟩ := h2
      rw [e] at e2
      cases e2
  | succ a ih =>
    intro b p lo hi lo1 hi1 h1 h2
    obtain ⟨nd, e, _, _, _, c⟩ := h1
    cases b with
    | zero =>
      obtain ⟨lf, e2, _⟩ := h2
      rw [e] at e2
      cases e2
    | succ b =>
      obtain ⟨nd2, e2, _, _, _, c2⟩ := h2
      rw [e] at e2
      cases e2
      rw [ih b _ _ _ _ _ (c 0 (Nat.zero_le _)) (c2 0 (Nat.zero_le _))]

/-- A well-formed subtree of height `h` has `h + 1` distinct pages on the path
through its first children. -/
theorem BTreeIndex.subtree_chain (pages : List (PageId × Node)) :
    ∀ (h : Nat) (p : PageId) (lo hi : Option Int), BTreeIndex.subtree pages h p lo hi →
      ∃ S : Finset PageId, S.card = h + 1 ∧
        ∀ q ∈ S, assocGet pages q ≠ none ∧
          ∃ (j : Nat) (lo1 hi1 : Option Int), j ≤ h ∧ BTreeIndex.subtree pages j q lo1 hi1 := by
  intro h
  induction h with
  | zero =>
    intro p lo hi hs
    refine ⟨{p}, Finset.card_singleton p, fun q hq => ?_⟩
    rw [Finset.mem_singleton] at hq
    subst hq
    exact ⟨BTreeIndex.subtree_page pages 0 q lo hi hs, 0, lo, hi, Nat.le_refl _, hs⟩
  | succ h ih =>
    intro p lo hi hs
    obtain ⟨nd, e, _, _, _, c⟩ := id hs
    obtain ⟨S, hcard, hS⟩ := ih _ _ _ (c 0 (Nat.zero_le _))
    have hp : p ∉ S := by
      intro hp
      obtain ⟨_, j, lo1, hi1, hj, hsub⟩ := hS p hp
      have := BTreeIndex.subtree_height_unique pages _ _ p _ _ _ _ hs hsub
      omega
    refine ⟨insert p S, by rw [Finset.card_insert_of_not_mem hp, hcard], fun q hq => ?_⟩
    rw [Finset.mem_insert] at hq
    rcases hq with hq | hq
    · subst hq
      exact ⟨BTreeIndex.subtree_page pages _ q lo hi hs, h + 1, lo, hi, Nat.le_refl _, hs⟩
    · obtain ⟨h1, j, lo1, hi1, hj, hsub⟩ := hS q hq
      exact ⟨h1, j, lo1, hi1, Nat.le_succ_of_le hj, hsub⟩

/-- The height of a well-formed tree is below the number of page numbers that
can hold a node. -/
theorem BTreeIndex.subtree_height_lt (pages : List (PageId × Node)) (N : Nat)
    (hfile : ∀ p : PageId, assocGet pages p ≠ none → p < N)
    (h : Nat) (p : PageId) (lo hi : Option Int) (hs : BTreeIndex.subtree pages h p lo hi) :
    h < N := by
  obtain ⟨S, hcard, hS⟩ := BTreeIndex.subtree_chain pages h p lo hi hs
  have hsub : S ⊆ Finset.range N := fun q hq =>
    Finset.mem_range.2 (hfile q (hS q hq).1)
  have := Finset.card_le_card hsub
  rw [hcard, Finset.card_range] at this
  omega

theorem BTreeIndex.samePins_refl (t : BTreeIndex) : t.samePins t :=
  ⟨t.pinsOnly_refl, fun _ => rfl⟩

theorem BTreeIndex.wp_readPage_same {p : PageId} {nd : Node} {t s : BTreeIndex}
    (h : t.pinsOnly s) (hp : assocGet t.pages p = some nd) (Q : BTreeIndex → Res Node → Prop) :
    IndexM.wp (BTreeIndex.readPage p) Q s
      ↔ Q { s with pins := assocSet s.pins p (s.pinCnt p + 1) } (.ok nd) := by
  obtain ⟨ps, rfl⟩ := h
  have hp2 : assocGet ({ t with pins := ps } : BTreeIndex).pages p = some nd := hp
  exact BTreeIndex.wp_readPage_some hp2 Q

/-- The call `findParent(target)` for a node strictly below the root of a tree of
height `H` that satisfies the separator invariant: it returns the node whose child slot for the target's first key holds the
target, and every pin count is as before. -/
theorem findParent_finds (t : BTreeIndex) (H : Nat) (target : PageId) (tnode : Node)
    (hs : BTreeIndex.subtree t.pages H t.rootPageNum none none)
    (hb : BTreeIndex.below t.pages target H t.rootPageNum)
    (hne : target ≠ t.rootPageNum) (ht : assocGet t.pages target = some tnode)
    (hk : tnode.hasKey) (hfile : ∀ p : PageId, assocGet t.pages p ≠ none → p < t.nextPageNo) :
    IndexM.wp (BTreeIndex.findParent target)
      (fun s1 r => ∃ (par : PageId) (pn : NonLeafNodeInt), r = .ok par ∧
        assocGet t.pages par = some (.nonLeaf pn) ∧
        pn.findIndex tnode.firstKey ≤ pn.numValidKeys ∧
        pn.pageNoArray.getD (pn.findIndex tnode.firstKey) 0 = target ∧
        (par = t.rootPageNum ∨ BTreeIndex.below t.pages par H t.rootPageNum) ∧
        t.samePins s1) t := by
  obtain ⟨h, rfl⟩ : ∃ h, H = h + 1 := by
    cases H with
    | zero => exact absurd hb (BTreeIndex.below_zero _ _ _)
    | succ h => exact ⟨h, rfl⟩
  obtain ⟨ndr, r1, _, _, _, hc⟩ := id hs
  unfold BTreeIndex.findParent
  simp only [IndexM.wp_bind, IndexM.wp_get, if_neg hne]
  refine (BTreeIndex.wp_readPage_some ht _).2 ?_
  have hp1 := BTreeIndex.onePin_readPage t.samePins_refl target
  obtain ⟨hpos1, hsame1⟩ := BTreeIndex.samePins_unPinPage hp1
  refine (BTreeIndex.wp_unPinPage_pos hpos1 _).2 ?_
  refine (BTreeIndex.wp_readPage_same hsame1.1 r1 _).2 ?_
  refine IndexM.wp_mono (findParentLoop_finds t target tnode ht hk h _ _ _ _ ndr _
    (BTreeIndex.subtree_height_lt t.pages _ hfile _ _ _ _
      (hc 0 (Nat.zero_le _))) hs hb r1 (BTreeIndex.onePin_readPage hsame1 _)) ?_
  rintro s4 r ⟨par, pn, rfl, a1, a2, a3, a5, a4⟩
  obtain ⟨hpos4, hsame4⟩ := BTreeIndex.samePins_unPinPage a4
  refine (BTreeIndex.wp_unPinPage_pos hpos4 _).2 ?_
  exact ⟨par, pn, rfl, a1, a2, a3, a5, hsame4⟩

/-- A node below the root of a well-formed subtree is the root of a well-formed
subtree of smaller height. -/
theorem BTreeIndex.below_subtree (pages : List (PageId × Node)) (target : PageId) :
    ∀ (h : Nat) (p : PageId) (lo hi : Option Int), BTreeIndex.subtree pages h p lo hi →
      BTreeIndex.below pages target h p →
      ∃ (j : Nat) (lo1 hi1 : Option Int), j < h ∧ BTreeIndex.subtree pages j target lo1 hi1 := by
  intro h
  induction h with
  | zero =>
    intro p lo hi _ hb
    exact absurd hb (BTreeIndex.below_zero _ _ _)
  | succ h ih =>
    intro p lo hi hs hb
    obtain ⟨nd, e, _, _, _, c⟩ := hs
    obtain ⟨nd2, e2, i, hi2, hb2⟩ := hb
    rw [e] at e2
    cases e2
    rcases hb2 with hb2 | hb2
    · exact ⟨h, _, _, Nat.lt_succ_self _, hb2 ▸ c i hi2⟩
    · obtain ⟨j, lo1, hi1, hj, hsub⟩ := ih _ _ _ (c i hi2) hb2
      exact ⟨j, lo1, hi1, Nat.lt_succ_of_lt hj, hsub⟩

/-- Claim C25.  Parent lookup.  (1) `findParent(rootPageNum)` returns
`rootPageNum` and leaves the whole state as it was, so no page is read.  (2) In a
tree of any height `H` that satisfies the separator invariant and whose pages
have numbers below the next number the file hands out, for every node `target`
below the root that holds at least one key, `findParent(target)` returns; the
result is an internal node of the tree (the root or a node below it) whose child
slot selected by routing the first key of `target` holds `target`; the call
changes pin counts only, and every pin count ends at its value before the call. -/
theorem findParent_returns_parent (t : BTreeIndex) :
    BTreeIndex.findParent t.rootPageNum t = (t, .ok t.rootPageNum) ∧
    ∀ (H : Nat) (target : PageId) (tnode : Node),
      BTreeIndex.subtree t.pages H t.rootPageNum none none →
      (∀ p : PageId, assocGet t.pages p ≠ none → p < t.nextPageNo) →
      BTreeIndex.below t.pages target H t.rootPageNum →
      assocGet t.pages target = some tnode → tnode.hasKey →
      ∃ (t1 : BTreeIndex) (par : PageId) (pn : NonLeafNodeInt),
        BTreeIndex.findParent target t = (t1, .ok par) ∧
        assocGet t.pages par = some (.nonLeaf pn) ∧
        (par = t.rootPageNum ∨ BTreeIndex.below t.pages par H t.rootPageNum) ∧
        pn.findIndex tnode.firstKey ≤ pn.numValidKeys ∧
        pn.pageNoArray.getD (pn.findIndex tnode.firstKey) 0 = target ∧
        t.pinsOnly t1 ∧ ∀ q : PageId, t1.pinCnt q = t.pinCnt q := by
  refine ⟨findParent_root t, fun H target tnode hs hfile hb ht hk => ?_⟩
  have hne : target ≠ t.rootPageNum := by
    intro e
    obtain ⟨j, lo1, hi1, hj, hsub⟩ := BTreeIndex.below_subtree t.pages target H _ _ _ hs hb
    have := BTreeIndex.subtree_height_unique t.pages _ _ _ _ _ _ _ hs (e ▸ hsub)
    omega
  obtain ⟨par, pn, e, a1, a2, a3, a4, a5, a6⟩ :=
    findParent_finds t H target tnode hs hb hne ht hk hfile
  exact ⟨_, par, pn, IndexM.run_eq_of_wp e, a1, a4, a2, a3, a5, a6⟩

theorem leafSplitResult_subtree :
    BTreeIndex.subtree (leafSplitResult 4).pages 1 (leafSplitResult 4).rootPageNum none none := by
  refine ⟨⟨1, [30, 0, 0, 0], [2, 3, 0, 0, 0], 1⟩, by decide, by decide, by decide, ?_, ?_⟩
  · intro k _
    exact ⟨(fun l hl => nomatch hl), fun h hh => nomatch hh⟩
  · intro i hi
    have hi1 : i ≤ 1 := hi
    interval_cases i
    · refine ⟨⟨[10, 20, 25, 40], [⟨10, 0⟩, ⟨20, 0⟩, ⟨25, 0⟩, ⟨40, 0⟩], 3, 3⟩, by decide, ?_⟩
      intro k hk
      have hk1 : k ∈ [(10 : Int), 20, 25] := hk
      refine ⟨(fun l hl => nomatch hl), fun h hh => ?_⟩
      have hh1 : h = 30 := by
        have : some (30 : Int) = some h := hh
        cases this
        rfl
      subst hh1
      simp only [List.mem_cons, List.mem_singleton, List.not_mem_nil, or_false] at hk1
      rcases hk1 with rfl | rfl | rfl <;> decide
    · refine ⟨⟨[30, 40, 0, 0], [⟨30, 0⟩, ⟨40, 0⟩, ⟨0, 0⟩, ⟨0, 0⟩], 2, 0⟩, by decide, ?_⟩
      intro k hk
      have hk1 : k ∈ [(30 : Int), 40] := hk
      refine ⟨fun l hl => ?_, fun h hh => nomatch hh⟩
      have hl1 : l = 30 := by
        have : some (30 : Int) = some l := hl
        cases this
        rfl
      subst hl1
      simp only [List.mem_cons, List.mem_singleton, List.not_mem_nil, or_false] at hk1
      rcases hk1 with rfl | rfl <;> decide

theorem leafSplitResult_below :
    BTreeIndex.below (leafSplitResult 4).pages 3 1 (leafSplitResult 4).rootPageNum :=
  ⟨⟨1, [30, 0, 0, 0], [2, 3, 0, 0, 0], 1⟩, by decide, 1, Nat.le_refl _, Or.inl (by decide)⟩

theorem leafSplitResult_file (p : Nat)
    (h : assocGet (leafSplitResult 4).pages p ≠ none) : p < (leafSplitResult 4).nextPageNo := by
  by_contra hp
  apply h
  have h5 : 5 ≤ p := Nat.not_lt.1 hp
  have e2 : ¬ (2 = p) := by omega
  have e3 : ¬ (3 = p) := by omega
  have e4 : ¬ (4 = p) := by omega
  simp [leafSplitResult, leafRootIndex, assocGet, List.find?, e2, e3, e4]

/-- Witness of C25: in the index with the root on page 4 over the leaves 2 and 3,
`findParent(3)` returns page 4, whose child slot for the key 30 holds page 3,
and no pin count changes. -/
theorem findParent_returns_parent_witness :
    ∃ (t1 : BTreeIndex) (par : PageId) (pn : NonLeafNodeInt),
      BTreeIndex.findParent 3 (leafSplitResult 4) = (t1, .ok par) ∧
      assocGet (leafSplitResult 4).pages par = some (.nonLeaf pn) ∧
      (par = (leafSplitResult 4).rootPageNum ∨
        BTreeIndex.below (leafSplitResult 4).pages par 1 (leafSplitResult 4).rootPageNum) ∧
      pn.findIndex (leafOfFour 30 40 0 0 2 0).firstKey ≤ pn.numValidKeys ∧
      pn.pageNoArray.getD (pn.findIndex (leafOfFour 30 40 0 0 2 0).firstKey) 0 = 3 ∧
      (leafSplitResult 4).pinsOnly t1 ∧
      ∀ q : PageId, t1.pinCnt q = (leafSplitResult 4).pinCnt q :=
  (findParent_returns_parent (leafSplitResult 4)).2 1 3 (leafOfFour 30 40 0 0 2 0)
    leafSplitResult_subtree leafSplitResult_file leafSplitResult_below (by decide)
    ⟨by decide, by decide⟩

/-! ### The new root over an internal root -/

end BadgerDB
